import Mathlib

/-!
# Key-value store server: shallow embedding and verification

Embedding of `src/server/kvs.c` and `src/server/operations.c`, of the session,
reset, backup and registration code of `src/server/main.c`, of `safe_write`
(`src/common/io.c`) and of the subscription calls and the notification decoding
of `src/client/api.c`.

* A C string (`char *`, NUL terminated) is the list of its bytes before the
  terminating NUL (`CString`); every byte is in `1..255`.
* A bucket's singly linked list of `KeyNode` is a `List KeyNode`, head first.
* The hash table is the array of its `TABLE_SIZE` buckets; indexing it (or the
  `locked[]` array of the batch operations) outside `0..TABLE_SIZE-1` is the
  fault `Fault.out_of_bounds`.
* Lock operations and writes to file descriptors are recorded, in program
  order, in a trace of `Event`s: `file_write` is a `write_to_file` on a job
  output file, `notification` the frame that `write_notification` hands to
  `safe_write`, `response` the two bytes that `write_response` hands to
  `safe_write`. `malloc`/`strdup` are taken to succeed and `write(2)` on the
  job output file accepts all the bytes it is given.
-/

namespace KVS

/-! ## C strings and libc -/

/-- A NUL-terminated C string, given by the bytes before the terminator. -/
structure CString where
  bytes : List Nat
  valid : ∀ b ∈ bytes, 0 < b ∧ b < 256
deriving DecidableEq

/-- The empty string: a buffer whose first byte is NUL. -/
def CString.empty : CString := ⟨[], by simp⟩

instance : Inhabited CString := ⟨CString.empty⟩

/-- A string literal as a C string (characters outside `1..255` are dropped). -/
def cstr (s : String) : CString :=
  ⟨(s.toList.map Char.toNat).filter (fun b => 0 < b ∧ b < 256), by
    intro b hb
    simpa using (List.mem_filter.mp hb).2⟩

/-- Bytes of a string literal, for stating file contents. -/
def ascii (s : String) : List Nat := s.toList.map Char.toNat

/-- Byte `i` of the buffer holding the string: the terminating NUL at the end. -/
def CString.at (s : CString) (i : Nat) : Nat := s.bytes.getD i 0

/-- The libc `strlen`. -/
def strlen (s : CString) : Nat := s.bytes.length

/-- The libc `tolower` in the "C" locale. -/
def tolower (c : Int) : Int := if 65 ≤ c ∧ c ≤ 90 then c + 32 else c

/-- The libc `strcmp` on the bytes of two buffers, the list end being the NUL. -/
def strcmp_bytes : List Nat → List Nat → Int
  | [], [] => 0
  | [], b :: _ => 0 - (b : Int)
  | a :: _, [] => (a : Int) - 0
  | a :: s1, b :: s2 => if a = b then strcmp_bytes s1 s2 else (a : Int) - (b : Int)

/-- The libc `strcmp`. -/
def strcmp (s1 s2 : CString) : Int := strcmp_bytes s1.bytes s2.bytes

/-- The libc `strcasecmp` on the bytes of two buffers: bytes are compared after
`tolower`, the first difference decides. -/
def strcasecmp_bytes : List Nat → List Nat → Int
  | [], [] => 0
  | [], b :: _ => tolower 0 - tolower b
  | a :: _, [] => tolower a - tolower 0
  | a :: s1, b :: s2 =>
    if tolower a = tolower b then strcasecmp_bytes s1 s2 else tolower a - tolower b

/-- The libc `strcasecmp`. -/
def strcasecmp (s1 s2 : CString) : Int := strcasecmp_bytes s1.bytes s2.bytes

/-- The libc `strncpy(dst, src, n)` into a zeroed destination: the `n` bytes
stored at `dst` (the string, cut at `n`, then NUL padding). -/
def strncpy (src : List Nat) (n : Nat) : List Nat :=
  src.take n ++ List.replicate (n - src.length) 0

/-- The string left in `buf` by `snprintf(buf, size, ...)` when the formatted
text is `text`: at most `size - 1` bytes are stored before the NUL. -/
def snprintf (size : Nat) (text : List Nat) : List Nat := text.take (size - 1)

/-! ## Constants -/

/-- Number of buckets (`kvs.h`). -/
abbrev TABLE_SIZE : Nat := 26

/-- Size of the formatting buffers (`operations.h`). -/
def BUF_SIZE : Nat := 256

/-- Modelled from the spec: `constants.h` is not among the sources; section 6.9
gives `MAX_STRING_SIZE=40` (and `operations.h` documents keys of "max 40 chars"). -/
def MAX_STRING_SIZE : Nat := 40

/-- The largest `size_t`. -/
def SIZE_MAX : Nat := 2 ^ 64 - 1

/-- Subtraction of two `size_t` values (both at most `SIZE_MAX`), wrapping
modulo `2^64`: a borrow adds `2^64`. -/
def size_sub (a b : Nat) : Nat := if b ≤ a then a - b else a + (SIZE_MAX + 1) - b

/-! ## Data model (`kvs.h`) -/

/-- A node of a bucket list: `struct KeyNode` without its `next` pointer. -/
structure KeyNode where
  key : CString
  value : CString
deriving DecidableEq

/-- The buckets of `struct HashTable`, each the list reachable from `head`. -/
structure HashTable where
  table : Fin TABLE_SIZE → List KeyNode

/-- A node of the subscription list: `struct Subscription`; `subscribers` holds
the first `subscriber_count` entries of the array. -/
structure Subscription where
  key : CString
  subscribers : List Int
deriving DecidableEq

/-- The list reachable from `SubscriptionList.head`. -/
abbrev SubscriptionList := List Subscription

/-- The locks of the server state. -/
inductive Lock where
  | global_lock
  | list_lock (i : Fin TABLE_SIZE)
  | subs_lock
deriving DecidableEq

/-- Observable actions, in program order. -/
inductive Event where
  | rdlock (l : Lock)
  | wrlock (l : Lock)
  | unlock (l : Lock)
  | file_write (fd : Int) (bytes : List Nat)
  | notification (fd : Int) (frame : List Nat)
  | stderr (text : List Nat)
  | response (fd : Int) (bytes : List Nat)
  | close (fd : Int)
deriving DecidableEq

/-- Undefined behaviour reached by the C code. -/
inductive Fault where
  | out_of_bounds (index : Int)
  | null_pointer
  | use_after_free
deriving DecidableEq

/-- The table created by `create_hash_table`: every `head` is NULL. -/
def create_hash_table : HashTable := ⟨fun _ => []⟩

/-- Checked array index: the bucket designated by a C `int` index, if any. -/
def bucket_index (index : Int) : Option (Fin TABLE_SIZE) :=
  if h : 0 ≤ index ∧ index < TABLE_SIZE then some ⟨index.toNat, by omega⟩ else none

/-- Store a new list head into bucket `i`. -/
def HashTable.set_head (ht : HashTable) (i : Fin TABLE_SIZE) (l : List KeyNode) : HashTable :=
  ⟨Function.update ht.table i l⟩

/-! ## `kvs.c` -/

/-- Embedding of `hash`. -/
def hash (key : CString) : Int :=
  let firstLetter := tolower (key.at 0)
  if 97 ≤ firstLetter ∧ firstLetter ≤ 122 then firstLetter - 97
  else if 48 ≤ firstLetter ∧ firstLetter ≤ 57 then firstLetter - 48
  else -1

/-- Embedding of `write_notification`: the frame handed to `safe_write`, if any. -/
def write_notification (notif_fd : Int) (key : CString) (value : Option CString)
    (type : Int) : Except Fault (List Event) :=
  if type = 1 then
    match value with
    | none => .error .null_pointer
    | some v =>
      .ok [.notification notif_fd
        ([1] ++ strncpy key.bytes MAX_STRING_SIZE ++ strncpy v.bytes MAX_STRING_SIZE)]
  else if type = 2 then
    .ok [.notification notif_fd
      ([2] ++ strncpy key.bytes MAX_STRING_SIZE ++ strncpy (ascii "DELETED") MAX_STRING_SIZE)]
  else if type = 3 then
    .ok [.notification notif_fd ([3] ++ List.replicate (2 * MAX_STRING_SIZE) 0)]
  else .ok []

/-- The `for` loop over `current->subscribers` calling `write_notification`. -/
def notify_subscribers (key : CString) (value : Option CString) (type : Int) :
    List Int → Except Fault (List Event)
  | [] => .ok []
  | notif_fd :: rest =>
    match write_notification notif_fd key value type with
    | .error e => .error e
    | .ok ev =>
      match notify_subscribers key value type rest with
      | .error e => .error e
      | .ok evs => .ok (ev ++ evs)

/-- The `while (current != NULL)` loop of `write_pair` over the subscription list. -/
def notify_change (key value : CString) : SubscriptionList → Except Fault (List Event)
  | [] => .ok []
  | current :: next =>
    match (if strcmp current.key key = 0
           then notify_subscribers key (some value) 1 current.subscribers else .ok []) with
    | .error e => .error e
    | .ok ev =>
      match notify_change key value next with
      | .error e => .error e
      | .ok evs => .ok (ev ++ evs)

/-- The search loop of `write_pair`: the bucket list with the value of the first
node holding `key` replaced, or `none` when no node holds `key`. -/
def replace_value (key value : CString) : List KeyNode → Option (List KeyNode)
  | [] => none
  | keyNode :: next =>
    if strcmp keyNode.key key = 0 then some ({ keyNode with value := value } :: next)
    else (replace_value key value next).map (keyNode :: ·)

/-- Embedding of `write_pair`: return value, table afterwards, trace. -/
def write_pair (ht : HashTable) (sub_list : SubscriptionList) (key value : CString) :
    Except Fault (Int × HashTable × List Event) :=
  let index := hash key
  match bucket_index index with
  | none => .error (.out_of_bounds index)
  | some i =>
    match replace_value key value (ht.table i) with
    | some l =>
      match notify_change key value sub_list with
      | .error e => .error e
      | .ok evs =>
        .ok (0, ht.set_head i l, [.rdlock .subs_lock] ++ evs ++ [.unlock .subs_lock])
    | none => .ok (0, ht.set_head i (⟨key, value⟩ :: ht.table i), [])

/-- The search loop of `read_pair` on a bucket list. -/
def find_value (key : CString) : List KeyNode → Option CString
  | [] => none
  | keyNode :: next =>
    if strcmp keyNode.key key = 0 then some keyNode.value else find_value key next

/-- Embedding of `read_pair`: `none` is the NULL result. -/
def read_pair (ht : HashTable) (key : CString) : Except Fault (Option CString) :=
  let index := hash key
  match bucket_index index with
  | none => .error (.out_of_bounds index)
  | some i => .ok (find_value key (ht.table i))

/-- The search loop of `delete_pair`: the bucket list with the first node
holding `key` unlinked, or `none` when no node holds `key`. -/
def unlink_node (key : CString) : List KeyNode → Option (List KeyNode)
  | [] => none
  | keyNode :: next =>
    if strcmp keyNode.key key = 0 then some next
    else (unlink_node key next).map (keyNode :: ·)

/-- The traversal of `remove_all_subscriptions_from_key`: the first node for
`key` is notified (type 2) and unlinked. -/
def remove_subscription_node (key : CString) :
    SubscriptionList → Except Fault (SubscriptionList × List Event)
  | [] => .ok ([], [])
  | current :: next =>
    if strcmp current.key key = 0 then
      match notify_subscribers key none 2 current.subscribers with
      | .error e => .error e
      | .ok evs => .ok (next, evs)
    else
      match remove_subscription_node key next with
      | .error e => .error e
      | .ok (l, evs) => .ok (current :: l, evs)

/-- Embedding of `remove_all_subscriptions_from_key`. -/
def remove_all_subscriptions_from_key (list : SubscriptionList) (key : CString) :
    Except Fault (SubscriptionList × List Event) :=
  match remove_subscription_node key list with
  | .error e => .error e
  | .ok (l, evs) => .ok (l, [.wrlock .subs_lock] ++ evs ++ [.unlock .subs_lock])

/-- Embedding of `delete_pair`: return value, table and subscription list
afterwards, trace. -/
def delete_pair (ht : HashTable) (sub_list : SubscriptionList) (key : CString) :
    Except Fault (Int × HashTable × SubscriptionList × List Event) :=
  let index := hash key
  match bucket_index index with
  | none => .error (.out_of_bounds index)
  | some i =>
    match unlink_node key (ht.table i) with
    | some l =>
      match remove_all_subscriptions_from_key sub_list key with
      | .error e => .error e
      | .ok (subs, evs) => .ok (0, ht.set_head i l, subs, evs)
    | none => .ok (1, ht, sub_list, [])

/-! ## `operations.c` -/

/-- Embedding of `write_to_file`: the loop issues `write` until the `strlen(buffer)`
bytes are written; nothing is written for an empty buffer. -/
def write_to_file (out_fd : Int) (buffer : List Nat) : List Event :=
  if buffer.length = 0 then [] else [.file_write out_fd buffer]

/-- Row `i` of a `char [][MAX_STRING_SIZE]` array (rows are zero-initialised by
the caller, so a row never written holds the empty string). -/
def key_at (keys : List CString) (i : Nat) : CString := keys.getD i CString.empty

/-- The inner loop of `create_alphabetical_index`: `min_idx` after scanning
`j = i+1 .. num_pairs-1`. -/
def find_min_idx (keys : List CString) (sorted_indexes : List Nat) (i : Nat) : Nat :=
  (List.range' (i + 1) (keys.length - (i + 1))).foldl
    (fun min_idx j =>
      if strcasecmp (key_at keys (sorted_indexes.getD j 0))
          (key_at keys (sorted_indexes.getD min_idx 0)) < 0
      then j else min_idx) i

/-- One iteration of the outer loop of `create_alphabetical_index`. -/
def selection_step (keys : List CString) (sorted_indexes : List Nat) (i : Nat) : List Nat :=
  let min_idx := find_min_idx keys sorted_indexes i
  if min_idx ≠ i then
    let temp := sorted_indexes.getD i 0
    (sorted_indexes.set i (sorted_indexes.getD min_idx 0)).set min_idx temp
  else sorted_indexes

/-- Embedding of `create_alphabetical_index`; `num_pairs` is the length of
`keys`. The bound `num_pairs - 1` of the outer loop is computed in `size_t`;
the `(int)` casts of the indices preserve their value for `num_pairs ≤ INT_MAX`. -/
def create_alphabetical_index (keys : List CString) : List Nat :=
  (List.range (size_sub keys.length 1)).foldl (selection_step keys) (List.range keys.length)

/-- Result of a batch operation: return value, `kvs_table` afterwards, trace. -/
structure BatchResult where
  ret : Int
  table : Option HashTable
  trace : List Event

/-- The unlock loop over `locked[]`, visiting the buckets in the given order. -/
def unlock_buckets (locked : Fin TABLE_SIZE → Bool) (order : List (Fin TABLE_SIZE)) :
    List Event :=
  (order.filter (fun i => locked i)).map (fun i => Event.unlock (.list_lock i))

/-- The main loop of `kvs_write` over `sorted_indexes`. -/
def kvs_write_loop (keys values : List CString) (sub_list : SubscriptionList) :
    List Nat → HashTable → (Fin TABLE_SIZE → Bool) →
    Except Fault (HashTable × (Fin TABLE_SIZE → Bool) × List Event)
  | [], ht, locked => .ok (ht, locked, [])
  | original_index :: rest, ht, locked =>
    let hashed_index := hash (key_at keys original_index)
    match bucket_index hashed_index with
    | none => .error (.out_of_bounds hashed_index)
    | some h =>
      let lock_ev := if locked h then [] else [Event.wrlock (.list_lock h)]
      let locked1 := if locked h then locked else Function.update locked h true
      match write_pair ht sub_list (key_at keys original_index) (key_at values original_index) with
      | .error e => .error e
      | .ok (r, ht1, evs) =>
        let err_ev := if r ≠ 0 then
            [Event.stderr (ascii "Failed to write keypair (" ++ (key_at keys original_index).bytes
              ++ ascii "," ++ (key_at values original_index).bytes ++ ascii ")\n")]
          else []
        match kvs_write_loop keys values sub_list rest ht1 locked1 with
        | .error e => .error e
        | .ok (ht2, locked2, tr) => .ok (ht2, locked2, lock_ev ++ evs ++ err_ev ++ tr)

/-- Embedding of `kvs_write`. -/
def kvs_write (kvs_table : Option HashTable) (keys values : List CString)
    (sub_list : SubscriptionList) : Except Fault BatchResult :=
  match kvs_table with
  | none => .ok ⟨1, none, [.stderr (ascii "KVS state must be initialized\n")]⟩
  | some ht =>
    let sorted_indexes := create_alphabetical_index keys
    match kvs_write_loop keys values sub_list sorted_indexes ht (fun _ => false) with
    | .error e => .error e
    | .ok (ht1, locked, tr) =>
      .ok ⟨0, some ht1,
        [.rdlock .global_lock] ++ tr
          ++ unlock_buckets locked (List.finRange TABLE_SIZE).reverse
          ++ [.unlock .global_lock]⟩

/-- The main loop of `kvs_read` over `sorted_indexes`; `MAX_WRITE_SIZE` (from the
missing `constants.h`) is the size of the buffer of the `KVSERROR` entry. -/
def kvs_read_loop (MAX_WRITE_SIZE : Nat) (keys : List CString) (out_fd : Int) (ht : HashTable) :
    List Nat → (Fin TABLE_SIZE → Bool) → Except Fault ((Fin TABLE_SIZE → Bool) × List Event)
  | [], locked => .ok (locked, [])
  | original_index :: rest, locked =>
    let hashed_index := hash (key_at keys original_index)
    match bucket_index hashed_index with
    | none => .error (.out_of_bounds hashed_index)
    | some h =>
      let lock_ev := if locked h then [] else [Event.rdlock (.list_lock h)]
      let locked1 := if locked h then locked else Function.update locked h true
      match read_pair ht (key_at keys original_index) with
      | .error e => .error e
      | .ok result =>
        let buf := match result with
          | none => snprintf MAX_WRITE_SIZE
              (ascii "(" ++ (key_at keys original_index).bytes ++ ascii ",KVSERROR)")
          | some v => snprintf BUF_SIZE
              (ascii "(" ++ (key_at keys original_index).bytes ++ ascii "," ++ v.bytes ++ ascii ")")
        match kvs_read_loop MAX_WRITE_SIZE keys out_fd ht rest locked1 with
        | .error e => .error e
        | .ok (locked2, tr) => .ok (locked2, lock_ev ++ write_to_file out_fd buf ++ tr)

/-- Embedding of `kvs_read`. -/
def kvs_read (MAX_WRITE_SIZE : Nat) (kvs_table : Option HashTable) (keys : List CString)
    (out_fd : Int) : Except Fault BatchResult :=
  match kvs_table with
  | none => .ok ⟨1, none, [.stderr (ascii "KVS state must be initialized\n")]⟩
  | some ht =>
    let sorted_indexes := create_alphabetical_index keys
    match kvs_read_loop MAX_WRITE_SIZE keys out_fd ht sorted_indexes (fun _ => false) with
    | .error e => .error e
    | .ok (locked, tr) =>
      .ok ⟨0, some ht,
        write_to_file out_fd (ascii "[") ++ tr ++ write_to_file out_fd (ascii "]\n")
          ++ unlock_buckets locked (List.finRange TABLE_SIZE)⟩

/-- The main loop of `kvs_delete` over `sorted_indexes`; the state carries the
table, the subscription list, `locked[]` and `aux`. -/
def kvs_delete_loop (keys : List CString) (out_fd : Int) :
    List Nat → HashTable → SubscriptionList → (Fin TABLE_SIZE → Bool) → Bool →
    Except Fault (HashTable × SubscriptionList × (Fin TABLE_SIZE → Bool) × Bool × List Event)
  | [], ht, sub_list, locked, aux => .ok (ht, sub_list, locked, aux, [])
  | original_index :: rest, ht, sub_list, locked, aux =>
    let hashed_index := hash (key_at keys original_index)
    match bucket_index hashed_index with
    | none => .error (.out_of_bounds hashed_index)
    | some h =>
      let lock_ev := if locked h then [] else [Event.wrlock (.list_lock h)]
      let locked1 := if locked h then locked else Function.update locked h true
      match delete_pair ht sub_list (key_at keys original_index) with
      | .error e => .error e
      | .ok (r, ht1, subs1, evs) =>
        let out_ev := if r ≠ 0 then
            (if aux then [] else write_to_file out_fd (ascii "["))
              ++ write_to_file out_fd (snprintf BUF_SIZE
                  (ascii "(" ++ (key_at keys original_index).bytes ++ ascii ",KVSMISSING)"))
          else []
        let aux1 := if r ≠ 0 then true else aux
        match kvs_delete_loop keys out_fd rest ht1 subs1 locked1 aux1 with
        | .error e => .error e
        | .ok (ht2, subs2, locked2, aux2, tr) =>
          .ok (ht2, subs2, locked2, aux2, lock_ev ++ evs ++ out_ev ++ tr)

/-- Embedding of `kvs_delete`; the second component is the subscription list
afterwards. -/
def kvs_delete (kvs_table : Option HashTable) (keys : List CString) (out_fd : Int)
    (sub_list : SubscriptionList) : Except Fault (BatchResult × SubscriptionList) :=
  match kvs_table with
  | none => .ok (⟨1, none, [.stderr (ascii "KVS state must be initialized\n")]⟩, sub_list)
  | some ht =>
    let sorted_indexes := create_alphabetical_index keys
    match kvs_delete_loop keys out_fd sorted_indexes ht sub_list (fun _ => false) false with
    | .error e => .error e
    | .ok (ht1, subs1, locked, aux, tr) =>
      .ok (⟨0, some ht1,
        [.rdlock .global_lock] ++ tr
          ++ (if aux then write_to_file out_fd (ascii "]\n") else [])
          ++ unlock_buckets locked (List.finRange TABLE_SIZE)
          ++ [.unlock .global_lock]⟩, subs1)

/-! ## Observations on traces and tables -/

/-- The bytes that a trace writes to descriptor `fd` through `write_to_file`. -/
def file_bytes (fd : Int) : List Event → List Nat
  | [] => []
  | .file_write fd1 bytes :: rest => (if fd1 = fd then bytes else []) ++ file_bytes fd rest
  | _ :: rest => file_bytes fd rest

/-- The buckets whose `list_lock` a trace acquires, in acquisition order. -/
def acquired_buckets : List Event → List (Fin TABLE_SIZE)
  | [] => []
  | .rdlock (.list_lock i) :: rest => i :: acquired_buckets rest
  | .wrlock (.list_lock i) :: rest => i :: acquired_buckets rest
  | _ :: rest => acquired_buckets rest

/-- Every node of the table, bucket 0 first. -/
def HashTable.nodes (ht : HashTable) : List KeyNode :=
  (List.finRange TABLE_SIZE).flatMap ht.table

/-- The first character of the key is in `[a-zA-Z0-9]`. -/
def alnum_first (key : CString) : Prop :=
  (65 ≤ key.at 0 ∧ key.at 0 ≤ 90) ∨ (97 ≤ key.at 0 ∧ key.at 0 ≤ 122)
    ∨ (48 ≤ key.at 0 ∧ key.at 0 ≤ 57)

instance (key : CString) : Decidable (alnum_first key) := by
  unfold alnum_first; infer_instance



/-! ## Specification-level notions -/

/-- The bucket list left by `write_pair`: the value is replaced in place when the
key is found, otherwise a new node becomes the head. -/
def write_bucket (key value : CString) (l : List KeyNode) : List KeyNode :=
  match replace_value key value l with
  | some l1 => l1
  | none => ⟨key, value⟩ :: l

/-- The bucket list left by `delete_pair`. -/
def delete_bucket (key : CString) (l : List KeyNode) : List KeyNode :=
  match unlink_node key l with
  | some l1 => l1
  | none => l

/-- Store invariant: every node sits in the bucket of its hash and no bucket
holds a key twice. -/
def TableInv (ht : HashTable) : Prop :=
  ∀ i : Fin TABLE_SIZE,
    (∀ node ∈ ht.table i, hash node.key = ((i : Nat) : Int)) ∧ ((ht.table i).map KeyNode.key).Nodup

instance (ht : HashTable) : Decidable (TableInv ht) := by
  unfold TableInv; infer_instance

/-- Table states reachable from the empty table by `write_pair` and
`delete_pair` calls on keys with an alphanumeric first character (with any
subscription list at each call). -/
inductive Reachable : HashTable → Prop where
  | init : Reachable create_hash_table
  | write {ht ht2 : HashTable} {sub_list : SubscriptionList} {key value : CString}
      {r : Int} {evs : List Event} :
      Reachable ht → alnum_first key →
      write_pair ht sub_list key value = .ok (r, ht2, evs) → Reachable ht2
  | delete {ht ht2 : HashTable} {sub_list subs2 : SubscriptionList} {key : CString}
      {r : Int} {evs : List Event} :
      Reachable ht → alnum_first key →
      delete_pair ht sub_list key = .ok (r, ht2, subs2, evs) → Reachable ht2

/-- Events produced inside `write_pair` and `delete_pair`: notification frames
and operations on the subscription lock. -/
def Event.is_internal : Event → Bool
  | .notification _ _ => true
  | .rdlock .subs_lock => true
  | .wrlock .subs_lock => true
  | .unlock .subs_lock => true
  | _ => false

/-- Row `a` of `keys` is less than or equal to row `b` for `strcasecmp`. -/
def key_le (keys : List CString) (a b : Nat) : Prop :=
  strcasecmp (key_at keys a) (key_at keys b) ≤ 0

instance (keys : List CString) (a b : Nat) : Decidable (key_le keys a b) := by
  unfold key_le; infer_instance

/-- The value found under `key` by the bucket search of `read_pair`, if the key
designates a bucket. -/
def lookup (ht : HashTable) (key : CString) : Option CString :=
  match bucket_index (hash key) with
  | some i => find_value key (ht.table i)
  | none => none

/-- The value of the entry of the table whose key is `key`, searching every
bucket: `none` when the table has no entry for `key`. -/
def stored (ht : HashTable) (key : CString) : Option CString :=
  (ht.nodes.find? (fun node => node.key = key)).map KeyNode.value

/-- The table after `write_pair` of `(key, value)`. -/
def put (ht : HashTable) (key value : CString) : HashTable :=
  match bucket_index (hash key) with
  | some i => ht.set_head i (write_bucket key value (ht.table i))
  | none => ht

/-- The table after `delete_pair` of `key`. -/
def remove (ht : HashTable) (key : CString) : HashTable :=
  match bucket_index (hash key) with
  | some i => ht.set_head i (delete_bucket key (ht.table i))
  | none => ht

/-- `delete_pair` applied to the rows `idxs` of a batch, one after the other. -/
def delete_in_order (keys : List CString) :
    List Nat → HashTable → SubscriptionList → Except Fault (HashTable × SubscriptionList)
  | [], ht, subs => .ok (ht, subs)
  | ix :: rest, ht, subs =>
    match delete_pair ht subs (key_at keys ix) with
    | .error e => .error e
    | .ok (_, ht1, subs1, _) => delete_in_order keys rest ht1 subs1

/-- The text that `kvs_read` formats for one key. -/
def read_buf (MAX_WRITE_SIZE : Nat) (ht : HashTable) (key : CString) : List Nat :=
  match lookup ht key with
  | none => snprintf MAX_WRITE_SIZE (ascii "(" ++ key.bytes ++ ascii ",KVSERROR)")
  | some v => snprintf BUF_SIZE (ascii "(" ++ key.bytes ++ ascii "," ++ v.bytes ++ ascii ")")

/-- The entry of a READ line for one key: `(K,V)` when the table has the entry
`(K,V)`, `(K,KVSERROR)` when it has no entry for `K`. -/
def read_entry (ht : HashTable) (key : CString) : List Nat :=
  match stored ht key with
  | some v => ascii "(" ++ key.bytes ++ ascii "," ++ v.bytes ++ ascii ")"
  | none => ascii "(" ++ key.bytes ++ ascii ",KVSERROR)"

/-- The entry of a DELETE line for a key that was missing. -/
def missing_entry (key : CString) : List Nat :=
  ascii "(" ++ key.bytes ++ ascii ",KVSMISSING)"

/-- The rows among `idxs` whose key has no value in the table. -/
def missing_rows (keys : List CString) (ht : HashTable) (idxs : List Nat) : List Nat :=
  idxs.filter (fun ix => decide (lookup ht (key_at keys ix) = none))

/-- The index array `idxs` lists the rows of `keys` in case-insensitive sorted
order: it is a permutation of `0..n-1` and rows at earlier positions are less
than or equal to rows at later positions for `strcasecmp`. -/
def IsSortedOrder (keys : List CString) (idxs : List Nat) : Prop :=
  idxs.Perm (List.range keys.length) ∧
    ∀ p q, p < q → q < keys.length → key_le keys (idxs.getD p 0) (idxs.getD q 0)

/-! ## Subscription registry (`kvs.c`) and its callers -/

/-- Modelled from the spec: `protocol.h` is not among the sources; sections 6.3
and 6.4 give the op codes CONNECT=1, DISCONNECT=2, SUBSCRIBE=3, UNSUBSCRIBE=4. -/
def OP_CODE_CONNECT : Nat := 1

/-- Modelled from the spec: `protocol.h` is not among the sources (section 6.4). -/
def OP_CODE_DISCONNECT : Nat := 2

/-- Modelled from the spec: `protocol.h` is not among the sources (section 6.4). -/
def OP_CODE_SUB : Nat := 3

/-- Modelled from the spec: `protocol.h` is not among the sources (section 6.4). -/
def OP_CODE_UNSUB : Nat := 4

/-- The search loop of `key_exists` on a bucket list. -/
def find_key (key : CString) : List KeyNode → Bool
  | [] => false
  | keyNode :: next => if strcmp keyNode.key key = 0 then true else find_key key next

/-- Embedding of `key_exists`: return value and trace. The `safe_rdwrunlock`
placed after the last `return` is never executed, so the trace has no unlock. -/
def key_exists (kvs_table : HashTable) (key : CString) : Except Fault (Int × List Event) :=
  let index := hash key
  match bucket_index index with
  | none => .error (.out_of_bounds index)
  | some i =>
    .ok (if find_key key (kvs_table.table i) then 1 else 0, [.rdlock .global_lock])

/-- The first loop of `add_subscription`: `none` when no node holds `key`,
otherwise the outcome on the first node holding it (`S` is the constant of the
missing `constants.h`; the array `subscribers` has `10 * S` entries). -/
def add_to_node (S : Nat) (key : CString) (notif_fd : Int) :
    SubscriptionList → Option (Except Fault (Int × SubscriptionList))
  | [] => none
  | current :: next =>
    if strcmp current.key key = 0 then
      if notif_fd ∈ current.subscribers then some (.ok (2, current :: next))
      else if current.subscribers.length < 10 * S then
        some (.ok (1, { current with subscribers := current.subscribers ++ [notif_fd] } :: next))
      else some (.error (.out_of_bounds current.subscribers.length))
    else
      (add_to_node S key notif_fd next).map (fun r =>
        match r with
        | .error e => .error e
        | .ok (c, l) => .ok (c, current :: l))

/-- Embedding of `add_subscription`: return value, list afterwards, trace. -/
def add_subscription (S : Nat) (kvs_table : HashTable) (list : SubscriptionList)
    (key : CString) (notif_fd : Int) : Except Fault (Int × SubscriptionList × List Event) :=
  match add_to_node S key notif_fd list with
  | some (.error e) => .error e
  | some (.ok (c, l)) => .ok (c, l, [.wrlock .subs_lock, .unlock .subs_lock])
  | none =>
    match key_exists kvs_table key with
    | .error e => .error e
    | .ok (r, evs) =>
      if r ≠ 0 then
        if 10 * S = 0 then .error (.out_of_bounds 0)
        else if notif_fd = 0 then
          .ok (2, list, [.wrlock .subs_lock] ++ evs ++ [.unlock .subs_lock])
        else
          .ok (1, ⟨key, [notif_fd]⟩ :: list,
            [.wrlock .subs_lock] ++ evs ++ [.unlock .subs_lock])
      else .ok (0, list, [.wrlock .subs_lock] ++ evs ++ [.unlock .subs_lock])

/-- Embedding of `remove_subscription_from_a_client`: the first occurrence of
`notif_fd` is removed and the entries after it shift down. -/
def remove_subscription_from_a_client (subscription : Subscription) (notif_fd : Int) :
    Int × Subscription :=
  if notif_fd ∈ subscription.subscribers then
    (1, { subscription with subscribers := subscription.subscribers.erase notif_fd })
  else (0, subscription)

/-- Embedding of `remove_all_subscriptions_from_client`. -/
def remove_all_subscriptions_from_client (list : SubscriptionList) (notif_fd : Int) :
    Int × SubscriptionList × List Event :=
  (0, list.map (fun current => (remove_subscription_from_a_client current notif_fd).2),
    [.wrlock .subs_lock, .unlock .subs_lock])

/-- The traversal of `unsubscribe_from_key`. -/
def unsubscribe_loop (key : CString) (notif_fd : Int) : SubscriptionList → Int × SubscriptionList
  | [] => (-1, [])
  | current :: next =>
    if strcmp current.key key = 0 then
      if (remove_subscription_from_a_client current notif_fd).1 = 1 then
        (0, (remove_subscription_from_a_client current notif_fd).2 :: next)
      else (1, (remove_subscription_from_a_client current notif_fd).2 :: next)
    else ((unsubscribe_loop key notif_fd next).1, current :: (unsubscribe_loop key notif_fd next).2)

/-- Embedding of `unsubscribe_from_key`. -/
def unsubscribe_from_key (list : SubscriptionList) (key : CString) (notif_fd : Int) :
    Int × SubscriptionList × List Event :=
  ((unsubscribe_loop key notif_fd list).1, (unsubscribe_loop key notif_fd list).2,
    [.wrlock .subs_lock, .unlock .subs_lock])

/-- Embedding of `write_response`: the two bytes handed to `safe_write`. -/
def write_response (resp_fd : Int) (op_code result : Nat) : List Event :=
  [.response resp_fd [op_code, result]]

/-- Case 3 (SUBSCRIBE) of `ClientHandlerFunction`, once the key has been read. -/
def handle_subscribe (S : Nat) (kvs_table : HashTable) (subs_list : SubscriptionList)
    (key : CString) (resp_fd notif_fd : Int) : Except Fault (SubscriptionList × List Event) :=
  match add_subscription S kvs_table subs_list key notif_fd with
  | .error e => .error e
  | .ok (result, l, evs) =>
    if result = 0 then .ok (l, evs ++ write_response resp_fd OP_CODE_SUB 0)
    else if result = 1 then .ok (l, evs ++ write_response resp_fd OP_CODE_SUB 1)
    else .ok (l, evs ++ write_response resp_fd OP_CODE_SUB 2)

/-- Case 4 (UNSUBSCRIBE) of `ClientHandlerFunction`, once the key has been read. -/
def handle_unsubscribe (subs_list : SubscriptionList) (key : CString)
    (resp_fd notif_fd : Int) : SubscriptionList × List Event :=
  let r := unsubscribe_from_key subs_list key notif_fd
  if r.1 = 0 then (r.2.1, r.2.2 ++ write_response resp_fd OP_CODE_UNSUB 0)
  else if r.1 = 1 then (r.2.1, r.2.2 ++ write_response resp_fd OP_CODE_UNSUB 1)
  else (r.2.1, r.2.2 ++ write_response resp_fd OP_CODE_UNSUB 2)

/-- The handles subscribed to `key`: the subscribers of the first node for `key`. -/
def subscribers_of (key : CString) : SubscriptionList → List Int
  | [] => []
  | current :: next =>
    if current.key = key then current.subscribers else subscribers_of key next

/-- The notification frames of a trace, with their descriptors, in order. -/
def notifications : List Event → List (Int × List Nat)
  | [] => []
  | .notification fd frame :: rest => (fd, frame) :: notifications rest
  | _ :: rest => notifications rest

/-- The response bytes of a trace, with their descriptors, in order. -/
def responses : List Event → List (Int × List Nat)
  | [] => []
  | .response fd bytes :: rest => (fd, bytes) :: responses rest
  | _ :: rest => responses rest

/-- Registry invariant: one node per key, no handle twice in a node. -/
def RegInv (subs : SubscriptionList) : Prop :=
  (subs.map Subscription.key).Nodup ∧ ∀ s ∈ subs, s.subscribers.Nodup

instance (subs : SubscriptionList) : Decidable (RegInv subs) := by
  unfold RegInv; infer_instance

/-- Every key with a subscription node has an entry in the table. -/
def SubsPresent (ht : HashTable) (subs : SubscriptionList) : Prop :=
  ∀ s ∈ subs, lookup ht s.key ≠ none

instance (ht : HashTable) (subs : SubscriptionList) : Decidable (SubsPresent ht subs) := by
  unfold SubsPresent; infer_instance

/-- States (table, registry) reachable from the empty store and the empty
registry by successful calls of `write_pair`, `delete_pair`, `add_subscription`,
`unsubscribe_from_key` and `remove_all_subscriptions_from_client`. -/
inductive ReachableState (S : Nat) : HashTable → SubscriptionList → Prop where
  | init : ReachableState S create_hash_table []
  | write {ht ht2 : HashTable} {subs : SubscriptionList} {key value : CString}
      {r : Int} {evs : List Event} :
      ReachableState S ht subs → write_pair ht subs key value = .ok (r, ht2, evs) →
      ReachableState S ht2 subs
  | delete {ht ht2 : HashTable} {subs subs2 : SubscriptionList} {key : CString}
      {r : Int} {evs : List Event} :
      ReachableState S ht subs → delete_pair ht subs key = .ok (r, ht2, subs2, evs) →
      ReachableState S ht2 subs2
  | subscribe {ht : HashTable} {subs subs2 : SubscriptionList} {key : CString}
      {fd r : Int} {evs : List Event} :
      ReachableState S ht subs → add_subscription S ht subs key fd = .ok (r, subs2, evs) →
      ReachableState S ht subs2
  | unsubscribe {ht : HashTable} {subs : SubscriptionList} (key : CString) (fd : Int) :
      ReachableState S ht subs →
      ReachableState S ht (unsubscribe_from_key subs key fd).2.1
  | drain {ht : HashTable} {subs : SubscriptionList} (fd : Int) :
      ReachableState S ht subs →
      ReachableState S ht (remove_all_subscriptions_from_client subs fd).2.1

/-- The frame of a "changed" notification (type 1). -/
def changed_frame (key value : CString) : List Nat :=
  [1] ++ strncpy key.bytes MAX_STRING_SIZE ++ strncpy value.bytes MAX_STRING_SIZE

/-- The frame of a "deleted" notification (type 2). -/
def deleted_frame (key : CString) : List Nat :=
  [2] ++ strncpy key.bytes MAX_STRING_SIZE ++ strncpy (ascii "DELETED") MAX_STRING_SIZE

/-- The list with the subscribers of the first node for `key` replaced. -/
def set_subscribers (key : CString) (hs : List Int) : SubscriptionList → SubscriptionList
  | [] => []
  | current :: next =>
    if current.key = key then { current with subscribers := hs } :: next
    else current :: set_subscribers key hs next

/-- The list without its first node for `key`. -/
def drop_node (key : CString) : SubscriptionList → SubscriptionList
  | [] => []
  | current :: next => if current.key = key then next else current :: drop_node key next

/-! ## Lock discipline of a trace -/

/-- The lock is a bucket `list_lock`. -/
def Lock.is_bucket : Lock → Bool
  | .list_lock _ => true
  | _ => false

/-- Scan of a trace for "a bucket `list_lock` is acquired only while `global_lock`
is held"; `held` lists the locks acquired and not yet released. -/
def buckets_under_global_from : List Lock → List Event → Bool
  | _, [] => true
  | held, .rdlock l :: rest =>
    (!l.is_bucket || decide (Lock.global_lock ∈ held))
      && buckets_under_global_from (l :: held) rest
  | held, .wrlock l :: rest =>
    (!l.is_bucket || decide (Lock.global_lock ∈ held))
      && buckets_under_global_from (l :: held) rest
  | held, .unlock l :: rest => buckets_under_global_from (held.erase l) rest
  | held, .file_write _ _ :: rest => buckets_under_global_from held rest
  | held, .notification _ _ :: rest => buckets_under_global_from held rest
  | held, .stderr _ :: rest => buckets_under_global_from held rest
  | held, .response _ _ :: rest => buckets_under_global_from held rest
  | held, .close _ :: rest => buckets_under_global_from held rest

/-- Every bucket lock of the trace is acquired while `global_lock` is held. -/
def buckets_under_global (trace : List Event) : Bool := buckets_under_global_from [] trace

/-- Scan of a trace for "every lock acquired is released exactly once before the
end": an unlock releases a lock that is held, and nothing is held at the end. -/
def locks_released_from : List Lock → List Event → Bool
  | held, [] => held.isEmpty
  | held, .rdlock l :: rest => locks_released_from (l :: held) rest
  | held, .wrlock l :: rest => locks_released_from (l :: held) rest
  | held, .unlock l :: rest => decide (l ∈ held) && locks_released_from (held.erase l) rest
  | held, .file_write _ _ :: rest => locks_released_from held rest
  | held, .notification _ _ :: rest => locks_released_from held rest
  | held, .stderr _ :: rest => locks_released_from held rest
  | held, .response _ _ :: rest => locks_released_from held rest
  | held, .close _ :: rest => locks_released_from held rest

/-- Every lock acquired in the trace is released exactly once before its end. -/
def locks_released (trace : List Event) : Bool := locks_released_from [] trace

/-! ## SHOW and BACKUP (`operations.c`) -/

/-- The `while (keyNode != NULL)` loop of `printTable` on one bucket list. -/
def print_bucket (fd : Int) : List KeyNode → List Event
  | [] => []
  | keyNode :: next =>
    write_to_file fd (snprintf BUF_SIZE
        (ascii "(" ++ keyNode.key.bytes ++ ascii ", " ++ keyNode.value.bytes ++ ascii ")\n"))
      ++ print_bucket fd next

/-- Embedding of `printTable`: return value and trace (`write_to_file` does not
fail, so the error branch is not taken). -/
def printTable (kvs_table : HashTable) (fd : Int) : Int × List Event :=
  (0, (List.finRange TABLE_SIZE).flatMap (fun i => print_bucket fd (kvs_table.table i)))

/-- Embedding of `kvs_show`, between `lock_table` and `unlock_table`. -/
def kvs_show (kvs_table : HashTable) (out_fd : Int) : Int × List Event :=
  (0, [.wrlock .global_lock] ++ (printTable kvs_table out_fd).2 ++ [.unlock .global_lock])

/-- Embedding of `kvs_backup`. -/
def kvs_backup (kvs_table : HashTable) (bck_fd : Int) : Int × List Event :=
  if (printTable kvs_table bck_fd).1 ≠ 0 then (1, (printTable kvs_table bck_fd).2)
  else (0, (printTable kvs_table bck_fd).2)

/-- The line of SHOW and of a backup file for one entry: `(key, value)` and a
newline. -/
def show_line (node : KeyNode) : List Nat :=
  ascii "(" ++ node.key.bytes ++ ascii ", " ++ node.value.bytes ++ ascii ")\n"

/-! ## `safe_write` (`common/io.c`) -/

/-- What one call `write(fd, buf, size)` does, as seen by `safe_write`. -/
inductive WriteResult where
  /-- The descriptor takes up to `k` bytes: the first `min k size` bytes at `buf`
  are transferred and their number is returned. -/
  | wrote (k : Nat)
  /-- The call returns -1 with `errno = EINTR`. -/
  | eintr
  /-- The call returns -1 with `errno = EPIPE`. -/
  | epipe
  /-- The call returns -1 with another `errno`. -/
  | failed
deriving DecidableEq

/-- How a run of `safe_write` ends. -/
inductive SafeWriteOutcome where
  /-- It returned `ret`; the descriptor received `received`. -/
  | returned (ret : Int) (received : List Nat)
  /-- A `write` call was made to read past the end of the buffer. -/
  | fault (f : Fault)
  /-- The given results of `write` are used up and the loop is still running
  with `size` bytes to write. -/
  | running (size : Nat) (received : List Nat)
deriving DecidableEq

/-- Embedding of `safe_write(fd, buf, size)` on a buffer holding `buf`, against
the successive results of `write`; `received` accumulates what the descriptor
got. Every call passes the pointer `buf` itself, and `size -= (size_t)bytes_written`
is computed in `size_t` also when `bytes_written` is -1. -/
def safe_write (buf : List Nat) : List WriteResult → Nat → List Nat → SafeWriteOutcome
  | [], size, received => .running size received
  | .wrote k :: rest, size, received =>
    if buf.length < min k size then .fault (.out_of_bounds buf.length)
    else if size_sub size (min k size) > 0 then
      safe_write buf rest (size_sub size (min k size)) (received ++ buf.take (min k size))
    else .returned 0 (received ++ buf.take (min k size))
  | .eintr :: rest, size, received =>
    if size_sub size SIZE_MAX > 0 then safe_write buf rest (size_sub size SIZE_MAX) received
    else .returned 0 received
  | .epipe :: _, _, received => .returned 2 received
  | .failed :: _, _, received => .returned 1 received

/-! ## Active clients (`kvs.c`, `main.c`) -/

/-- A pointer to a `struct ActiveClient`: NULL, the address of a node that has
been freed, or the address of a live node, given with the node's fields. -/
inductive ClientPtr where
  | null
  | dangling
  | node (client_req_fd client_resp_fd client_notif_fd : Int) (next : ClientPtr)
deriving DecidableEq

/-- The fields of `struct ActiveClientsList` (without its mutex). -/
structure ActiveClientsList where
  head : ClientPtr
  active_clients_counter : Int
deriving DecidableEq

/-- The insertion at the head done by `ClientHandlerFunction` for a new session. -/
def add_active_client (list : ActiveClientsList) (req_fd resp_fd notif_fd : Int) :
    ActiveClientsList :=
  ⟨.node req_fd resp_fd notif_fd list.head, list.active_clients_counter + 1⟩

/-- The traversal of `remove_active_client`: the list with the first node whose
`client_resp_fd` is `resp_fd` unlinked and freed, and whether one was found. -/
def unlink_client (resp_fd : Int) : ClientPtr → Except Fault (ClientPtr × Bool)
  | .null => .ok (.null, false)
  | .dangling => .error .use_after_free
  | .node req resp notif next =>
    if resp = resp_fd then .ok (next, true)
    else
      match unlink_client resp_fd next with
      | .error e => .error e
      | .ok (next2, found) => .ok (.node req resp notif next2, found)

/-- Embedding of `remove_active_client`. -/
def remove_active_client (list : ActiveClientsList) (resp_fd : Int) :
    Except Fault ActiveClientsList :=
  match unlink_client resp_fd list.head with
  | .error e => .error e
  | .ok (head, found) =>
    .ok ⟨head, if found then list.active_clients_counter - 1 else list.active_clients_counter⟩

/-- The loop of `disconnect_all_clients`: the three descriptors of every node
are closed and the node is freed. -/
def close_and_free_clients : ClientPtr → Except Fault (List Event)
  | .null => .ok []
  | .dangling => .error .use_after_free
  | .node req resp notif next =>
    match close_and_free_clients next with
    | .error e => .error e
    | .ok evs => .ok ([.close req, .close resp, .close notif] ++ evs)

/-- Embedding of `disconnect_all_clients`. `list->head` is not assigned: when
it pointed to a node it now holds the address of freed memory. -/
def disconnect_all_clients (list : ActiveClientsList) :
    Except Fault (ActiveClientsList × List Event) :=
  match close_and_free_clients list.head with
  | .error e => .error e
  | .ok evs =>
    .ok (⟨match list.head with
          | .null => .null
          | _ => .dangling, 0⟩, evs)

/-- Embedding of `create_subscription_list`: the head is NULL. -/
def create_subscription_list : SubscriptionList := []

/-- Embedding of `free_subs_list`: every node and the list are freed. -/
def free_subs_list (_list : SubscriptionList) : List Event :=
  [.wrlock .subs_lock, .unlock .subs_lock]

/-- The server state shared by the threads of `main.c`. -/
structure ServerState where
  kvs_table : HashTable
  subs_list : SubscriptionList
  active_clients_list : ActiveClientsList

/-- The reset done by `HostThreadFunction` when `received_sigusr1` is set. -/
def sigusr1_reset (st : ServerState) : Except Fault (ServerState × List Event) :=
  match disconnect_all_clients st.active_clients_list with
  | .error e => .error e
  | .ok (list, evs) =>
    .ok ({ st with subs_list := create_subscription_list, active_clients_list := list },
      free_subs_list st.subs_list ++ evs)

/-- What the session worker reads from the request pipe in one turn of its loop. -/
inductive Request where
  /-- The `read_all` of the op code did not return 1 (end of file or error). -/
  | read_failed
  /-- Op code 2. -/
  | disconnect
  /-- Op code 3, with the key when the `read_all` of the key returned 1. -/
  | subscribe (key : Option CString)
  /-- Op code 4, with the key when the `read_all` of the key returned 1. -/
  | unsubscribe (key : Option CString)
  /-- Another op code. -/
  | unknown (op_code : Nat)

/-- One turn of the `while (connected)` loop of `ClientHandlerFunction` for the
session with descriptors `req_fd`, `resp_fd`, `notif_fd`: the state afterwards,
whether the loop goes on, and the trace. `safe_close` is taken to succeed. -/
def session_turn (S : Nat) (st : ServerState) (req_fd resp_fd notif_fd : Int) :
    Request → Except Fault (ServerState × Bool × List Event)
  | .read_failed => .ok (st, false, [])
  | .disconnect =>
    let r := remove_all_subscriptions_from_client st.subs_list notif_fd
    if r.1 = 1 then
      .ok ({ st with subs_list := r.2.1 }, true,
        r.2.2 ++ write_response resp_fd OP_CODE_DISCONNECT 1)
    else
      match remove_active_client st.active_clients_list resp_fd with
      | .error e => .error e
      | .ok list =>
        .ok ({ st with subs_list := r.2.1, active_clients_list := list }, false,
          r.2.2 ++ [.close req_fd, .close notif_fd]
            ++ write_response resp_fd OP_CODE_DISCONNECT 0 ++ [.close resp_fd])
  | .subscribe none =>
    .ok (st, true, [.stderr (ascii "Failed to read key from request pipe\n")])
  | .subscribe (some key) =>
    match handle_subscribe S st.kvs_table st.subs_list key resp_fd notif_fd with
    | .error e => .error e
    | .ok (l, evs) => .ok ({ st with subs_list := l }, true, evs)
  | .unsubscribe none =>
    .ok (st, true, [.stderr (ascii "Failed to read key from request pipe\n")])
  | .unsubscribe (some key) =>
    .ok ({ st with subs_list := (handle_unsubscribe st.subs_list key resp_fd notif_fd).1 }, true,
      (handle_unsubscribe st.subs_list key resp_fd notif_fd).2)
  | .unknown op_code =>
    .ok (st, true, [.stderr (ascii "Unknown command received: " ++ [op_code] ++ ascii "\n")])

/-- The session with response descriptor `resp_fd` has a node in the list. -/
def ClientPtr.has_session (resp_fd : Int) : ClientPtr → Bool
  | .null => false
  | .dangling => false
  | .node _ resp _ next => decide (resp = resp_fd) || next.has_session resp_fd

/-! ## Backup children (`main.c`, `CMD_BACKUP`) -/

/-- The counter `active_child`, the child processes of the server (`running`
children have not exited, `zombies` have exited and were not waited for) and
the number `uncounted` of job threads that have forked a child and have not yet
executed their `active_child++`. -/
structure BackupState where
  active_child : Int
  running : Nat
  zombies : Nat
  uncounted : Nat
deriving DecidableEq

/-- The call `wait(NULL)`: it reaps a child that has exited, blocking until a
running child exits when there is none; it fails (`none`) without children. -/
def wait_child (s : BackupState) : Option BackupState :=
  if 0 < s.zombies then some { s with zombies := s.zombies - 1 }
  else if 0 < s.running then some { s with running := s.running - 1 }
  else none

/-- The part of `CMD_BACKUP` that a job thread executes while it holds
`active_child_mutex` (`fork` is taken to succeed): when
`active_child == MAX_PROC` it waits for a child, decrementing `active_child`
only if `wait` did not fail; then it forks. The thread releases the mutex
before it counts the child. -/
def backup_fork (MAX_PROC : Int) (s : BackupState) : BackupState :=
  let s1 :=
    if s.active_child = MAX_PROC then
      match wait_child s with
      | none => s
      | some s2 => { s2 with active_child := s2.active_child - 1 }
    else s
  { s1 with running := s1.running + 1, uncounted := s1.uncounted + 1 }

/-- The statement `active_child++` that a job thread executes after
`safe_mutex_unlock(&active_child_mutex)`, for the child it has forked. -/
def backup_count (s : BackupState) : Option BackupState :=
  if 0 < s.uncounted then
    some { s with active_child := s.active_child + 1, uncounted := s.uncounted - 1 }
  else none

/-- A running child exits. -/
def child_exits (s : BackupState) : Option BackupState :=
  if 0 < s.running then some { s with running := s.running - 1, zombies := s.zombies + 1 }
  else none

/-- States reachable from `active_child = 0` without children, with
`MAX_THREADS` job threads: a thread that has no uncounted child runs the
locked part of `CMD_BACKUP`, a thread with an uncounted child increments
`active_child`, a running child exits. -/
inductive BackupReachable (MAX_PROC : Int) (MAX_THREADS : Nat) : BackupState → Prop where
  | init : BackupReachable MAX_PROC MAX_THREADS ⟨0, 0, 0, 0⟩
  | fork {s : BackupState} :
      BackupReachable MAX_PROC MAX_THREADS s → s.uncounted < MAX_THREADS →
      BackupReachable MAX_PROC MAX_THREADS (backup_fork MAX_PROC s)
  | count {s s2 : BackupState} :
      BackupReachable MAX_PROC MAX_THREADS s → backup_count s = some s2 →
      BackupReachable MAX_PROC MAX_THREADS s2
  | child_exit {s s2 : BackupState} :
      BackupReachable MAX_PROC MAX_THREADS s → child_exits s = some s2 →
      BackupReachable MAX_PROC MAX_THREADS s2

/-! ## Registration ring (`main.c`) -/

/-- The `Client` record of `main.c`: the three pipe paths. -/
structure Client where
  req_pipe_path : List Nat
  resp_pipe_path : List Nat
  notif_pipe_path : List Nat
deriving DecidableEq

/-- The record held by an array entry that was never written (zeroed global). -/
def Client.zero : Client := ⟨[], [], []⟩

/-- The producer/consumer state of `main.c`: the array `clients`, the indices
`in` (here `in_pos`) and `out`, and the values of the semaphores `empty` and
`full`. -/
structure Ring where
  clients : List Client
  in_pos : Nat
  out : Nat
  empty : Nat
  full : Nat
deriving DecidableEq

/-- The initial state: `in = 0`, `out = 0`, `sem_init(&empty, 0, S)`,
`sem_init(&full, 0, 0)`; the array has `MAX_SESSION_COUNT` entries. -/
def ring_init (MAX_SESSION_COUNT S : Nat) : Ring :=
  ⟨List.replicate MAX_SESSION_COUNT Client.zero, 0, 0, S, 0⟩

/-- How the call `sem_wait(&empty)` of `HostThreadFunction` ends. -/
inductive SemWait where
  /-- It decremented the semaphore and returned 0. -/
  | acquired
  /-- It returned -1 with `errno = EINTR`, the semaphore unchanged: SIGUSR1
  was handled while the thread was blocked (`HostThreadFunction` unblocks the
  signal and installs the handler with `sa_flags = 0`). -/
  | interrupted
deriving DecidableEq

/-- The producer step of `HostThreadFunction`: `sem_wait(&empty)`, whose result
is not tested, then store at `clients[in]`, advance `in`, `sem_post(&full)`.
`none` when the given end of `sem_wait` is not possible: it cannot return 0
when `empty` is 0 (the thread stays blocked) and it is interrupted only while
blocked. -/
def produce (MAX_SESSION_COUNT : Nat) (r : Ring) (client : Client) : SemWait → Option Ring
  | .acquired =>
    if 0 < r.empty then
      some ⟨r.clients.set r.in_pos client, (r.in_pos + 1) % MAX_SESSION_COUNT, r.out,
        r.empty - 1, r.full + 1⟩
    else none
  | .interrupted =>
    if r.empty = 0 then
      some ⟨r.clients.set r.in_pos client, (r.in_pos + 1) % MAX_SESSION_COUNT, r.out,
        r.empty, r.full + 1⟩
    else none

/-- The consumer step of `ClientHandlerFunction`: `sem_wait(&full)`, read
`clients[out]`, advance `out`, `sem_post(&empty)`; `none` when `full` is 0 (the
session threads block SIGUSR1, so this `sem_wait` is not interrupted). -/
def consume (MAX_SESSION_COUNT : Nat) (r : Ring) : Option (Client × Ring) :=
  if 0 < r.full then
    some (r.clients.getD r.out Client.zero,
      ⟨r.clients, r.in_pos, (r.out + 1) % MAX_SESSION_COUNT, r.empty + 1, r.full - 1⟩)
  else none

/-- Ring states reachable from the initial one by producer and consumer steps
in runs where no `sem_wait` is interrupted, each with the records produced and
not yet consumed, oldest first. -/
inductive RingReachable (MAX_SESSION_COUNT S : Nat) : Ring → List Client → Prop where
  | init : RingReachable MAX_SESSION_COUNT S (ring_init MAX_SESSION_COUNT S) []
  | produce {r r2 : Ring} {pending : List Client} (client : Client) :
      RingReachable MAX_SESSION_COUNT S r pending →
      produce MAX_SESSION_COUNT r client .acquired = some r2 →
      RingReachable MAX_SESSION_COUNT S r2 (pending ++ [client])
  | consume {r r2 : Ring} {pending : List Client} {client : Client} :
      RingReachable MAX_SESSION_COUNT S r pending →
      consume MAX_SESSION_COUNT r = some (client, r2) →
      RingReachable MAX_SESSION_COUNT S r2 pending.tail

/-- The invariant of the ring, with the pending records. -/
def RingInv (M S : Nat) (r : Ring) (pending : List Client) : Prop :=
  r.in_pos < M ∧ r.out < M ∧ r.empty + r.full = S ∧ pending.length = r.full
    ∧ r.clients.length = M ∧ r.in_pos = (r.out + r.full) % M
    ∧ ∀ j, j < r.full →
        r.clients.getD ((r.out + j) % M) Client.zero = pending.getD j Client.zero

/-! ## Client (`client/api.c`) -/

/-- The C string that `strncpy(dst, field, MAX_STRING_SIZE)` leaves in a zeroed
`char[MAX_STRING_SIZE + 1]`: the bytes of the field before its first NUL. -/
def field_string (field : List Nat) : List Nat :=
  (field.take MAX_STRING_SIZE).takeWhile (fun b => b != 0)

/-- The decoding done by `notifications_thread` on the frame it has read:
`notif_code`, `key` and `value`. -/
def decode_notification (buffer : List Nat) : Nat × List Nat × List Nat :=
  (buffer.getD 0 0, field_string (buffer.drop 1),
    field_string (buffer.drop (1 + MAX_STRING_SIZE)))

/-- Embedding of the client's `kvs_subscribe`, given the two bytes of the
server's response (read only when the request is sent): return value and
`current_subs` afterwards. `MAX_NUMBER_SUB` is a constant of the missing
`constants.h`. -/
def kvs_subscribe (MAX_NUMBER_SUB current_subs : Int) (response : List Nat) : Int × Int :=
  if current_subs ≥ MAX_NUMBER_SUB then (1, current_subs)
  else if response.getD 1 0 ≠ 0 then (0, current_subs + 1)
  else (0, current_subs)

/-- Embedding of the client's `kvs_unsubscribe`, given the two bytes of the
server's response: return value and `current_subs` afterwards. -/
def kvs_unsubscribe (current_subs : Int) (response : List Nat) : Int × Int :=
  if response.getD 1 0 ≠ 0 then (1, current_subs)
  else (0, current_subs - 1)

/-- The update of `current_subs` by `notifications_thread` for one frame. -/
def notifications_thread (current_subs : Int) (buffer : List Nat) : Int :=
  if buffer.getD 0 0 = 2 then current_subs - 1 else current_subs

/-- A call of the client's `kvs_subscribe(key)` answered by the session worker
of the server: the registry and the client's `current_subs` afterwards. No
request is sent when the client is at its quota. -/
def subscribe_call (S : Nat) (MAX_NUMBER_SUB : Int) (kvs_table : HashTable)
    (subs_list : SubscriptionList) (current_subs : Int) (key : CString)
    (resp_fd notif_fd : Int) : Except Fault (SubscriptionList × Int) :=
  if current_subs ≥ MAX_NUMBER_SUB then .ok (subs_list, current_subs)
  else
    match handle_subscribe S kvs_table subs_list key resp_fd notif_fd with
    | .error e => .error e
    | .ok (l, evs) =>
      .ok (l, (kvs_subscribe MAX_NUMBER_SUB current_subs
        ((responses evs).flatMap Prod.snd)).2)

/-- The number of keys that the handle is subscribed to in the registry. -/
def subscribed_keys (notif_fd : Int) (subs : SubscriptionList) : Nat :=
  (subs.filter (fun s => decide (notif_fd ∈ s.subscribers))).length


/-! ## Lemmas on strings -/

theorem CString.ext_bytes {a b : CString} (h : a.bytes = b.bytes) : a = b := by
  cases a; cases b; cases h; rfl

theorem strcmp_bytes_eq_zero_iff (a : List Nat) :
    ∀ b : List Nat, (∀ x ∈ a, 0 < x) → (∀ x ∈ b, 0 < x) → (strcmp_bytes a b = 0 ↔ a = b) := by
  induction a with
  | nil =>
    intro b _ hb
    cases b with
    | nil => simp [strcmp_bytes]
    | cons y ys =>
      have := hb y (by simp)
      simp [strcmp_bytes]; omega
  | cons x xs ih =>
    intro b ha hb
    cases b with
    | nil =>
      have := ha x (by simp)
      simp [strcmp_bytes]; omega
    | cons y ys =>
      by_cases hxy : x = y
      · subst hxy
        have := ih ys (fun z hz => ha z (by simp [hz])) (fun z hz => hb z (by simp [hz]))
        simp [strcmp_bytes, this]
      · simp [strcmp_bytes, hxy]; omega

theorem strcmp_eq_zero_iff (a b : CString) : strcmp a b = 0 ↔ a = b := by
  unfold strcmp
  rw [strcmp_bytes_eq_zero_iff a.bytes b.bytes (fun x hx => (a.valid x hx).1)
    (fun x hx => (b.valid x hx).1)]
  exact ⟨CString.ext_bytes, fun h => by rw [h]⟩

theorem strcmp_self (a : CString) : strcmp a a = 0 := (strcmp_eq_zero_iff a a).2 rfl

/-! ## Lemmas on `hash` -/

theorem bucket_index_eq_some {x : Int} {i : Fin TABLE_SIZE} :
    bucket_index x = some i ↔ x = (i : Nat) := by
  unfold bucket_index
  constructor
  · intro h
    split at h
    · rename_i hx
      simp only [Option.some.injEq] at h
      rw [← h]; simp; omega
    · cases h
  · intro h
    have hi := i.isLt
    have hx : 0 ≤ x ∧ x < TABLE_SIZE := by omega
    rw [dif_pos hx]
    congr 1
    apply Fin.ext
    simp; omega

theorem bucket_index_eq_none {x : Int} :
    bucket_index x = none ↔ ¬ (0 ≤ x ∧ x < 26) := by
  unfold bucket_index
  constructor
  · intro h
    split at h
    · cases h
    · assumption
  · intro h
    have h2 : ¬ (0 ≤ x ∧ x < (TABLE_SIZE : Nat)) := by
      intro h3; apply h; simp at h3; omega
    rw [dif_neg h2]

theorem hash_range_iff (key : CString) : (0 ≤ hash key ∧ hash key ≤ 25) ↔ alnum_first key := by
  unfold hash alnum_first tolower
  simp only []
  split_ifs <;> omega

theorem hash_of_not_alnum (key : CString) (h : ¬ alnum_first key) : hash key = -1 := by
  unfold alnum_first at h
  unfold hash tolower
  simp only []
  split_ifs <;> first | rfl | omega

theorem alnum_bucket (key : CString) (h : alnum_first key) :
    ∃ i : Fin TABLE_SIZE, bucket_index (hash key) = some i := by
  have := (hash_range_iff key).2 h
  obtain ⟨n, hn⟩ := Int.eq_ofNat_of_zero_le this.1
  have hlt : n < 26 := by have := this.2; omega
  refine ⟨⟨n, hlt⟩, ?_⟩
  rw [bucket_index_eq_some]
  simpa using hn

/-! ## Lemmas on bucket lists -/

theorem HashTable.ext_table {a b : HashTable} (h : a.table = b.table) : a = b := by
  cases a; cases b; cases h; rfl

@[simp] theorem set_head_same (ht : HashTable) (i : Fin TABLE_SIZE) (l : List KeyNode) :
    (ht.set_head i l).table i = l := by
  simp [HashTable.set_head]

theorem set_head_other (ht : HashTable) {i j : Fin TABLE_SIZE} (l : List KeyNode) (h : j ≠ i) :
    (ht.set_head i l).table j = ht.table j := by
  simp [HashTable.set_head, Function.update_noteq h]

theorem set_head_self (ht : HashTable) (i : Fin TABLE_SIZE) : ht.set_head i (ht.table i) = ht := by
  apply HashTable.ext_table
  simp [HashTable.set_head]

theorem replace_value_eq_none (key value : CString) (l : List KeyNode) :
    replace_value key value l = none ↔ key ∉ l.map KeyNode.key := by
  induction l with
  | nil => simp [replace_value]
  | cons n rest ih =>
    by_cases h : n.key = key
    · simp [replace_value, strcmp_eq_zero_iff, h]
    · have h2 : ¬ key = n.key := fun e => h e.symm
      simp [replace_value, strcmp_eq_zero_iff, h, h2, ih]

theorem unlink_node_eq_none (key : CString) (l : List KeyNode) :
    unlink_node key l = none ↔ key ∉ l.map KeyNode.key := by
  induction l with
  | nil => simp [unlink_node]
  | cons n rest ih =>
    by_cases h : n.key = key
    · simp [unlink_node, strcmp_eq_zero_iff, h]
    · have h2 : ¬ key = n.key := fun e => h e.symm
      simp [unlink_node, strcmp_eq_zero_iff, h, h2, ih]

theorem find_value_eq_none (key : CString) (l : List KeyNode) :
    find_value key l = none ↔ key ∉ l.map KeyNode.key := by
  induction l with
  | nil => simp [find_value]
  | cons n rest ih =>
    by_cases h : n.key = key
    · simp [find_value, strcmp_eq_zero_iff, h]
    · have h2 : ¬ key = n.key := fun e => h e.symm
      simp [find_value, strcmp_eq_zero_iff, h, h2, ih]

theorem find_value_write_bucket (key value : CString) (l : List KeyNode) :
    find_value key (write_bucket key value l) = some value := by
  unfold write_bucket
  induction l with
  | nil => simp [replace_value, find_value, strcmp_self]
  | cons n rest ih =>
    by_cases h : n.key = key
    · simp [replace_value, find_value, strcmp_eq_zero_iff, h]
    · simp only [replace_value, strcmp_eq_zero_iff, h, if_false]
      cases hr : replace_value key value rest with
      | none => simp [find_value, strcmp_self]
      | some l1 =>
        rw [hr] at ih
        simpa [find_value, strcmp_eq_zero_iff, h] using ih

theorem find_value_write_bucket_ne (key value key2 : CString) (hne : key2 ≠ key)
    (l : List KeyNode) : find_value key2 (write_bucket key value l) = find_value key2 l := by
  have hne2 : ¬ key = key2 := fun e => hne e.symm
  unfold write_bucket
  induction l with
  | nil => simp [replace_value, find_value, strcmp_eq_zero_iff, hne2]
  | cons n rest ih =>
    by_cases h : n.key = key
    · subst h
      simp [replace_value, find_value, strcmp_eq_zero_iff, hne2]
    · simp only [replace_value, strcmp_eq_zero_iff, h, if_false]
      cases hr : replace_value key value rest with
      | none => simp [find_value, strcmp_eq_zero_iff, hne2]
      | some l1 =>
        rw [hr] at ih
        simp only [Option.map_some']
        simp only [find_value] at ih ⊢
        rw [ih]

theorem keys_write_bucket (key value : CString) (l : List KeyNode) :
    (write_bucket key value l).map KeyNode.key
      = if key ∈ l.map KeyNode.key then l.map KeyNode.key else key :: l.map KeyNode.key := by
  unfold write_bucket
  cases hr : replace_value key value l with
  | none =>
    have := (replace_value_eq_none key value l).1 hr
    simp [this]
  | some l1 =>
    have hmem : key ∈ l.map KeyNode.key := by
      by_contra hc
      rw [(replace_value_eq_none key value l).2 hc] at hr
      cases hr
    rw [if_pos hmem]
    clear hmem
    induction l generalizing l1 with
    | nil => simp [replace_value] at hr
    | cons n rest ih =>
      by_cases h : n.key = key
      · simp only [replace_value, strcmp_eq_zero_iff, h, if_true, Option.some.injEq] at hr
        subst hr
        simp [h]
      · simp only [replace_value, strcmp_eq_zero_iff, h, if_false] at hr
        cases hr2 : replace_value key value rest with
        | none => rw [hr2] at hr; cases hr
        | some l2 =>
          rw [hr2] at hr
          simp only [Option.map_some', Option.some.injEq] at hr
          subst hr
          simp [ih l2 hr2]

theorem keys_delete_bucket (key : CString) (l : List KeyNode) :
    (delete_bucket key l).map KeyNode.key = (l.map KeyNode.key).erase key := by
  unfold delete_bucket
  induction l with
  | nil => simp [unlink_node]
  | cons n rest ih =>
    by_cases h : n.key = key
    · simp [unlink_node, strcmp_eq_zero_iff, h]
    · simp only [unlink_node, strcmp_eq_zero_iff, h, if_false]
      cases hr : unlink_node key rest with
      | none =>
        rw [hr] at ih
        simp only [Option.map_none', List.map_cons]
        rw [List.erase_cons_tail (by simpa using h), ← ih]
      | some l1 =>
        rw [hr] at ih
        simp only [Option.map_some', List.map_cons]
        rw [List.erase_cons_tail (by simpa using h), ← ih]

theorem mem_delete_bucket {key : CString} {l : List KeyNode} {node : KeyNode}
    (h : node ∈ delete_bucket key l) : node ∈ l := by
  unfold delete_bucket at h
  induction l with
  | nil => simp [unlink_node] at h
  | cons n rest ih =>
    by_cases hk : n.key = key
    · simp only [unlink_node, strcmp_eq_zero_iff, hk, if_true] at h
      exact List.mem_cons_of_mem _ h
    · simp only [unlink_node, strcmp_eq_zero_iff, hk, if_false] at h
      cases hr : unlink_node key rest with
      | none => rw [hr] at h; simpa using h
      | some l1 =>
        rw [hr] at h ih
        simp only [Option.map_some', List.mem_cons] at h
        rcases h with h | h
        · simp [h]
        · exact List.mem_cons_of_mem _ (ih h)

theorem find_value_delete_bucket_ne (key key2 : CString) (hne : key2 ≠ key)
    (l : List KeyNode) : find_value key2 (delete_bucket key l) = find_value key2 l := by
  have hne2 : ¬ key = key2 := fun e => hne e.symm
  unfold delete_bucket
  induction l with
  | nil => simp [unlink_node]
  | cons n rest ih =>
    by_cases h : n.key = key
    · subst h
      simp [unlink_node, find_value, strcmp_eq_zero_iff, hne2]
    · simp only [unlink_node, strcmp_eq_zero_iff, h, if_false]
      cases hr : unlink_node key rest with
      | none => simp
      | some l1 =>
        rw [hr] at ih
        simp only [Option.map_some']
        simp only [find_value] at ih ⊢
        rw [ih]

theorem find_value_delete_bucket (key : CString) (l : List KeyNode)
    (hnd : (l.map KeyNode.key).Nodup) : find_value key (delete_bucket key l) = none := by
  rw [find_value_eq_none, keys_delete_bucket]
  exact fun h => (List.Nodup.mem_erase_iff hnd).1 h |>.1 rfl

theorem mem_write_bucket {key value : CString} {l : List KeyNode} {node : KeyNode}
    (h : node ∈ write_bucket key value l) : node.key = key ∨ node ∈ l := by
  unfold write_bucket at h
  induction l with
  | nil => simp [replace_value] at h; left; rw [h]
  | cons n rest ih =>
    by_cases hk : n.key = key
    · simp only [replace_value, strcmp_eq_zero_iff, hk, if_true, List.mem_cons] at h
      rcases h with h | h
      · left; rw [h]
      · right; exact List.mem_cons_of_mem _ h
    · simp only [replace_value, strcmp_eq_zero_iff, hk, if_false] at h
      cases hr : replace_value key value rest with
      | none =>
        rw [hr] at h
        simp only [Option.map_none', List.mem_cons] at h
        rcases h with h | h | h
        · left; rw [h]
        · right; simp [h]
        · right; exact List.mem_cons_of_mem _ h
      | some l1 =>
        rw [hr] at h ih
        simp only [Option.map_some', List.mem_cons] at h
        rcases h with h | h
        · right; simp [h]
        · rcases ih h with h2 | h2
          · left; exact h2
          · right; exact List.mem_cons_of_mem _ h2

/-! ## Lemmas on `write_pair`, `read_pair`, `delete_pair` -/

theorem notify_subscribers_changed (key value : CString) (fds : List Int) :
    notify_subscribers key (some value) 1 fds
      = .ok (fds.map (fun fd => Event.notification fd
          ([1] ++ strncpy key.bytes MAX_STRING_SIZE ++ strncpy value.bytes MAX_STRING_SIZE))) := by
  induction fds with
  | nil => rfl
  | cons fd rest ih => simp [notify_subscribers, write_notification, ih]

theorem notify_subscribers_deleted (key : CString) (fds : List Int) :
    notify_subscribers key none 2 fds
      = .ok (fds.map (fun fd => Event.notification fd
          ([2] ++ strncpy key.bytes MAX_STRING_SIZE
            ++ strncpy (ascii "DELETED") MAX_STRING_SIZE))) := by
  induction fds with
  | nil => rfl
  | cons fd rest ih => simp [notify_subscribers, write_notification, ih]

theorem notify_change_ok (key value : CString) (subs : SubscriptionList) :
    ∃ evs, notify_change key value subs = .ok evs ∧ ∀ e ∈ evs, e.is_internal = true := by
  induction subs with
  | nil => exact ⟨[], rfl, by simp⟩
  | cons current next ih =>
    obtain ⟨evs, h1, h2⟩ := ih
    by_cases hk : strcmp current.key key = 0
    · refine ⟨current.subscribers.map (fun fd => Event.notification fd
          ([1] ++ strncpy key.bytes MAX_STRING_SIZE ++ strncpy value.bytes MAX_STRING_SIZE))
          ++ evs, ?_, ?_⟩
      · simp only [notify_change, hk, if_true, notify_subscribers_changed, h1]
      · intro e he
        rcases List.mem_append.1 he with h | h
        · obtain ⟨fd, _, rfl⟩ := List.mem_map.1 h
          rfl
        · exact h2 e h
    · refine ⟨evs, ?_, h2⟩
      simp only [notify_change, hk, if_false, h1, List.nil_append]

theorem remove_subscription_node_ok (key : CString) (subs : SubscriptionList) :
    ∃ l evs, remove_subscription_node key subs = .ok (l, evs)
      ∧ ∀ e ∈ evs, e.is_internal = true := by
  induction subs with
  | nil => exact ⟨[], [], rfl, by simp⟩
  | cons current next ih =>
    obtain ⟨l, evs, h1, h2⟩ := ih
    by_cases hk : strcmp current.key key = 0
    · refine ⟨next, current.subscribers.map (fun fd => Event.notification fd
          ([2] ++ strncpy key.bytes MAX_STRING_SIZE
            ++ strncpy (ascii "DELETED") MAX_STRING_SIZE)), ?_, ?_⟩
      · simp only [remove_subscription_node, hk, if_true, notify_subscribers_deleted]
      · intro e he
        obtain ⟨fd, _, rfl⟩ := List.mem_map.1 he
        rfl
    · refine ⟨current :: l, evs, ?_, h2⟩
      simp only [remove_subscription_node, hk, if_false, h1]

theorem remove_all_subscriptions_from_key_ok (subs : SubscriptionList) (key : CString) :
    ∃ l evs, remove_all_subscriptions_from_key subs key = .ok (l, evs)
      ∧ ∀ e ∈ evs, e.is_internal = true := by
  obtain ⟨l, evs, h1, h2⟩ := remove_subscription_node_ok key subs
  refine ⟨l, [.wrlock .subs_lock] ++ evs ++ [.unlock .subs_lock], ?_, ?_⟩
  · simp only [remove_all_subscriptions_from_key, h1]
  · intro e he
    simp only [List.mem_append, List.mem_singleton] at he
    rcases he with (rfl | h) | rfl
    · rfl
    · exact h2 e h
    · rfl

theorem write_pair_spec (ht : HashTable) (subs : SubscriptionList) (key value : CString)
    {i : Fin TABLE_SIZE} (hi : bucket_index (hash key) = some i) :
    ∃ evs, write_pair ht subs key value
        = .ok (0, ht.set_head i (write_bucket key value (ht.table i)), evs)
      ∧ ∀ e ∈ evs, e.is_internal = true := by
  unfold write_pair write_bucket
  simp only [hi]
  cases hr : replace_value key value (ht.table i) with
  | none => exact ⟨[], rfl, by simp⟩
  | some l =>
    obtain ⟨evs, h1, h2⟩ := notify_change_ok key value subs
    refine ⟨[.rdlock .subs_lock] ++ evs ++ [.unlock .subs_lock], by simp only [h1], ?_⟩
    intro e he
    simp only [List.mem_append, List.mem_singleton] at he
    rcases he with (rfl | h) | rfl
    · rfl
    · exact h2 e h
    · rfl

theorem read_pair_spec (ht : HashTable) (key : CString)
    {i : Fin TABLE_SIZE} (hi : bucket_index (hash key) = some i) :
    read_pair ht key = .ok (find_value key (ht.table i)) := by
  unfold read_pair
  simp only [hi]

theorem delete_pair_spec (ht : HashTable) (subs : SubscriptionList) (key : CString)
    {i : Fin TABLE_SIZE} (hi : bucket_index (hash key) = some i) :
    ∃ subs2 evs, delete_pair ht subs key
        = .ok (if key ∈ (ht.table i).map KeyNode.key then 0 else 1,
            ht.set_head i (delete_bucket key (ht.table i)), subs2, evs)
      ∧ ∀ e ∈ evs, e.is_internal = true := by
  unfold delete_pair delete_bucket
  simp only [hi]
  cases hr : unlink_node key (ht.table i) with
  | none =>
    have hmem := (unlink_node_eq_none key (ht.table i)).1 hr
    refine ⟨subs, [], ?_, by simp⟩
    rw [if_neg hmem, set_head_self]
  | some l =>
    have hmem : key ∈ (ht.table i).map KeyNode.key := by
      by_contra hc
      rw [(unlink_node_eq_none key (ht.table i)).2 hc] at hr
      cases hr
    obtain ⟨l2, evs, h1, h2⟩ := remove_all_subscriptions_from_key_ok subs key
    refine ⟨l2, evs, ?_, h2⟩
    simp only [h1, if_pos hmem]

/-! ## The store invariant -/

theorem tableInv_create : TableInv create_hash_table := by
  intro i
  simp [create_hash_table]

theorem tableInv_write {ht : HashTable} (h : TableInv ht) (key value : CString)
    {i : Fin TABLE_SIZE} (hi : bucket_index (hash key) = some i) :
    TableInv (ht.set_head i (write_bucket key value (ht.table i))) := by
  intro j
  by_cases hj : j = i
  · subst hj
    rw [set_head_same]
    constructor
    · intro node hn
      rcases mem_write_bucket hn with h1 | h1
      · rw [h1]; exact bucket_index_eq_some.1 hi
      · exact (h j).1 node h1
    · rw [keys_write_bucket]
      split_ifs with hm
      · exact (h j).2
      · exact List.nodup_cons.2 ⟨hm, (h j).2⟩
  · rw [set_head_other ht _ hj]
    exact h j

theorem tableInv_delete {ht : HashTable} (h : TableInv ht) (key : CString)
    (i : Fin TABLE_SIZE) :
    TableInv (ht.set_head i (delete_bucket key (ht.table i))) := by
  intro j
  by_cases hj : j = i
  · subst hj
    rw [set_head_same]
    constructor
    · intro node hn
      exact (h j).1 node (mem_delete_bucket hn)
    · rw [keys_delete_bucket]
      exact (h j).2.erase key
  · rw [set_head_other ht _ hj]
    exact h j

theorem tableInv_of_reachable {ht : HashTable} (h : Reachable ht) : TableInv ht := by
  induction h with
  | init => exact tableInv_create
  | @write ht ht2 subs key value r evs _ hk hw ih =>
    obtain ⟨i, hi⟩ := alnum_bucket key hk
    obtain ⟨evs2, h1, _⟩ := write_pair_spec ht subs key value hi
    rw [h1] at hw
    injection hw with hw
    injection hw with _ hw
    injection hw with hw _
    rw [← hw]
    exact tableInv_write ih key value hi
  | @delete ht ht2 subs subs2 key r evs _ hk hd ih =>
    obtain ⟨i, hi⟩ := alnum_bucket key hk
    obtain ⟨s2, evs2, h1, _⟩ := delete_pair_spec ht subs key hi
    rw [h1] at hd
    injection hd with hd
    injection hd with _ hd
    injection hd with hd _
    rw [← hd]
    exact tableInv_delete ih key i

theorem nodes_keys_nodup {ht : HashTable} (h : TableInv ht) :
    (ht.nodes.map KeyNode.key).Nodup := by
  unfold HashTable.nodes
  rw [List.map_flatMap]
  rw [List.nodup_flatMap]
  constructor
  · intro i _
    exact (h i).2
  · apply (List.nodup_finRange TABLE_SIZE).pairwise_of_forall_ne
    intro a _ b _ hab
    simp only [Function.onFun]
    intro k hka hkb
    obtain ⟨na, hna, rfl⟩ := List.mem_map.1 hka
    obtain ⟨nb, hnb, hkeq⟩ := List.mem_map.1 hkb
    have h1 := (h a).1 na hna
    have h2 := (h b).1 nb hnb
    rw [hkeq, h1] at h2
    apply hab
    apply Fin.ext
    omega

/-! ## `strcasecmp` is a total preorder -/

theorem tolower_pos {b : Nat} (h : 0 < b) : 0 < tolower (b : Int) := by
  unfold tolower
  split_ifs <;> omega

theorem tolower_zero : tolower 0 = 0 := by decide

theorem strcasecmp_bytes_antisymm (a : List Nat) :
    ∀ b : List Nat, strcasecmp_bytes a b = - strcasecmp_bytes b a := by
  induction a with
  | nil =>
    intro b
    cases b with
    | nil => simp [strcasecmp_bytes]
    | cons y ys => simp [strcasecmp_bytes]
  | cons x xs ih =>
    intro b
    cases b with
    | nil => simp [strcasecmp_bytes]
    | cons y ys =>
      by_cases hxy : tolower (x : Int) = tolower (y : Int)
      · simp [strcasecmp_bytes, hxy, ih ys]
      · have hyx : ¬ tolower (y : Int) = tolower (x : Int) := fun e => hxy e.symm
        simp [strcasecmp_bytes, hxy, hyx]

theorem strcasecmp_bytes_le_trans (a : List Nat) :
    ∀ b c : List Nat, (∀ x ∈ a, 0 < x) → (∀ x ∈ b, 0 < x) →
      strcasecmp_bytes a b ≤ 0 → strcasecmp_bytes b c ≤ 0 → strcasecmp_bytes a c ≤ 0 := by
  induction a with
  | nil =>
    intro b c _ _ _ _
    cases c with
    | nil => simp [strcasecmp_bytes]
    | cons z zs =>
      simp only [strcasecmp_bytes, tolower_zero]
      have : 0 ≤ tolower (z : Int) := by unfold tolower; split_ifs <;> omega
      omega
  | cons x xs ih =>
    intro b c ha hb hab hbc
    have hx := tolower_pos (ha x (by simp))
    cases b with
    | nil =>
      simp only [strcasecmp_bytes, tolower_zero] at hab
      omega
    | cons y ys =>
      have hy := tolower_pos (hb y (by simp))
      cases c with
      | nil =>
        simp only [strcasecmp_bytes, tolower_zero] at hbc
        omega
      | cons z zs =>
        simp only [strcasecmp_bytes] at hab hbc ⊢
        by_cases hxy : tolower (x : Int) = tolower (y : Int)
        · by_cases hyz : tolower (y : Int) = tolower (z : Int)
          · rw [if_pos hxy] at hab
            rw [if_pos hyz] at hbc
            rw [if_pos (hxy.trans hyz)]
            exact ih ys zs (fun w hw => ha w (by simp [hw])) (fun w hw => hb w (by simp [hw]))
              hab hbc
          · rw [if_neg hyz] at hbc
            have hxz : ¬ tolower (x : Int) = tolower (z : Int) := by omega
            rw [if_neg hxz]
            omega
        · rw [if_neg hxy] at hab
          by_cases hyz : tolower (y : Int) = tolower (z : Int)
          · have hxz : ¬ tolower (x : Int) = tolower (z : Int) := by omega
            rw [if_neg hxz]
            omega
          · rw [if_neg hyz] at hbc
            have hxz : ¬ tolower (x : Int) = tolower (z : Int) := by omega
            rw [if_neg hxz]
            omega

theorem strcasecmp_antisymm (a b : CString) : strcasecmp a b = - strcasecmp b a :=
  strcasecmp_bytes_antisymm a.bytes b.bytes

theorem strcasecmp_self (a : CString) : strcasecmp a a = 0 := by
  have := strcasecmp_antisymm a a
  omega

theorem strcasecmp_le_trans {a b c : CString} (hab : strcasecmp a b ≤ 0)
    (hbc : strcasecmp b c ≤ 0) : strcasecmp a c ≤ 0 :=
  strcasecmp_bytes_le_trans a.bytes b.bytes c.bytes (fun x hx => (a.valid x hx).1)
    (fun x hx => (b.valid x hx).1) hab hbc

/-! ## The selection sort of `create_alphabetical_index` -/

theorem key_le_refl (keys : List CString) (a : Nat) : key_le keys a a := by
  unfold key_le; rw [strcasecmp_self]

theorem key_le_trans {keys : List CString} {a b c : Nat} (h1 : key_le keys a b)
    (h2 : key_le keys b c) : key_le keys a c :=
  strcasecmp_le_trans h1 h2

theorem key_le_of_not_lt {keys : List CString} {a b : Nat}
    (h : ¬ strcasecmp (key_at keys b) (key_at keys a) < 0) : key_le keys a b := by
  unfold key_le
  have := strcasecmp_antisymm (key_at keys a) (key_at keys b)
  omega

theorem key_le_of_lt {keys : List CString} {a b : Nat}
    (h : strcasecmp (key_at keys a) (key_at keys b) < 0) : key_le keys a b := by
  unfold key_le; omega

theorem find_min_fold (keys : List CString) (A : List Nat) (lo : Nat) :
    ∀ (len s m0 : Nat), lo ≤ m0 → m0 < s →
      (∀ j, lo ≤ j → j < s → key_le keys (A.getD m0 0) (A.getD j 0)) →
      lo ≤ (List.range' s len).foldl
          (fun min_idx j =>
            if strcasecmp (key_at keys (A.getD j 0)) (key_at keys (A.getD min_idx 0)) < 0
            then j else min_idx) m0
      ∧ (List.range' s len).foldl
          (fun min_idx j =>
            if strcasecmp (key_at keys (A.getD j 0)) (key_at keys (A.getD min_idx 0)) < 0
            then j else min_idx) m0 < s + len
      ∧ ∀ j, lo ≤ j → j < s + len →
          key_le keys (A.getD ((List.range' s len).foldl
            (fun min_idx j =>
              if strcasecmp (key_at keys (A.getD j 0)) (key_at keys (A.getD min_idx 0)) < 0
              then j else min_idx) m0) 0) (A.getD j 0) := by
  intro len
  induction len with
  | zero =>
    intro s m0 h1 h2 h3
    simp only [List.range'_zero, List.foldl_nil, Nat.add_zero]
    exact ⟨h1, h2, h3⟩
  | succ len ih =>
    intro s m0 h1 h2 h3
    rw [List.range'_succ, List.foldl_cons]
    by_cases hlt : strcasecmp (key_at keys (A.getD s 0)) (key_at keys (A.getD m0 0)) < 0
    · rw [if_pos hlt]
      have := ih (s + 1) s (by omega) (by omega) (by
        intro j hj1 hj2
        by_cases hjs : j = s
        · subst hjs; exact key_le_refl keys _
        · exact key_le_trans (key_le_of_lt hlt) (h3 j hj1 (by omega)))
      refine ⟨this.1, by omega, fun j hj1 hj2 => this.2.2 j hj1 (by omega)⟩
    · rw [if_neg hlt]
      have := ih (s + 1) m0 h1 (by omega) (by
        intro j hj1 hj2
        by_cases hjs : j = s
        · subst hjs; exact key_le_of_not_lt hlt
        · exact h3 j hj1 (by omega))
      refine ⟨this.1, by omega, fun j hj1 hj2 => this.2.2 j hj1 (by omega)⟩

theorem find_min_idx_spec (keys : List CString) (A : List Nat) (i : Nat)
    (hi : i < keys.length) :
    i ≤ find_min_idx keys A i ∧ find_min_idx keys A i < keys.length
      ∧ ∀ j, i ≤ j → j < keys.length →
          key_le keys (A.getD (find_min_idx keys A i) 0) (A.getD j 0) := by
  have := find_min_fold keys A i (keys.length - (i + 1)) (i + 1) i (le_refl i) (by omega) (by
    intro j hj1 hj2
    have : j = i := by omega
    subst this
    exact key_le_refl keys _)
  have he : i + 1 + (keys.length - (i + 1)) = keys.length := by omega
  rw [he] at this
  exact this

theorem find_min_fold_fixed (keys : List CString) (A : List Nat) (m0 : Nat) :
    ∀ (len s : Nat),
      (∀ j, s ≤ j → j < s + len →
        ¬ strcasecmp (key_at keys (A.getD j 0)) (key_at keys (A.getD m0 0)) < 0) →
      (List.range' s len).foldl
          (fun min_idx j =>
            if strcasecmp (key_at keys (A.getD j 0)) (key_at keys (A.getD min_idx 0)) < 0
            then j else min_idx) m0 = m0 := by
  intro len
  induction len with
  | zero => intro s _; rfl
  | succ len ih =>
    intro s h
    rw [List.range'_succ, List.foldl_cons, if_neg (h s (le_refl s) (by omega))]
    exact ih (s + 1) (fun j hj1 hj2 => h j (by omega) (by omega))

theorem swap_perm (l : List Nat) (i m : Nat) (hi : i < l.length) (hm : m < l.length) :
    ((l.set i (l.getD m 0)).set m (l.getD i 0)).Perm l := by
  rw [List.getD_eq_getElem l 0 hm, List.getD_eq_getElem l 0 hi]
  by_cases him : i = m
  · subst him
    have hs : l.set i l[i] = l := by
      apply List.ext_getElem?
      intro k
      rw [List.getElem?_set]
      split_ifs with h1
      · subst h1; simp
      · rfl
    rw [List.set_set, hs]
  · rw [List.perm_iff_count]
    intro b
    rw [List.count_set _ _ _ _ (by simpa using hm), List.count_set _ _ _ _ hi]
    have hm2 : m < (l.set i l[m]).length := by simpa using hm
    have h1 : (l.set i l[m])[m] = l[m] := by
      rw [List.getElem_set]; simp [him]
    rw [h1]
    have hci : l[i] = b → 1 ≤ l.count b := fun h =>
      List.count_pos_iff.2 (h ▸ List.getElem_mem hi)
    have hcm : l[m] = b → 1 ≤ l.count b := fun h =>
      List.count_pos_iff.2 (h ▸ List.getElem_mem hm)
    by_cases hb1 : l[i] = b <;> by_cases hb2 : l[m] = b <;> simp [hb1, hb2] <;> omega

theorem selection_step_perm (keys : List CString) (A : List Nat) (i : Nat)
    (hlen : A.length = keys.length) (hi : i < keys.length) :
    (selection_step keys A i).Perm A := by
  unfold selection_step
  simp only []
  split_ifs with h
  · exact swap_perm A i _ (by omega) (by rw [hlen]; exact (find_min_idx_spec keys A i hi).2.1)
  · exact List.Perm.refl _

theorem selection_step_getD (keys : List CString) (A : List Nat) (i : Nat)
    (hlen : A.length = keys.length) (hi : i < keys.length) (k : Nat) :
    (selection_step keys A i).getD k 0
      = A.getD (if k = i then find_min_idx keys A i
                else if k = find_min_idx keys A i then i else k) 0 := by
  have hm := (find_min_idx_spec keys A i hi).2.1
  unfold selection_step
  simp only []
  by_cases h : find_min_idx keys A i = i
  · rw [h]
    simp only [ne_eq, not_true_eq_false, if_false]
    split_ifs with hk
    · rw [hk]
    · rfl
  · rw [if_pos h]
    simp only [List.getD_eq_getElem?_getD, List.getElem?_set, List.length_set]
    by_cases hk1 : k = i
    · subst hk1
      have : ¬ find_min_idx keys A k = k := h
      simp [this, hlen, hi]
    · by_cases hk2 : k = find_min_idx keys A i
      · have : find_min_idx keys A i < A.length := by omega
        have hk3 : k < keys.length := by omega
        simp [hk1, ← hk2, hlen, hi, hk3]
      · have h3 : ¬ find_min_idx keys A i = k := fun e => hk2 e.symm
        have h4 : ¬ i = k := fun e => hk1 e.symm
        simp [hk1, hk2, h3, h4]

theorem size_sub_eq_mod {a b : Nat} (ha : a ≤ SIZE_MAX) (hb : b ≤ SIZE_MAX) :
    size_sub a b = (a + (SIZE_MAX + 1) - b) % (SIZE_MAX + 1) := by
  unfold size_sub
  generalize SIZE_MAX = M at *
  split_ifs with h
  · have h3 : a + (M + 1) - b = (a - b) + (M + 1) := by omega
    rw [h3, Nat.add_mod_right, Nat.mod_eq_of_lt (by omega)]
  · rw [Nat.mod_eq_of_lt (by omega)]

theorem size_sub_one {n : Nat} (h1 : 1 ≤ n) : size_sub n 1 = n - 1 := by
  unfold size_sub
  rw [if_pos h1]

theorem selection_fold_inv (keys : List CString) :
    ∀ k : Nat, k + 1 ≤ keys.length →
      ((List.range k).foldl (selection_step keys) (List.range keys.length)).length = keys.length
      ∧ ((List.range k).foldl (selection_step keys) (List.range keys.length)).Perm
          (List.range keys.length)
      ∧ ∀ p q, p < k → p < q → q < keys.length →
          key_le keys
            (((List.range k).foldl (selection_step keys) (List.range keys.length)).getD p 0)
            (((List.range k).foldl (selection_step keys) (List.range keys.length)).getD q 0) := by
  intro k
  induction k with
  | zero =>
    intro _
    refine ⟨by simp, by simp, ?_⟩
    intro p q hp
    omega
  | succ k ih =>
    intro hk
    obtain ⟨hlen, hperm, hsorted⟩ := ih (by omega)
    rw [List.range_succ, List.foldl_append]
    simp only [List.foldl_cons, List.foldl_nil]
    generalize (List.range k).foldl (selection_step keys) (List.range keys.length) = A at *
    have hk2 : k < keys.length := by omega
    have hstep := selection_step_perm keys A k hlen hk2
    obtain ⟨hm1, hm2, hm3⟩ := find_min_idx_spec keys A k hk2
    refine ⟨by rw [hstep.length_eq, hlen], hstep.trans hperm, ?_⟩
    intro p q hp hpq hq
    rw [selection_step_getD keys A k hlen hk2, selection_step_getD keys A k hlen hk2]
    by_cases hpk : p = k
    · subst hpk
      rw [if_pos rfl]
      apply hm3
      · split_ifs <;> omega
      · split_ifs <;> omega
    · have hp2 : p < k := by omega
      have hpm : ¬ p = find_min_idx keys A k := by omega
      rw [if_neg hpk, if_neg hpm]
      apply hsorted p _ hp2
      · split_ifs <;> omega
      · split_ifs <;> omega

theorem create_alphabetical_index_sorted (keys : List CString) (h1 : 1 ≤ keys.length) :
    (create_alphabetical_index keys).length = keys.length
    ∧ (create_alphabetical_index keys).Perm (List.range keys.length)
    ∧ ∀ p q, p < q → q < keys.length →
        key_le keys ((create_alphabetical_index keys).getD p 0)
          ((create_alphabetical_index keys).getD q 0) := by
  unfold create_alphabetical_index
  rw [size_sub_one h1]
  obtain ⟨hlen, hperm, hsorted⟩ := selection_fold_inv keys (keys.length - 1) (by omega)
  exact ⟨hlen, hperm, fun p q hpq hq => hsorted p q (by omega) hpq hq⟩

theorem selection_fold_sorted_input (keys : List CString)
    (hs : ∀ p q, p < q → q < keys.length →
      ¬ strcasecmp (key_at keys q) (key_at keys p) < 0) :
    ∀ k : Nat, (List.range k).foldl (selection_step keys) (List.range keys.length)
      = List.range keys.length := by
  intro k
  induction k with
  | zero => rfl
  | succ k ih =>
    rw [List.range_succ, List.foldl_append, ih]
    simp only [List.foldl_cons, List.foldl_nil]
    unfold selection_step
    simp only []
    have hfix : find_min_idx keys (List.range keys.length) k = k := by
      unfold find_min_idx
      apply find_min_fold_fixed
      intro j hj1 hj2
      by_cases hk : k < keys.length
      · have hj3 : j < keys.length := by omega
        rw [List.getD_eq_getElem _ 0 (by simpa using hj3),
          List.getD_eq_getElem _ 0 (by simpa using hk)]
        simp only [List.getElem_range]
        exact hs k j (by omega) hj3
      · omega
    rw [hfix]
    simp

/-! ## Table-level view of the three operations -/

theorem write_pair_put (ht : HashTable) (subs : SubscriptionList) (key value : CString)
    (hk : alnum_first key) :
    ∃ evs, write_pair ht subs key value = .ok (0, put ht key value, evs)
      ∧ ∀ e ∈ evs, e.is_internal = true := by
  obtain ⟨i, hi⟩ := alnum_bucket key hk
  obtain ⟨evs, h1, h2⟩ := write_pair_spec ht subs key value hi
  refine ⟨evs, ?_, h2⟩
  rw [h1]; unfold put; simp only [hi]

theorem delete_pair_remove (ht : HashTable) (subs : SubscriptionList) (key : CString)
    (hk : alnum_first key) :
    ∃ subs2 evs, delete_pair ht subs key
        = .ok (if lookup ht key = none then 1 else 0, remove ht key, subs2, evs)
      ∧ ∀ e ∈ evs, e.is_internal = true := by
  obtain ⟨i, hi⟩ := alnum_bucket key hk
  obtain ⟨subs2, evs, h1, h2⟩ := delete_pair_spec ht subs key hi
  refine ⟨subs2, evs, ?_, h2⟩
  rw [h1]; unfold remove lookup; simp only [hi, find_value_eq_none]
  by_cases hm : key ∈ (ht.table i).map KeyNode.key
  · rw [if_pos hm, if_neg (not_not.2 hm)]
  · rw [if_neg hm, if_pos hm]

theorem read_pair_lookup (ht : HashTable) (key : CString) (hk : alnum_first key) :
    read_pair ht key = .ok (lookup ht key) := by
  obtain ⟨i, hi⟩ := alnum_bucket key hk
  rw [read_pair_spec ht key hi]; unfold lookup; simp only [hi]

theorem lookup_put (ht : HashTable) (key value key2 : CString) (hk : alnum_first key) :
    lookup (put ht key value) key2 = if key2 = key then some value else lookup ht key2 := by
  obtain ⟨i, hi⟩ := alnum_bucket key hk
  unfold put
  simp only [hi]
  by_cases h : key2 = key
  · subst h
    rw [if_pos rfl]
    unfold lookup
    simp only [hi, set_head_same, find_value_write_bucket]
  · rw [if_neg h]
    unfold lookup
    cases hj : bucket_index (hash key2) with
    | none => rfl
    | some j =>
      simp only []
      by_cases hji : j = i
      · subst hji
        rw [set_head_same, find_value_write_bucket_ne key value key2 h]
      · rw [set_head_other ht _ hji]

theorem lookup_remove (ht : HashTable) (hinv : TableInv ht) (key key2 : CString) :
    lookup (remove ht key) key2 = if key2 = key then none else lookup ht key2 := by
  unfold remove
  cases hi : bucket_index (hash key) with
  | none =>
    simp only []
    by_cases h : key2 = key
    · subst h
      rw [if_pos rfl]
      unfold lookup
      simp only [hi]
    · rw [if_neg h]
  | some i =>
    simp only []
    by_cases h : key2 = key
    · subst h
      rw [if_pos rfl]
      unfold lookup
      simp only [hi, set_head_same]
      exact find_value_delete_bucket key2 _ (hinv i).2
    · rw [if_neg h]
      unfold lookup
      cases hj : bucket_index (hash key2) with
      | none => rfl
      | some j =>
        simp only []
        by_cases hji : j = i
        · subst hji
          rw [set_head_same, find_value_delete_bucket_ne key key2 h]
        · rw [set_head_other ht _ hji]

theorem tableInv_put {ht : HashTable} (h : TableInv ht) (key value : CString) :
    TableInv (put ht key value) := by
  unfold put
  cases hi : bucket_index (hash key) with
  | none => exact h
  | some i => exact tableInv_write h key value hi

theorem tableInv_remove {ht : HashTable} (h : TableInv ht) (key : CString) :
    TableInv (remove ht key) := by
  unfold remove
  cases hi : bucket_index (hash key) with
  | none => exact h
  | some i => exact tableInv_delete h key i

theorem find_value_eq_some_iff {key v : CString} {l : List KeyNode}
    (hnd : (l.map KeyNode.key).Nodup) :
    find_value key l = some v ↔ (⟨key, v⟩ : KeyNode) ∈ l := by
  induction l with
  | nil => simp [find_value]
  | cons n rest ih =>
    have hnd2 : n.key ∉ rest.map KeyNode.key ∧ (rest.map KeyNode.key).Nodup :=
      List.nodup_cons.1 hnd
    by_cases h : n.key = key
    · simp only [find_value, strcmp_eq_zero_iff, h, if_true, Option.some.injEq, List.mem_cons]
      constructor
      · intro hv
        left
        cases n
        simp only at h hv
        rw [h, hv]
      · intro hm
        rcases hm with hm | hm
        · rw [← hm]
        · exfalso
          apply hnd2.1
          rw [h]
          exact List.mem_map.2 ⟨_, hm, rfl⟩
    · simp only [find_value, strcmp_eq_zero_iff, h, if_false, List.mem_cons]
      rw [ih hnd2.2]
      constructor
      · intro hm; right; exact hm
      · intro hm
        rcases hm with hm | hm
        · exfalso; apply h; rw [← hm]
        · exact hm

theorem mem_nodes {ht : HashTable} {node : KeyNode} :
    node ∈ ht.nodes ↔ ∃ i, node ∈ ht.table i := by
  unfold HashTable.nodes
  simp [List.mem_flatMap]

theorem lookup_eq_stored {ht : HashTable} (hinv : TableInv ht) (key : CString) :
    lookup ht key = stored ht key := by
  unfold stored
  cases hf : ht.nodes.find? (fun node => node.key = key) with
  | none =>
    simp only [Option.map_none']
    unfold lookup
    cases hi : bucket_index (hash key) with
    | none => rfl
    | some i =>
      simp only []
      rw [find_value_eq_none]
      intro hm
      obtain ⟨n, hn, hnk⟩ := List.mem_map.1 hm
      have := List.find?_eq_none.1 hf n (mem_nodes.2 ⟨i, hn⟩)
      simp [hnk] at this
  | some n =>
    simp only [Option.map_some']
    have hn := List.mem_of_find?_eq_some hf
    have hnk : n.key = key := by simpa using List.find?_some hf
    obtain ⟨i, hni⟩ := mem_nodes.1 hn
    have hh := (hinv i).1 n hni
    rw [hnk] at hh
    have hi : bucket_index (hash key) = some i := bucket_index_eq_some.2 hh
    unfold lookup
    simp only [hi]
    rw [find_value_eq_some_iff (hinv i).2]
    cases n
    simp only at hnk
    subst hnk
    exact hni

/-! ## Traces -/

theorem file_bytes_append (fd : Int) (a b : List Event) :
    file_bytes fd (a ++ b) = file_bytes fd a ++ file_bytes fd b := by
  induction a with
  | nil => rfl
  | cons e rest ih =>
    cases e <;> simp [file_bytes, ih]

theorem file_bytes_internal (fd : Int) {evs : List Event}
    (h : ∀ e ∈ evs, e.is_internal = true) : file_bytes fd evs = [] := by
  induction evs with
  | nil => rfl
  | cons e rest ih =>
    have he := h e (by simp)
    have hr := ih (fun x hx => h x (by simp [hx]))
    cases e <;> simp_all [file_bytes, Event.is_internal]

theorem file_bytes_write_to_file (fd : Int) (buf : List Nat) :
    file_bytes fd (write_to_file fd buf) = buf := by
  unfold write_to_file
  split_ifs with h
  · simp [file_bytes, List.length_eq_zero.1 h]
  · simp [file_bytes]

theorem file_bytes_unlock_buckets (fd : Int) (locked : Fin TABLE_SIZE → Bool)
    (order : List (Fin TABLE_SIZE)) : file_bytes fd (unlock_buckets locked order) = [] := by
  unfold unlock_buckets
  induction order with
  | nil => rfl
  | cons i rest ih =>
    by_cases h : locked i = true
    · simp only [List.filter_cons, h, if_true, List.map_cons, file_bytes]
      exact ih
    · simp only [List.filter_cons, h, if_false]
      exact ih

theorem file_bytes_wrlock_ev (fd : Int) (c : Bool) (l : Lock) :
    file_bytes fd (if c = true then [] else [Event.wrlock l]) = [] := by
  cases c <;> rfl

theorem file_bytes_rdlock_ev (fd : Int) (c : Bool) (l : Lock) :
    file_bytes fd (if c = true then [] else [Event.rdlock l]) = [] := by
  cases c <;> rfl

/-! ## The batch loops -/

theorem kvs_write_loop_cons (keys values : List CString) (subs : SubscriptionList)
    (ix : Nat) (rest : List Nat) (ht : HashTable) (locked : Fin TABLE_SIZE → Bool) :
    kvs_write_loop keys values subs (ix :: rest) ht locked =
      match bucket_index (hash (key_at keys ix)) with
      | none => .error (.out_of_bounds (hash (key_at keys ix)))
      | some h =>
        match write_pair ht subs (key_at keys ix) (key_at values ix) with
        | .error e => .error e
        | .ok (r, ht1, evs) =>
          match kvs_write_loop keys values subs rest ht1
              (if locked h then locked else Function.update locked h true) with
          | .error e => .error e
          | .ok (ht2, locked2, tr) =>
            .ok (ht2, locked2, (if locked h then [] else [Event.wrlock (.list_lock h)]) ++ evs
              ++ (if r ≠ 0 then
                  [Event.stderr (ascii "Failed to write keypair (" ++ (key_at keys ix).bytes
                    ++ ascii "," ++ (key_at values ix).bytes ++ ascii ")\n")]
                else []) ++ tr) := rfl

theorem kvs_read_loop_cons (M : Nat) (keys : List CString) (fd : Int) (ht : HashTable)
    (ix : Nat) (rest : List Nat) (locked : Fin TABLE_SIZE → Bool) :
    kvs_read_loop M keys fd ht (ix :: rest) locked =
      match bucket_index (hash (key_at keys ix)) with
      | none => .error (.out_of_bounds (hash (key_at keys ix)))
      | some h =>
        match read_pair ht (key_at keys ix) with
        | .error e => .error e
        | .ok result =>
          match kvs_read_loop M keys fd ht rest
              (if locked h then locked else Function.update locked h true) with
          | .error e => .error e
          | .ok (locked2, tr) =>
            .ok (locked2, (if locked h then [] else [Event.rdlock (.list_lock h)])
              ++ write_to_file fd (match result with
                | none => snprintf M
                    (ascii "(" ++ (key_at keys ix).bytes ++ ascii ",KVSERROR)")
                | some v => snprintf BUF_SIZE
                    (ascii "(" ++ (key_at keys ix).bytes ++ ascii "," ++ v.bytes ++ ascii ")"))
              ++ tr) := rfl

theorem kvs_write_loop_spec (keys values : List CString) (subs : SubscriptionList) :
    ∀ (idxs : List Nat) (ht : HashTable) (locked : Fin TABLE_SIZE → Bool),
      (∀ ix ∈ idxs, alnum_first (key_at keys ix)) →
      ∃ locked2 tr, kvs_write_loop keys values subs idxs ht locked
          = .ok (idxs.foldl (fun t ix => put t (key_at keys ix) (key_at values ix)) ht,
              locked2, tr)
        ∧ ∀ fd, file_bytes fd tr = [] := by
  intro idxs
  induction idxs with
  | nil =>
    intro ht locked _
    exact ⟨locked, [], rfl, fun _ => rfl⟩
  | cons ix rest ih =>
    intro ht locked hal
    have hk := hal ix (by simp)
    obtain ⟨i, hi⟩ := alnum_bucket _ hk
    obtain ⟨evs, hw, hint⟩ := write_pair_put ht subs (key_at keys ix) (key_at values ix) hk
    obtain ⟨locked2, tr, hl, hf⟩ := ih (put ht (key_at keys ix) (key_at values ix))
      (if locked i = true then locked else Function.update locked i true)
      (fun x hx => hal x (by simp [hx]))
    refine ⟨locked2, (if locked i = true then [] else [Event.wrlock (.list_lock i)])
      ++ evs ++ [] ++ tr, ?_, ?_⟩
    · rw [kvs_write_loop_cons]
      simp only [hi, hw, hl, List.foldl_cons, ne_eq, not_true_eq_false, if_false]
    · intro fd
      simp only [file_bytes_append, file_bytes_wrlock_ev, file_bytes_internal fd hint, hf fd,
        file_bytes, List.append_nil]

theorem kvs_read_loop_spec (M : Nat) (keys : List CString) (fd : Int) (ht : HashTable) :
    ∀ (idxs : List Nat) (locked : Fin TABLE_SIZE → Bool),
      (∀ ix ∈ idxs, alnum_first (key_at keys ix)) →
      ∃ locked2 tr, kvs_read_loop M keys fd ht idxs locked = .ok (locked2, tr)
        ∧ file_bytes fd tr = idxs.flatMap (fun ix => read_buf M ht (key_at keys ix)) := by
  intro idxs
  induction idxs with
  | nil =>
    intro locked _
    exact ⟨locked, [], rfl, rfl⟩
  | cons ix rest ih =>
    intro locked hal
    have hk := hal ix (by simp)
    obtain ⟨i, hi⟩ := alnum_bucket _ hk
    obtain ⟨locked2, tr, hl, hf⟩ := ih
      (if locked i = true then locked else Function.update locked i true)
      (fun x hx => hal x (by simp [hx]))
    refine ⟨locked2, (if locked i = true then [] else [Event.rdlock (.list_lock i)])
      ++ write_to_file fd (read_buf M ht (key_at keys ix)) ++ tr, ?_, ?_⟩
    · rw [kvs_read_loop_cons]
      simp only [hi, read_pair_lookup ht _ hk, hl, read_buf]
    · simp only [file_bytes_append, file_bytes_rdlock_ev, file_bytes_write_to_file, hf,
        List.flatMap_cons, List.nil_append]

theorem kvs_delete_loop_cons (keys : List CString) (fd : Int)
    (ix : Nat) (rest : List Nat) (ht : HashTable) (subs : SubscriptionList)
    (locked : Fin TABLE_SIZE → Bool) (aux : Bool) :
    kvs_delete_loop keys fd (ix :: rest) ht subs locked aux =
      match bucket_index (hash (key_at keys ix)) with
      | none => .error (.out_of_bounds (hash (key_at keys ix)))
      | some h =>
        match delete_pair ht subs (key_at keys ix) with
        | .error e => .error e
        | .ok (r, ht1, subs1, evs) =>
          match kvs_delete_loop keys fd rest ht1 subs1
              (if locked h then locked else Function.update locked h true)
              (if r ≠ 0 then true else aux) with
          | .error e => .error e
          | .ok (ht2, subs2, locked2, aux2, tr) =>
            .ok (ht2, subs2, locked2, aux2,
              (if locked h then [] else [Event.wrlock (.list_lock h)]) ++ evs
              ++ (if r ≠ 0 then
                  (if aux then [] else write_to_file fd (ascii "["))
                    ++ write_to_file fd (snprintf BUF_SIZE
                        (ascii "(" ++ (key_at keys ix).bytes ++ ascii ",KVSMISSING)"))
                else []) ++ tr) := rfl

theorem missing_rows_remove (keys : List CString) (ht : HashTable) (hinv : TableInv ht)
    (k : CString) (rest : List Nat) (hk : k ∉ rest.map (key_at keys)) :
    missing_rows keys (remove ht k) rest = missing_rows keys ht rest := by
  unfold missing_rows
  apply List.filter_congr
  intro x hx
  have hne : key_at keys x ≠ k := by
    intro e
    apply hk
    exact List.mem_map.2 ⟨x, hx, e⟩
  rw [lookup_remove ht hinv, if_neg hne]

theorem kvs_delete_loop_spec (keys : List CString) (fd : Int) :
    ∀ (idxs : List Nat) (ht : HashTable) (subs : SubscriptionList)
      (locked : Fin TABLE_SIZE → Bool) (aux : Bool),
      (∀ ix ∈ idxs, alnum_first (key_at keys ix)) → TableInv ht →
      (idxs.map (key_at keys)).Nodup →
      ∃ subs2 locked2 tr, kvs_delete_loop keys fd idxs ht subs locked aux
          = .ok (idxs.foldl (fun t ix => remove t (key_at keys ix)) ht, subs2, locked2,
              aux || !(missing_rows keys ht idxs).isEmpty, tr)
        ∧ file_bytes fd tr
          = (if aux = false ∧ missing_rows keys ht idxs ≠ [] then ascii "[" else [])
            ++ (missing_rows keys ht idxs).flatMap
                (fun ix => snprintf BUF_SIZE (missing_entry (key_at keys ix))) := by
  intro idxs
  induction idxs with
  | nil =>
    intro ht subs locked aux _ _ _
    refine ⟨subs, locked, [], ?_, ?_⟩
    · simp [kvs_delete_loop, missing_rows]
    · simp [missing_rows, file_bytes]
  | cons ix rest ih =>
    intro ht subs locked aux hal hinv hnd
    have hk := hal ix (by simp)
    obtain ⟨i, hi⟩ := alnum_bucket _ hk
    obtain ⟨subs1, evs, hd, hint⟩ := delete_pair_remove ht subs (key_at keys ix) hk
    have hnd2 : key_at keys ix ∉ rest.map (key_at keys) ∧ (rest.map (key_at keys)).Nodup :=
      List.nodup_cons.1 hnd
    have hmr := missing_rows_remove keys ht hinv (key_at keys ix) rest hnd2.1
    by_cases hl : lookup ht (key_at keys ix) = none
    · obtain ⟨subs2, locked2, tr, hloop, hf⟩ := ih (remove ht (key_at keys ix)) subs1
        (if locked i = true then locked else Function.update locked i true) true
        (fun x hx => hal x (by simp [hx])) (tableInv_remove hinv _) hnd2.2
      have hm : missing_rows keys ht (ix :: rest) = ix :: missing_rows keys ht rest := by
        simp [missing_rows, hl]
      refine ⟨subs2, locked2, (if locked i = true then [] else [Event.wrlock (.list_lock i)])
        ++ evs ++ ((if aux = true then [] else write_to_file fd (ascii "["))
          ++ write_to_file fd (snprintf BUF_SIZE
            (ascii "(" ++ (key_at keys ix).bytes ++ ascii ",KVSMISSING)"))) ++ tr, ?_, ?_⟩
      · rw [kvs_delete_loop_cons]
        simp only [hi, hd, hl, if_true, ne_eq, one_ne_zero, not_false_eq_true, hloop]
        simp [hm]
      · simp only [file_bytes_append, file_bytes_wrlock_ev, file_bytes_internal fd hint, hf,
          file_bytes_write_to_file, hm, hmr, List.nil_append, List.flatMap_cons]
        cases aux <;> simp [file_bytes_write_to_file, file_bytes, missing_entry]
    · obtain ⟨subs2, locked2, tr, hloop, hf⟩ := ih (remove ht (key_at keys ix)) subs1
        (if locked i = true then locked else Function.update locked i true) aux
        (fun x hx => hal x (by simp [hx])) (tableInv_remove hinv _) hnd2.2
      have hm : missing_rows keys ht (ix :: rest) = missing_rows keys ht rest := by
        simp [missing_rows, hl]
      refine ⟨subs2, locked2, (if locked i = true then [] else [Event.wrlock (.list_lock i)])
        ++ evs ++ [] ++ tr, ?_, ?_⟩
      · rw [kvs_delete_loop_cons]
        simp only [hi, hd, hl, if_false, ne_eq, not_true_eq_false, hloop]
        simp [hm, hmr]
      · simp only [file_bytes_append, file_bytes_wrlock_ev, file_bytes_internal fd hint, hf,
          hm, hmr, List.nil_append, file_bytes]

theorem delete_in_order_spec (keys : List CString) :
    ∀ (idxs : List Nat) (ht : HashTable) (subs : SubscriptionList),
      (∀ ix ∈ idxs, alnum_first (key_at keys ix)) →
      ∃ subs2, delete_in_order keys idxs ht subs
        = .ok (idxs.foldl (fun t ix => remove t (key_at keys ix)) ht, subs2) := by
  intro idxs
  induction idxs with
  | nil => intro ht subs _; exact ⟨subs, rfl⟩
  | cons ix rest ih =>
    intro ht subs hal
    obtain ⟨subs1, evs, hd, _⟩ := delete_pair_remove ht subs (key_at keys ix) (hal ix (by simp))
    have hu : delete_in_order keys (ix :: rest) ht subs =
        match delete_pair ht subs (key_at keys ix) with
        | .error e => .error e
        | .ok (_, ht1, subs1, _) => delete_in_order keys rest ht1 subs1 := rfl
    rw [hu]
    simp only [hd, List.foldl_cons]
    exact ih _ subs1 (fun x hx => hal x (by simp [hx]))

/-! ## The batch operations -/

theorem isSortedOrder_create (keys : List CString) (h1 : 1 ≤ keys.length) :
    IsSortedOrder keys (create_alphabetical_index keys) :=
  (create_alphabetical_index_sorted keys h1).2

theorem key_at_mem {keys : List CString} {ix : Nat} (h : ix < keys.length) :
    key_at keys ix ∈ keys := by
  unfold key_at
  rw [List.getD_eq_getElem _ _ h]
  exact List.getElem_mem h

theorem map_key_at_range (keys : List CString) :
    (List.range keys.length).map (key_at keys) = keys := by
  apply List.ext_getElem
  · simp
  · intro i h1 h2
    simp [key_at, List.getElem?_eq_getElem h2]

theorem sorted_keys_perm {keys : List CString} {idxs : List Nat}
    (h : idxs.Perm (List.range keys.length)) : (idxs.map (key_at keys)).Perm keys := by
  have := h.map (key_at keys)
  rwa [map_key_at_range] at this

theorem sorted_idx_alnum {keys : List CString} {idxs : List Nat}
    (h : idxs.Perm (List.range keys.length)) (hal : ∀ k ∈ keys, alnum_first k) :
    ∀ ix ∈ idxs, alnum_first (key_at keys ix) := by
  intro ix hix
  have : ix < keys.length := List.mem_range.1 ((h.mem_iff).1 hix)
  exact hal _ (key_at_mem this)

theorem kvs_write_spec (ht : HashTable) (keys values : List CString) (subs : SubscriptionList)
    (h1 : 1 ≤ keys.length) (hal : ∀ k ∈ keys, alnum_first k) :
    ∃ r, kvs_write (some ht) keys values subs = .ok r ∧ r.ret = 0
      ∧ r.table = some ((create_alphabetical_index keys).foldl
          (fun t ix => put t (key_at keys ix) (key_at values ix)) ht)
      ∧ ∀ fd, file_bytes fd r.trace = [] := by
  have hidx := sorted_idx_alnum (isSortedOrder_create keys h1).1 hal
  obtain ⟨locked2, tr, hl, hf⟩ :=
    kvs_write_loop_spec keys values subs _ ht (fun _ => false) hidx
  refine ⟨⟨0, some ((create_alphabetical_index keys).foldl
      (fun t ix => put t (key_at keys ix) (key_at values ix)) ht),
    [.rdlock .global_lock] ++ tr ++ unlock_buckets locked2 (List.finRange TABLE_SIZE).reverse
      ++ [.unlock .global_lock]⟩, ?_, rfl, rfl, ?_⟩
  · simp only [kvs_write, hl]
  intro fd
  simp only [file_bytes_append, hf fd, file_bytes_unlock_buckets]
  rfl

theorem kvs_read_spec (M : Nat) (ht : HashTable) (keys : List CString) (fd : Int)
    (h1 : 1 ≤ keys.length) (hal : ∀ k ∈ keys, alnum_first k) :
    ∃ r, kvs_read M (some ht) keys fd = .ok r ∧ r.ret = 0 ∧ r.table = some ht
      ∧ file_bytes fd r.trace = ascii "[" ++ (create_alphabetical_index keys).flatMap
          (fun ix => read_buf M ht (key_at keys ix)) ++ ascii "]\n" := by
  have hidx := sorted_idx_alnum (isSortedOrder_create keys h1).1 hal
  obtain ⟨locked2, tr, hl, hf⟩ :=
    kvs_read_loop_spec M keys fd ht _ (fun _ => false) hidx
  refine ⟨⟨0, some ht, write_to_file fd (ascii "[") ++ tr ++ write_to_file fd (ascii "]\n")
      ++ unlock_buckets locked2 (List.finRange TABLE_SIZE)⟩, ?_, rfl, rfl, ?_⟩
  · simp only [kvs_read, hl]
  simp only [file_bytes_append, hf, file_bytes_unlock_buckets, file_bytes_write_to_file,
    List.append_nil]

theorem kvs_delete_loop_table (keys : List CString) (fd : Int) :
    ∀ (idxs : List Nat) (ht : HashTable) (subs : SubscriptionList)
      (locked : Fin TABLE_SIZE → Bool) (aux : Bool),
      (∀ ix ∈ idxs, alnum_first (key_at keys ix)) →
      ∃ subs2 locked2 aux2 tr, kvs_delete_loop keys fd idxs ht subs locked aux
          = .ok (idxs.foldl (fun t ix => remove t (key_at keys ix)) ht, subs2, locked2, aux2, tr)
        ∧ delete_in_order keys idxs ht subs
          = .ok (idxs.foldl (fun t ix => remove t (key_at keys ix)) ht, subs2) := by
  intro idxs
  induction idxs with
  | nil =>
    intro ht subs locked aux _
    exact ⟨subs, locked, aux, [], rfl, rfl⟩
  | cons ix rest ih =>
    intro ht subs locked aux hal
    have hk := hal ix (by simp)
    obtain ⟨i, hi⟩ := alnum_bucket _ hk
    obtain ⟨subs1, evs, hd, _⟩ := delete_pair_remove ht subs (key_at keys ix) hk
    obtain ⟨subs2, locked2, aux2, tr, hloop, hord⟩ := ih (remove ht (key_at keys ix)) subs1
      (if locked i = true then locked else Function.update locked i true)
      (if (if lookup ht (key_at keys ix) = none then (1 : Int) else 0) ≠ 0 then true else aux)
      (fun x hx => hal x (by simp [hx]))
    have hu : delete_in_order keys (ix :: rest) ht subs =
        match delete_pair ht subs (key_at keys ix) with
        | .error e => .error e
        | .ok (_, ht1, subs1, _) => delete_in_order keys rest ht1 subs1 := rfl
    rw [kvs_delete_loop_cons, hu]
    simp only [hi, hd, hloop, hord, List.foldl_cons]
    exact ⟨_, _, _, _, rfl, rfl⟩

/-! ## Lookups after a batch -/

theorem lookup_foldl_put_other (keys values : List CString) (k : CString) :
    ∀ (idxs : List Nat) (ht : HashTable),
      (∀ ix ∈ idxs, alnum_first (key_at keys ix)) → k ∉ idxs.map (key_at keys) →
      lookup (idxs.foldl (fun t ix => put t (key_at keys ix) (key_at values ix)) ht) k
        = lookup ht k := by
  intro idxs
  induction idxs with
  | nil => intro ht _ _; rfl
  | cons ix rest ih =>
    intro ht hal hk
    have hk2 : k ≠ key_at keys ix ∧ k ∉ rest.map (key_at keys) := by
      simpa [not_or] using hk
    rw [List.foldl_cons, ih _ (fun x hx => hal x (by simp [hx])) hk2.2,
      lookup_put ht _ _ _ (hal ix (by simp)), if_neg hk2.1]

theorem lookup_foldl_put (keys values : List CString) :
    ∀ (idxs : List Nat) (ht : HashTable),
      (∀ ix ∈ idxs, alnum_first (key_at keys ix)) → (idxs.map (key_at keys)).Nodup →
      ∀ i ∈ idxs,
        lookup (idxs.foldl (fun t ix => put t (key_at keys ix) (key_at values ix)) ht)
          (key_at keys i) = some (key_at values i) := by
  intro idxs
  induction idxs with
  | nil => intro ht _ _ i hi; simp at hi
  | cons ix rest ih =>
    intro ht hal hnd i hi
    have hnd2 : key_at keys ix ∉ rest.map (key_at keys) ∧ (rest.map (key_at keys)).Nodup :=
      List.nodup_cons.1 hnd
    rw [List.foldl_cons]
    by_cases hir : i ∈ rest
    · exact ih _ (fun x hx => hal x (by simp [hx])) hnd2.2 i hir
    · have hix : i = ix := by
        rcases List.mem_cons.1 hi with h | h
        · exact h
        · exact absurd h hir
      subst hix
      rw [lookup_foldl_put_other keys values _ rest _ (fun x hx => hal x (by simp [hx])) hnd2.1,
        lookup_put ht _ _ _ (hal i (by simp)), if_pos rfl]

theorem snprintf_fits {size : Nat} {text : List Nat} (h : text.length + 1 ≤ size) :
    snprintf size text = text := by
  unfold snprintf
  exact List.take_of_length_le (by omega)

theorem ascii_lengths :
    (ascii "(").length = 1 ∧ (ascii ",").length = 1 ∧ (ascii ")").length = 1
      ∧ (ascii ",KVSERROR)").length = 10 ∧ (ascii ",KVSMISSING)").length = 12 := by
  decide

theorem read_buf_present {M : Nat} {ht : HashTable} {k v : CString}
    (hl : lookup ht k = some v) (hk : strlen k < MAX_STRING_SIZE)
    (hv : strlen v < MAX_STRING_SIZE) :
    read_buf M ht k = ascii "(" ++ k.bytes ++ ascii "," ++ v.bytes ++ ascii ")" := by
  unfold read_buf
  rw [hl]
  simp only []
  apply snprintf_fits
  obtain ⟨h1, h2, h3, _, _⟩ := ascii_lengths
  simp only [List.length_append, h1, h2, h3]
  unfold strlen MAX_STRING_SIZE at *
  unfold BUF_SIZE
  omega

theorem read_buf_absent {M : Nat} {ht : HashTable} {k : CString}
    (hl : lookup ht k = none) (hk : strlen k < MAX_STRING_SIZE)
    (hM : MAX_STRING_SIZE + 11 ≤ M) :
    read_buf M ht k = ascii "(" ++ k.bytes ++ ascii ",KVSERROR)" := by
  unfold read_buf
  rw [hl]
  simp only []
  apply snprintf_fits
  obtain ⟨h1, _, _, h4, _⟩ := ascii_lengths
  simp only [List.length_append, h1, h4]
  unfold strlen at *
  omega

theorem mem_of_perm_range {n : Nat} {idxs : List Nat} (h : idxs.Perm (List.range n)) :
    ∀ ix, ix ∈ idxs ↔ ix < n := by
  intro ix
  rw [h.mem_iff, List.mem_range]

/-! ## Claims C1 to C5 -/

/-- C4: bucket mapping of `hash`. For a key whose first character is an ASCII
letter, `hash` is `tolower(c) - 'a'`, a value in `0..25` that is the same for
every key whose first character has the same lower case; for a key whose first
character is a digit, `hash` is the value of the digit (`0..9`), the bucket of
the letter at that position from `a`; for every other first character `hash`
is `-1`. Hence `hash` is in `0..25` exactly when the first character is in
`[a-zA-Z0-9]`. -/
theorem hash_bucket_mapping (key : CString) :
    ((65 ≤ key.at 0 ∧ key.at 0 ≤ 90) ∨ (97 ≤ key.at 0 ∧ key.at 0 ≤ 122) →
        hash key = tolower (key.at 0) - 97 ∧ 0 ≤ hash key ∧ hash key ≤ 25
        ∧ ∀ key2 : CString, tolower (key2.at 0) = tolower (key.at 0) → hash key2 = hash key)
    ∧ (48 ≤ key.at 0 ∧ key.at 0 ≤ 57 →
        hash key = (key.at 0 : Int) - 48 ∧ 0 ≤ hash key ∧ hash key ≤ 9
        ∧ ∀ key2 : CString, (key2.at 0 : Int) = 97 + ((key.at 0 : Int) - 48) →
            hash key2 = hash key)
    ∧ (¬ alnum_first key → hash key = -1)
    ∧ ((0 ≤ hash key ∧ hash key ≤ 25) ↔ alnum_first key) := by
  refine ⟨?_, ?_, hash_of_not_alnum key, hash_range_iff key⟩
  · intro h
    refine ⟨?_, ?_, ?_, ?_⟩
    · unfold hash tolower; simp only []; split_ifs <;> omega
    · unfold hash tolower; simp only []; split_ifs <;> omega
    · unfold hash tolower; simp only []; split_ifs <;> omega
    · intro key2 h2
      unfold hash
      simp only [h2]
  · intro h
    refine ⟨?_, ?_, ?_, ?_⟩
    · unfold hash tolower; simp only []; split_ifs <;> omega
    · unfold hash tolower; simp only []; split_ifs <;> omega
    · unfold hash tolower; simp only []; split_ifs <;> omega
    · intro key2 h2
      unfold hash tolower
      simp only []
      split_ifs <;> omega

/-- Witness of C4 at the keys `Apple` (letter) and `7up` (digit). -/
theorem hash_bucket_mapping_witness :
    (hash (cstr "Apple") = tolower ((cstr "Apple").at 0) - 97 ∧ 0 ≤ hash (cstr "Apple")
      ∧ hash (cstr "Apple") ≤ 25
      ∧ ∀ key2 : CString, tolower (key2.at 0) = tolower ((cstr "Apple").at 0) →
          hash key2 = hash (cstr "Apple"))
    ∧ (hash (cstr "7up") = ((cstr "7up").at 0 : Int) - 48 ∧ 0 ≤ hash (cstr "7up")
      ∧ hash (cstr "7up") ≤ 9
      ∧ ∀ key2 : CString, (key2.at 0 : Int) = 97 + (((cstr "7up").at 0 : Int) - 48) →
          hash key2 = hash (cstr "7up")) :=
  ⟨(hash_bucket_mapping (cstr "Apple")).1 (by decide),
   (hash_bucket_mapping (cstr "7up")).2.1 (by decide)⟩

/-- C1: write-read round trip. For every table state and every key `K` with an
alphanumeric first character, `write_pair(K,V)` succeeds and `read_pair(K)` then
returns `V`; a second `write_pair(K,V2)` makes `read_pair(K)` return `V2`. For a
batch of pairs with pairwise distinct keys, after `kvs_write` every key of the
batch reads back its value and `kvs_read` of the same keys writes `[`, then
`(K,V)` with the value just written for every key of the batch (in the order of
`create_alphabetical_index`), then `]` and a newline. -/
theorem write_read_round_trip (M : Nat) (ht : HashTable) (subs : SubscriptionList)
    (K V V2 : CString) (keys values : List CString) (fd : Int)
    (hK : alnum_first K) (h1 : 1 ≤ keys.length) (hv : values.length = keys.length)
    (hal : ∀ k ∈ keys, alnum_first k) (hnd : keys.Nodup)
    (hkl : ∀ k ∈ keys, strlen k < MAX_STRING_SIZE)
    (hvl : ∀ v ∈ values, strlen v < MAX_STRING_SIZE) :
    (∃ ht2 evs ht3 evs2, write_pair ht subs K V = .ok (0, ht2, evs)
        ∧ read_pair ht2 K = .ok (some V)
        ∧ write_pair ht2 subs K V2 = .ok (0, ht3, evs2)
        ∧ read_pair ht3 K = .ok (some V2))
    ∧ (∃ r1 ht2 r2, kvs_write (some ht) keys values subs = .ok r1 ∧ r1.ret = 0
        ∧ r1.table = some ht2
        ∧ (∀ i, i < keys.length → read_pair ht2 (key_at keys i) = .ok (some (key_at values i)))
        ∧ kvs_read M (some ht2) keys fd = .ok r2 ∧ r2.ret = 0
        ∧ file_bytes fd r2.trace = ascii "[" ++ (create_alphabetical_index keys).flatMap
            (fun ix => ascii "(" ++ (key_at keys ix).bytes ++ ascii ","
              ++ (key_at values ix).bytes ++ ascii ")") ++ ascii "]\n") := by
  constructor
  · obtain ⟨evs, hw, _⟩ := write_pair_put ht subs K V hK
    obtain ⟨evs2, hw2, _⟩ := write_pair_put (put ht K V) subs K V2 hK
    refine ⟨_, evs, _, evs2, hw, ?_, hw2, ?_⟩
    · rw [read_pair_lookup _ _ hK, lookup_put _ _ _ _ hK, if_pos rfl]
    · rw [read_pair_lookup _ _ hK, lookup_put _ _ _ _ hK, if_pos rfl]
  · have hso := isSortedOrder_create keys h1
    have hidx := sorted_idx_alnum hso.1 hal
    have hmem := mem_of_perm_range hso.1
    have hnd2 : ((create_alphabetical_index keys).map (key_at keys)).Nodup :=
      (sorted_keys_perm hso.1).nodup_iff.2 hnd
    obtain ⟨r1, hw, hret, htab, _⟩ := kvs_write_spec ht keys values subs h1 hal
    obtain ⟨r2, hr, hret2, _, hout⟩ := kvs_read_spec M
      ((create_alphabetical_index keys).foldl
        (fun t ix => put t (key_at keys ix) (key_at values ix)) ht) keys fd h1 hal
    have hlook : ∀ i, i < keys.length →
        lookup ((create_alphabetical_index keys).foldl
          (fun t ix => put t (key_at keys ix) (key_at values ix)) ht) (key_at keys i)
          = some (key_at values i) := fun i hi =>
      lookup_foldl_put keys values _ ht hidx hnd2 i ((hmem i).2 hi)
    refine ⟨r1, _, r2, hw, hret, htab, ?_, hr, hret2, ?_⟩
    · intro i hi
      rw [read_pair_lookup _ _ (hal _ (key_at_mem hi)), hlook i hi]
    · rw [hout]
      congr 2
      apply List.flatMap_congr
      intro ix hix
      have hi : ix < keys.length := (hmem ix).1 hix
      exact read_buf_present (hlook ix hi) (hkl _ (key_at_mem hi))
        (hvl _ (key_at_mem (by rw [hv]; exact hi)))

/-- Witness of C1: `WRITE [(apple,red)]` on the empty table, then `READ [apple]`. -/
theorem write_read_round_trip_witness :
    ∃ r1 ht2 r2, kvs_write (some create_hash_table) [cstr "apple"] [cstr "red"] [] = .ok r1
      ∧ r1.ret = 0 ∧ r1.table = some ht2
      ∧ kvs_read 256 (some ht2) [cstr "apple"] 1 = .ok r2 ∧ r2.ret = 0
      ∧ file_bytes 1 r2.trace = ascii "[(apple,red)]\n" := by
  obtain ⟨r1, ht2, r2, h1, h2, h3, _, h5, h6, h7⟩ :=
    (write_read_round_trip 256 create_hash_table [] (cstr "apple") (cstr "red") (cstr "green")
      [cstr "apple"] [cstr "red"] 1 (by decide) (by decide) (by decide) (by decide)
      (by decide) (by decide) (by decide)).2
  exact ⟨r1, ht2, r2, h1, h2, h3, h5, h6, h7.trans (by decide)⟩

/-- C3: key uniqueness is an invariant of the store. In every table state
reachable from the empty table by `write_pair` and `delete_pair` calls on keys
with an alphanumeric first character, no key occurs in more than one `KeyNode`
across the 26 buckets, and every `KeyNode` stored in bucket `i` has
`hash(key) = i`. -/
theorem store_key_uniqueness (ht : HashTable) (h : Reachable ht) :
    (ht.nodes.map KeyNode.key).Nodup
    ∧ ∀ (i : Fin TABLE_SIZE) (node : KeyNode), node ∈ ht.table i →
        hash node.key = ((i : Nat) : Int) := by
  have hinv := tableInv_of_reachable h
  exact ⟨nodes_keys_nodup hinv, fun i node hn => (hinv i).1 node hn⟩

/-- Witness of C3 at the table reached by writing `(apple,red)`, `(avocado,green)`
and deleting `apple`. -/
theorem store_key_uniqueness_witness :
    ((remove (put (put create_hash_table (cstr "apple") (cstr "red"))
        (cstr "avocado") (cstr "green")) (cstr "apple")).nodes.map KeyNode.key).Nodup
    ∧ ∀ (i : Fin TABLE_SIZE) (node : KeyNode),
        node ∈ (remove (put (put create_hash_table (cstr "apple") (cstr "red"))
          (cstr "avocado") (cstr "green")) (cstr "apple")).table i →
        hash node.key = ((i : Nat) : Int) :=
  store_key_uniqueness _
    (@Reachable.delete _ _ [] _ (cstr "apple") _ _
      (@Reachable.write _ _ [] (cstr "avocado") (cstr "green") _ _
        (@Reachable.write _ _ [] (cstr "apple") (cstr "red") _ _
          Reachable.init (by decide) rfl)
        (by decide) rfl)
      (by decide) rfl)

/-- C5 (the code at the failing input): for the key `_x`, whose first character
is not in `[a-zA-Z0-9]`, `hash` returns `-1` and each store operation uses `-1`
as an array index (`ht->table[-1]`, and `locked[-1]` in the batch operations)
instead of reporting an invalid key. -/
theorem invalid_prefix_indexes_out_of_bounds :
    hash (cstr "_x") = -1
    ∧ write_pair create_hash_table [] (cstr "_x") (cstr "v") = .error (.out_of_bounds (-1))
    ∧ read_pair create_hash_table (cstr "_x") = .error (.out_of_bounds (-1))
    ∧ delete_pair create_hash_table [] (cstr "_x") = .error (.out_of_bounds (-1))
    ∧ kvs_write (some create_hash_table) [cstr "_x"] [cstr "v"] []
        = .error (.out_of_bounds (-1))
    ∧ kvs_read 256 (some create_hash_table) [cstr "_x"] 1 = .error (.out_of_bounds (-1))
    ∧ kvs_delete (some create_hash_table) [cstr "_x"] 1 [] = .error (.out_of_bounds (-1)) := by
  refine ⟨by decide, rfl, rfl, rfl, rfl, rfl, rfl⟩

/-! ## `kvs_delete` -/

theorem lookup_foldl_remove (keys : List CString) (k : CString) :
    ∀ (idxs : List Nat) (ht : HashTable), TableInv ht →
      lookup (idxs.foldl (fun t ix => remove t (key_at keys ix)) ht) k
        = if k ∈ idxs.map (key_at keys) then none else lookup ht k := by
  intro idxs
  induction idxs with
  | nil => intro ht _; simp
  | cons ix rest ih =>
    intro ht hinv
    rw [List.foldl_cons, ih _ (tableInv_remove hinv _), lookup_remove ht hinv]
    by_cases h1 : k = key_at keys ix
    · simp [h1]
    · by_cases h2 : k ∈ rest.map (key_at keys)
      · simp only [h2, if_true, List.map_cons, List.mem_cons, or_true]
      · simp only [h2, if_false, h1, List.map_cons, List.mem_cons, or_self]

theorem tableInv_foldl_remove (keys : List CString) :
    ∀ (idxs : List Nat) (ht : HashTable), TableInv ht →
      TableInv (idxs.foldl (fun t ix => remove t (key_at keys ix)) ht) := by
  intro idxs
  induction idxs with
  | nil => intro ht h; exact h
  | cons ix rest ih =>
    intro ht hinv
    rw [List.foldl_cons]
    exact ih _ (tableInv_remove hinv _)

theorem stored_eq_none_iff (ht : HashTable) (k : CString) :
    stored ht k = none ↔ ∀ node ∈ ht.nodes, node.key ≠ k := by
  unfold stored
  rw [Option.map_eq_none', List.find?_eq_none]
  simp

theorem kvs_delete_some (ht : HashTable) (keys : List CString) (fd : Int)
    (subs : SubscriptionList) :
    kvs_delete (some ht) keys fd subs =
      match kvs_delete_loop keys fd (create_alphabetical_index keys) ht subs
          (fun _ => false) false with
      | .error e => .error e
      | .ok (ht1, subs1, locked, aux, tr) =>
        .ok (⟨0, some ht1,
          [.rdlock .global_lock] ++ tr
            ++ (if aux then write_to_file fd (ascii "]\n") else [])
            ++ unlock_buckets locked (List.finRange TABLE_SIZE)
            ++ [.unlock .global_lock]⟩, subs1) := rfl

theorem kvs_delete_table (ht : HashTable) (keys : List CString) (fd : Int)
    (subs : SubscriptionList) (h1 : 1 ≤ keys.length) (hal : ∀ k ∈ keys, alnum_first k) :
    ∃ r subs2, kvs_delete (some ht) keys fd subs = .ok (r, subs2) ∧ r.ret = 0
      ∧ r.table = some ((create_alphabetical_index keys).foldl
          (fun t ix => remove t (key_at keys ix)) ht)
      ∧ delete_in_order keys (create_alphabetical_index keys) ht subs
          = .ok ((create_alphabetical_index keys).foldl
              (fun t ix => remove t (key_at keys ix)) ht, subs2) := by
  have hidx := sorted_idx_alnum (isSortedOrder_create keys h1).1 hal
  obtain ⟨subs2, locked2, aux2, tr, hl, hord⟩ :=
    kvs_delete_loop_table keys fd _ ht subs (fun _ => false) false hidx
  rw [kvs_delete_some, hl]
  exact ⟨_, _, rfl, rfl, rfl, hord⟩

theorem kvs_delete_spec (ht : HashTable) (keys : List CString) (fd : Int)
    (subs : SubscriptionList) (h1 : 1 ≤ keys.length) (hal : ∀ k ∈ keys, alnum_first k)
    (hinv : TableInv ht) (hnd : keys.Nodup) :
    ∃ r subs2, kvs_delete (some ht) keys fd subs = .ok (r, subs2) ∧ r.ret = 0
      ∧ r.table = some ((create_alphabetical_index keys).foldl
          (fun t ix => remove t (key_at keys ix)) ht)
      ∧ file_bytes fd r.trace
        = if missing_rows keys ht (create_alphabetical_index keys) = [] then []
          else ascii "[" ++ (missing_rows keys ht (create_alphabetical_index keys)).flatMap
              (fun ix => snprintf BUF_SIZE (missing_entry (key_at keys ix))) ++ ascii "]\n" := by
  have hso := isSortedOrder_create keys h1
  have hidx := sorted_idx_alnum hso.1 hal
  have hnd2 : ((create_alphabetical_index keys).map (key_at keys)).Nodup :=
    (sorted_keys_perm hso.1).nodup_iff.2 hnd
  obtain ⟨subs2, locked2, tr, hl, hf⟩ :=
    kvs_delete_loop_spec keys fd _ ht subs (fun _ => false) false hidx hinv hnd2
  rw [kvs_delete_some, hl]
  refine ⟨_, _, rfl, rfl, rfl, ?_⟩
  simp only [file_bytes_append, hf, file_bytes_unlock_buckets]
  by_cases hm : missing_rows keys ht (create_alphabetical_index keys) = []
  · simp [hm, file_bytes]
  · have hne : (missing_rows keys ht (create_alphabetical_index keys)).isEmpty = false := by
      cases hmr : missing_rows keys ht (create_alphabetical_index keys) with
      | nil => exact absurd hmr hm
      | cons a l => rfl
    simp [hm, hne, file_bytes, file_bytes_write_to_file]

theorem missing_entry_fits {k : CString} (hk : strlen k < MAX_STRING_SIZE) :
    snprintf BUF_SIZE (missing_entry k) = missing_entry k := by
  apply snprintf_fits
  unfold missing_entry
  obtain ⟨h1, _, _, _, h5⟩ := ascii_lengths
  simp only [List.length_append, h1, h5]
  unfold strlen MAX_STRING_SIZE at *
  unfold BUF_SIZE
  omega

theorem create_alphabetical_index_single (k : CString) :
    create_alphabetical_index [k] = [0] := rfl

/-! ## Claims C2 and C6 to C10 -/

/-- C2: write-delete-read. For every table state satisfying the store invariant
(every reachable state), every key `K` with an alphanumeric first character and
every value `V`: after `write_pair(K,V)`, `delete_pair(K)` returns 0 and then
`read_pair(K)` returns NULL, so that `kvs_read` of `K` writes `[(K,KVSERROR)]`;
and after `kvs_delete(keys)` no key of the batch is present in the table. -/
theorem write_delete_read (M : Nat) (ht : HashTable) (subs : SubscriptionList)
    (K V : CString) (keys : List CString) (fd : Int)
    (hinv : TableInv ht) (hK : alnum_first K) (hKl : strlen K < MAX_STRING_SIZE)
    (hM : MAX_STRING_SIZE + 11 ≤ M)
    (h1 : 1 ≤ keys.length) (hal : ∀ k ∈ keys, alnum_first k) :
    (∃ ht1 evs1 ht2 subs2 evs2 r, write_pair ht subs K V = .ok (0, ht1, evs1)
        ∧ delete_pair ht1 subs K = .ok (0, ht2, subs2, evs2)
        ∧ read_pair ht2 K = .ok none
        ∧ kvs_read M (some ht2) [K] fd = .ok r
        ∧ file_bytes fd r.trace = ascii "[(" ++ K.bytes ++ ascii ",KVSERROR)]\n")
    ∧ (∃ r subs2 ht2, kvs_delete (some ht) keys fd subs = .ok (r, subs2) ∧ r.ret = 0
        ∧ r.table = some ht2
        ∧ ∀ k ∈ keys, read_pair ht2 k = .ok none ∧ ∀ node ∈ ht2.nodes, node.key ≠ k) := by
  constructor
  · obtain ⟨evs1, hw, _⟩ := write_pair_put ht subs K V hK
    obtain ⟨subs2, evs2, hd, _⟩ := delete_pair_remove (put ht K V) subs K hK
    have hinv1 := tableInv_put hinv K V
    have hl1 : lookup (put ht K V) K = some V := by rw [lookup_put _ _ _ _ hK, if_pos rfl]
    have hl2 : lookup (remove (put ht K V) K) K = none := by
      rw [lookup_remove _ hinv1, if_pos rfl]
    rw [hl1, if_neg (by simp)] at hd
    obtain ⟨r, hr, _, _, hout⟩ := kvs_read_spec M (remove (put ht K V) K) [K] fd
      (by simp) (by simpa using hK)
    refine ⟨_, evs1, _, subs2, evs2, r, hw, hd, ?_, hr, ?_⟩
    · rw [read_pair_lookup _ _ hK, hl2]
    · rw [hout, create_alphabetical_index_single]
      have hk0 : key_at [K] 0 = K := rfl
      simp only [List.flatMap_cons, List.flatMap_nil, List.append_nil, hk0]
      rw [read_buf_absent hl2 hKl hM]
      have e1 : ascii "[(" = ascii "[" ++ ascii "(" := by decide
      have e2 : ascii ",KVSERROR)]\n" = ascii ",KVSERROR)" ++ ascii "]\n" := by decide
      rw [e1, e2]
      simp only [List.append_assoc]
  · obtain ⟨r, subs2, hd, hret, htab, _⟩ := kvs_delete_table ht keys fd subs h1 hal
    have hso := isSortedOrder_create keys h1
    refine ⟨r, subs2, _, hd, hret, htab, ?_⟩
    intro k hk
    have hmem : k ∈ (create_alphabetical_index keys).map (key_at keys) :=
      (sorted_keys_perm hso.1).mem_iff.2 hk
    have hl := lookup_foldl_remove keys k (create_alphabetical_index keys) ht hinv
    rw [if_pos hmem] at hl
    refine ⟨?_, ?_⟩
    · rw [read_pair_lookup _ _ (hal k hk), hl]
    · rw [lookup_eq_stored (tableInv_foldl_remove keys _ ht hinv)] at hl
      exact (stored_eq_none_iff _ _).1 hl

/-- Witness of C2: on the table holding `(apple,red)`, write then delete `kiwi`,
and `DELETE [apple,kiwi]`. -/
theorem write_delete_read_witness :
    (∃ ht1 evs1 ht2 subs2 evs2 r,
        write_pair (put create_hash_table (cstr "apple") (cstr "red")) [] (cstr "kiwi")
          (cstr "green") = .ok (0, ht1, evs1)
        ∧ delete_pair ht1 [] (cstr "kiwi") = .ok (0, ht2, subs2, evs2)
        ∧ read_pair ht2 (cstr "kiwi") = .ok none
        ∧ kvs_read 256 (some ht2) [cstr "kiwi"] 1 = .ok r
        ∧ file_bytes 1 r.trace = ascii "[(kiwi,KVSERROR)]\n")
    ∧ (∃ r subs2 ht2,
        kvs_delete (some (put create_hash_table (cstr "apple") (cstr "red")))
          [cstr "apple", cstr "kiwi"] 1 [] = .ok (r, subs2) ∧ r.ret = 0
        ∧ r.table = some ht2
        ∧ ∀ k ∈ [cstr "apple", cstr "kiwi"],
            read_pair ht2 k = .ok none ∧ ∀ node ∈ ht2.nodes, node.key ≠ k) :=
  write_delete_read 256 (put create_hash_table (cstr "apple") (cstr "red")) []
    (cstr "kiwi") (cstr "green") [cstr "apple", cstr "kiwi"] 1
    (by decide) (by decide) (by decide) (by decide) (by decide) (by decide)

/-- C7 (counterexample): the order is not stable. In the batch `[b, B, a]` the
keys at rows 0 and 1 compare equal for `strcasecmp`, yet the selection sort
returns `[2, 1, 0]`: row 1 comes before row 0. Accordingly
`WRITE [(b,1),(b,2),(a,3)]` applies the pair `(b,2)` before `(b,1)` and leaves
`b` with the value `1`. -/
theorem sort_not_stable :
    strcasecmp (cstr "b") (cstr "B") = 0
    ∧ create_alphabetical_index [cstr "b", cstr "B", cstr "a"] = [2, 1, 0]
    ∧ List.indexOf 1 (create_alphabetical_index [cstr "b", cstr "B", cstr "a"])
        < List.indexOf 0 (create_alphabetical_index [cstr "b", cstr "B", cstr "a"])
    ∧ create_alphabetical_index [cstr "b", cstr "b", cstr "a"] = [2, 1, 0]
    ∧ (∃ r ht2, kvs_write (some create_hash_table) [cstr "b", cstr "b", cstr "a"]
          [cstr "1", cstr "2", cstr "3"] [] = .ok r ∧ r.table = some ht2
        ∧ read_pair ht2 (cstr "b") = .ok (some (cstr "1"))) := by
  refine ⟨by decide, by decide, by decide, by decide, ?_⟩
  exact ⟨_, _, rfl, rfl, rfl⟩

/-- C7 (amended): when the batch is already in non-decreasing case-insensitive
order (no key at a later position is smaller than a key at an earlier position),
`create_alphabetical_index` returns the identity `0..n-1`, so that keys that
compare equal keep their input order: row `i` precedes row `j` for `i < j`. -/
theorem sort_keeps_sorted_input (keys : List CString)
    (hs : ∀ p q, p < q → q < keys.length →
      strcasecmp (key_at keys p) (key_at keys q) ≤ 0) :
    create_alphabetical_index keys = List.range keys.length
    ∧ ∀ i j, i < j → j < keys.length →
        List.indexOf i (create_alphabetical_index keys)
          < List.indexOf j (create_alphabetical_index keys) := by
  have hid : create_alphabetical_index keys = List.range keys.length := by
    unfold create_alphabetical_index
    apply selection_fold_sorted_input
    intro p q hpq hq
    have h1 := hs p q hpq hq
    have h2 := strcasecmp_antisymm (key_at keys q) (key_at keys p)
    omega
  refine ⟨hid, ?_⟩
  intro i j hij hj
  rw [hid]
  have hi : i < keys.length := by omega
  have e1 : List.indexOf i (List.range keys.length) = i := by
    have := List.indexOf_getElem (List.nodup_range keys.length) i (by simpa using hi)
    simpa using this
  have e2 : List.indexOf j (List.range keys.length) = j := by
    have := List.indexOf_getElem (List.nodup_range keys.length) j (by simpa using hj)
    simpa using this
  rw [e1, e2]
  exact hij

/-- Witness of the amended C7 at the sorted batch `[a, b, B]`. -/
theorem sort_keeps_sorted_input_witness :
    create_alphabetical_index [cstr "a", cstr "b", cstr "B"] = List.range 3
    ∧ ∀ i j, i < j → j < 3 →
        List.indexOf i (create_alphabetical_index [cstr "a", cstr "b", cstr "B"])
          < List.indexOf j (create_alphabetical_index [cstr "a", cstr "b", cstr "B"]) :=
  sort_keeps_sorted_input [cstr "a", cstr "b", cstr "B"] (by
    intro p q hpq hq
    have hq3 : q < 3 := hq
    interval_cases q <;> interval_cases p <;> decide)

theorem stored_some_mem {ht : HashTable} {k v : CString} (h : stored ht k = some v) :
    ∃ node ∈ ht.nodes, node.key = k ∧ node.value = v := by
  unfold stored at h
  cases hf : ht.nodes.find? (fun node => node.key = k) with
  | none => rw [hf] at h; cases h
  | some n =>
    rw [hf] at h
    simp only [Option.map_some', Option.some.injEq] at h
    exact ⟨n, List.mem_of_find?_eq_some hf, by simpa using List.find?_some hf, h⟩

theorem read_buf_eq_read_entry {M : Nat} {ht : HashTable} {k : CString} (hinv : TableInv ht)
    (hk : strlen k < MAX_STRING_SIZE)
    (hvl : ∀ node ∈ ht.nodes, strlen node.value < MAX_STRING_SIZE)
    (hM : MAX_STRING_SIZE + 11 ≤ M) : read_buf M ht k = read_entry ht k := by
  unfold read_entry
  cases hs : stored ht k with
  | none =>
    simp only []
    exact read_buf_absent (by rw [lookup_eq_stored hinv, hs]) hk hM
  | some v =>
    simp only []
    obtain ⟨node, hn, _, hv⟩ := stored_some_mem hs
    exact read_buf_present (by rw [lookup_eq_stored hinv, hs]) hk (hv ▸ hvl node hn)

/-- C8: output of `kvs_read`. For every table state satisfying the store
invariant (values fitting `char[MAX_STRING_SIZE]`) and every batch of `n >= 1`
keys with alphanumeric first characters, the bytes written to `out_fd` are
exactly `[`, then for each key in case-insensitive sorted order `(K,V)` when the
table has the entry `(K,V)` or `(K,KVSERROR)` when it has no entry for `K`, then
`]` and a newline, with no separator; a missing key does not abort the batch. -/
theorem kvs_read_output (M : Nat) (ht : HashTable) (keys : List CString) (fd : Int)
    (h1 : 1 ≤ keys.length) (hal : ∀ k ∈ keys, alnum_first k) (hinv : TableInv ht)
    (hkl : ∀ k ∈ keys, strlen k < MAX_STRING_SIZE)
    (hvl : ∀ node ∈ ht.nodes, strlen node.value < MAX_STRING_SIZE)
    (hM : MAX_STRING_SIZE + 11 ≤ M) :
    IsSortedOrder keys (create_alphabetical_index keys)
    ∧ ∃ r, kvs_read M (some ht) keys fd = .ok r ∧ r.ret = 0 ∧ r.table = some ht
      ∧ file_bytes fd r.trace = ascii "[" ++ (create_alphabetical_index keys).flatMap
          (fun ix => read_entry ht (key_at keys ix)) ++ ascii "]\n" := by
  have hso := isSortedOrder_create keys h1
  obtain ⟨r, hr, hret, htab, hout⟩ := kvs_read_spec M ht keys fd h1 hal
  refine ⟨hso, r, hr, hret, htab, ?_⟩
  rw [hout]
  congr 2
  apply List.flatMap_congr
  intro ix hix
  have hi : ix < keys.length := (mem_of_perm_range hso.1 ix).1 hix
  exact read_buf_eq_read_entry hinv (hkl _ (key_at_mem hi)) hvl hM

/-- Witness of C8: after `WRITE [(Banana,1),(apple,2),(CARROT,3)]`,
`READ [CARROT,apple,Banana]` writes `[(apple,2)(Banana,1)(CARROT,3)]`; with a
missing key, `READ [CARROT,zebra]` writes `[(CARROT,3)(zebra,KVSERROR)]`. -/
theorem kvs_read_output_witness :
    ∃ r1 r2 r3, kvs_write (some create_hash_table) [cstr "Banana", cstr "apple", cstr "CARROT"]
        [cstr "1", cstr "2", cstr "3"] [] = .ok r1
      ∧ r1.table = some (put (put (put create_hash_table (cstr "apple") (cstr "2"))
          (cstr "Banana") (cstr "1")) (cstr "CARROT") (cstr "3"))
      ∧ kvs_read 256 r1.table [cstr "CARROT", cstr "apple", cstr "Banana"] 1 = .ok r2
      ∧ file_bytes 1 r2.trace = ascii "[(apple,2)(Banana,1)(CARROT,3)]\n"
      ∧ kvs_read 256 r1.table [cstr "CARROT", cstr "zebra"] 1 = .ok r3
      ∧ file_bytes 1 r3.trace = ascii "[(CARROT,3)(zebra,KVSERROR)]\n" := by
  obtain ⟨_, r2, h2, _, _, h5⟩ :=
    kvs_read_output 256 (put (put (put create_hash_table (cstr "apple") (cstr "2"))
      (cstr "Banana") (cstr "1")) (cstr "CARROT") (cstr "3"))
      [cstr "CARROT", cstr "apple", cstr "Banana"] 1
      (by decide) (by decide) (by decide) (by decide) (by decide) (by decide)
  obtain ⟨_, r3, h6, _, _, h7⟩ :=
    kvs_read_output 256 (put (put (put create_hash_table (cstr "apple") (cstr "2"))
      (cstr "Banana") (cstr "1")) (cstr "CARROT") (cstr "3"))
      [cstr "CARROT", cstr "zebra"] 1
      (by decide) (by decide) (by decide) (by decide) (by decide) (by decide)
  exact ⟨_, r2, r3, rfl, rfl, h2, h5.trans (by decide), h6, h7.trans (by decide)⟩

/-- C9: output of `kvs_delete`. For every table state satisfying the store
invariant and every batch of pairwise distinct keys with alphanumeric first
characters, `kvs_delete` writes nothing to `out_fd` when every key was present,
and otherwise writes exactly `[`, then `(K,KVSMISSING)` for each key that was
absent, in case-insensitive sorted order, then `]` and a newline; in both cases
no key of the batch is in the table afterwards and the other keys keep their
values. -/
theorem kvs_delete_output (ht : HashTable) (subs : SubscriptionList) (keys : List CString)
    (fd : Int) (h1 : 1 ≤ keys.length) (hal : ∀ k ∈ keys, alnum_first k) (hnd : keys.Nodup)
    (hinv : TableInv ht) (hkl : ∀ k ∈ keys, strlen k < MAX_STRING_SIZE) :
    IsSortedOrder keys (create_alphabetical_index keys)
    ∧ ∃ r subs2 ht2, kvs_delete (some ht) keys fd subs = .ok (r, subs2) ∧ r.ret = 0
      ∧ r.table = some ht2
      ∧ file_bytes fd r.trace
        = (if ∀ k ∈ keys, stored ht k ≠ none then []
           else ascii "[" ++ ((create_alphabetical_index keys).filter
              (fun ix => decide (stored ht (key_at keys ix) = none))).flatMap
                (fun ix => missing_entry (key_at keys ix)) ++ ascii "]\n")
      ∧ (∀ k ∈ keys, stored ht2 k = none)
      ∧ (∀ k, k ∉ keys → stored ht2 k = stored ht k) := by
  have hso := isSortedOrder_create keys h1
  have hmem := mem_of_perm_range hso.1
  obtain ⟨r, subs2, hd, hret, htab, hout⟩ := kvs_delete_spec ht keys fd subs h1 hal hinv hnd
  have hinv2 := tableInv_foldl_remove keys (create_alphabetical_index keys) ht hinv
  have hmr : missing_rows keys ht (create_alphabetical_index keys)
      = (create_alphabetical_index keys).filter
          (fun ix => decide (stored ht (key_at keys ix) = none)) := by
    unfold missing_rows
    simp only [lookup_eq_stored hinv]
  refine ⟨hso, r, subs2, _, hd, hret, htab, ?_, ?_, ?_⟩
  · rw [hout, hmr]
    have hiff : (create_alphabetical_index keys).filter
          (fun ix => decide (stored ht (key_at keys ix) = none)) = []
        ↔ ∀ k ∈ keys, stored ht k ≠ none := by
      rw [List.filter_eq_nil_iff]
      constructor
      · intro h k hk
        obtain ⟨ix, hix, rfl⟩ := List.mem_map.1 ((sorted_keys_perm hso.1).mem_iff.2 hk)
        simpa using h ix hix
      · intro h ix hix
        simpa using h _ (key_at_mem ((hmem ix).1 hix))
    by_cases hall : ∀ k ∈ keys, stored ht k ≠ none
    · rw [if_pos (hiff.2 hall), if_pos hall]
    · rw [if_neg (fun h => hall (hiff.1 h)), if_neg hall]
      congr 2
      apply List.flatMap_congr
      intro ix hix
      have hi : ix < keys.length := (hmem ix).1 (List.mem_filter.1 hix).1
      exact missing_entry_fits (hkl _ (key_at_mem hi))
  · intro k hk
    have hl := lookup_foldl_remove keys k (create_alphabetical_index keys) ht hinv
    rw [if_pos ((sorted_keys_perm hso.1).mem_iff.2 hk), lookup_eq_stored hinv2] at hl
    exact hl
  · intro k hk
    have hl := lookup_foldl_remove keys k (create_alphabetical_index keys) ht hinv
    rw [if_neg (fun h => hk ((sorted_keys_perm hso.1).mem_iff.1 h)), lookup_eq_stored hinv2,
      lookup_eq_stored hinv] at hl
    exact hl

/-- Witness of C9: on the table holding `(apple,red)`, `DELETE [kiwi,apple,Kale]`
writes `[(Kale,KVSMISSING)(kiwi,KVSMISSING)]` and `DELETE [apple]` writes nothing. -/
theorem kvs_delete_output_witness :
    (∃ r subs2, kvs_delete (some (put create_hash_table (cstr "apple") (cstr "red")))
        [cstr "kiwi", cstr "apple", cstr "Kale"] 1 [] = .ok (r, subs2)
      ∧ file_bytes 1 r.trace = ascii "[(Kale,KVSMISSING)(kiwi,KVSMISSING)]\n")
    ∧ (∃ r subs2, kvs_delete (some (put create_hash_table (cstr "apple") (cstr "red")))
        [cstr "apple"] 1 [] = .ok (r, subs2)
      ∧ file_bytes 1 r.trace = []) := by
  obtain ⟨_, r, subs2, _, h1, _, _, h4, _, _⟩ :=
    kvs_delete_output (put create_hash_table (cstr "apple") (cstr "red")) []
      [cstr "kiwi", cstr "apple", cstr "Kale"] 1
      (by decide) (by decide) (by decide) (by decide) (by decide)
  obtain ⟨_, r2, subs3, _, h5, _, _, h8, _, _⟩ :=
    kvs_delete_output (put create_hash_table (cstr "apple") (cstr "red")) []
      [cstr "apple"] 1
      (by decide) (by decide) (by decide) (by decide) (by decide)
  exact ⟨⟨r, subs2, h1, h4.trans (by decide)⟩, ⟨r2, subs3, h5, h8.trans (by decide)⟩⟩

/-- C10 (the code at the failing input): for the batch `[1x, a]`, whose keys
start with a digit and a letter, the sorted order is `1x, a` and `kvs_write`,
`kvs_read` and `kvs_delete` acquire the `list_lock` of bucket 1 and then of
bucket 0: not in ascending order. The batch `[0x, b]` acquires bucket 0 and
then bucket 1, the opposite order on the same two locks. -/
theorem lock_order_not_ascending :
    alnum_first (cstr "1x") ∧ alnum_first (cstr "a")
    ∧ (∃ r, kvs_write (some create_hash_table) [cstr "1x", cstr "a"] [cstr "v", cstr "w"] []
          = .ok r ∧ acquired_buckets r.trace = [1, 0])
    ∧ (∃ r, kvs_read 256 (some create_hash_table) [cstr "1x", cstr "a"] 1 = .ok r
          ∧ acquired_buckets r.trace = [1, 0])
    ∧ (∃ r subs2, kvs_delete (some create_hash_table) [cstr "1x", cstr "a"] 1 []
          = .ok (r, subs2) ∧ acquired_buckets r.trace = [1, 0])
    ∧ (∃ r, kvs_write (some create_hash_table) [cstr "0x", cstr "b"] [cstr "v", cstr "w"] []
          = .ok r ∧ acquired_buckets r.trace = [0, 1]) := by
  refine ⟨by decide, by decide, ⟨_, rfl, by decide⟩, ⟨_, rfl, by decide⟩,
    ⟨_, _, rfl, by decide⟩, ⟨_, rfl, by decide⟩⟩

/-! ## Lemmas on the subscription registry -/

theorem notifications_append (a b : List Event) :
    notifications (a ++ b) = notifications a ++ notifications b := by
  induction a with
  | nil => rfl
  | cons e rest ih => cases e <;> simp [notifications, ih]

theorem responses_append (a b : List Event) :
    responses (a ++ b) = responses a ++ responses b := by
  induction a with
  | nil => rfl
  | cons e rest ih => cases e <;> simp [responses, ih]

theorem notifications_map (fds : List Int) (frame : List Nat) :
    notifications (fds.map (fun fd => Event.notification fd frame))
      = fds.map (fun fd => (fd, frame)) := by
  induction fds with
  | nil => rfl
  | cons fd rest ih => simp [notifications, ih]

theorem subscribers_of_eq_nil {key : CString} {subs : SubscriptionList}
    (h : key ∉ subs.map Subscription.key) : subscribers_of key subs = [] := by
  induction subs with
  | nil => rfl
  | cons s rest ih =>
    have h2 : s.key ≠ key ∧ key ∉ rest.map Subscription.key := by
      constructor
      · intro e; apply h; simp [e]
      · intro e; apply h; simp [e]
    simp [subscribers_of, h2.1, ih h2.2]

theorem notify_change_trace (key value : CString) (subs : SubscriptionList)
    (hinv : (subs.map Subscription.key).Nodup) :
    notify_change key value subs
      = .ok ((subscribers_of key subs).map
          (fun fd => Event.notification fd (changed_frame key value))) := by
  induction subs with
  | nil => rfl
  | cons s rest ih =>
    have hnd : s.key ∉ rest.map Subscription.key ∧ (rest.map Subscription.key).Nodup :=
      List.nodup_cons.1 hinv
    by_cases hk : s.key = key
    · have hrest : subscribers_of key rest = [] :=
        subscribers_of_eq_nil (by rw [← hk]; exact hnd.1)
      have ih2 := ih hnd.2
      rw [hrest] at ih2
      simp only [notify_change, strcmp_eq_zero_iff, hk, if_true, notify_subscribers_changed,
        subscribers_of, ih2]
      simp [changed_frame]
    · simp only [notify_change, strcmp_eq_zero_iff, hk, if_false, subscribers_of, ih hnd.2]
      simp

theorem remove_subscription_node_trace (key : CString) (subs : SubscriptionList) :
    remove_subscription_node key subs
      = .ok (drop_node key subs, (subscribers_of key subs).map
          (fun fd => Event.notification fd (deleted_frame key))) := by
  induction subs with
  | nil => rfl
  | cons s rest ih =>
    by_cases hk : s.key = key
    · simp only [remove_subscription_node, strcmp_eq_zero_iff, hk, if_true,
        notify_subscribers_deleted, drop_node, subscribers_of]
      simp [deleted_frame]
    · simp only [remove_subscription_node, strcmp_eq_zero_iff, hk, if_false, ih, drop_node,
        subscribers_of]

theorem drop_node_keys {key : CString} {subs : SubscriptionList}
    (hinv : (subs.map Subscription.key).Nodup) :
    key ∉ (drop_node key subs).map Subscription.key := by
  induction subs with
  | nil => simp [drop_node]
  | cons s rest ih =>
    have hnd : s.key ∉ rest.map Subscription.key ∧ (rest.map Subscription.key).Nodup :=
      List.nodup_cons.1 hinv
    by_cases hk : s.key = key
    · simp only [drop_node, hk, if_true]
      rw [← hk]; exact hnd.1
    · simp only [drop_node, hk, if_false, List.map_cons, List.mem_cons, not_or]
      exact ⟨fun e => hk e.symm, ih hnd.2⟩

theorem drop_node_sublist (key : CString) (subs : SubscriptionList) :
    (drop_node key subs).Sublist subs := by
  induction subs with
  | nil => simp [drop_node]
  | cons s rest ih =>
    by_cases hk : s.key = key
    · simp only [drop_node, hk, if_true]
      exact List.sublist_cons_self _ _
    · simp only [drop_node, hk, if_false]
      exact ih.cons₂ _

theorem regInv_drop_node {key : CString} {subs : SubscriptionList} (h : RegInv subs) :
    RegInv (drop_node key subs) := by
  have hs := drop_node_sublist key subs
  exact ⟨(hs.map Subscription.key).nodup h.1, fun s hsm => h.2 s (hs.subset hsm)⟩

theorem set_subscribers_keys (key : CString) (hs : List Int) (subs : SubscriptionList) :
    (set_subscribers key hs subs).map Subscription.key = subs.map Subscription.key := by
  induction subs with
  | nil => rfl
  | cons s rest ih =>
    by_cases hk : s.key = key
    · simp [set_subscribers, hk]
    · simp [set_subscribers, hk, ih]

theorem mem_set_subscribers {key : CString} {hs : List Int} {subs : SubscriptionList}
    {s : Subscription} (h : s ∈ set_subscribers key hs subs) :
    s ∈ subs ∨ (s.key = key ∧ s.subscribers = hs) := by
  induction subs with
  | nil => simp [set_subscribers] at h
  | cons c rest ih =>
    by_cases hk : c.key = key
    · simp only [set_subscribers, hk, if_true, List.mem_cons] at h
      rcases h with h | h
      · right; rw [h]; exact ⟨rfl, rfl⟩
      · left; exact List.mem_cons_of_mem _ h
    · simp only [set_subscribers, hk, if_false, List.mem_cons] at h
      rcases h with h | h
      · left; rw [h]; exact List.mem_cons_self _ _
      · rcases ih h with h2 | h2
        · left; exact List.mem_cons_of_mem _ h2
        · right; exact h2

theorem regInv_set_subscribers {key : CString} {hs : List Int} {subs : SubscriptionList}
    (h : RegInv subs) (hnd : hs.Nodup) : RegInv (set_subscribers key hs subs) := by
  refine ⟨by rw [set_subscribers_keys]; exact h.1, ?_⟩
  intro s hsm
  rcases mem_set_subscribers hsm with h1 | h1
  · exact h.2 s h1
  · rw [h1.2]; exact hnd

theorem subscribers_of_set_subscribers {key : CString} {hs : List Int}
    {subs : SubscriptionList} (hk : key ∈ subs.map Subscription.key) (key2 : CString) :
    subscribers_of key2 (set_subscribers key hs subs)
      = if key2 = key then hs else subscribers_of key2 subs := by
  induction subs with
  | nil => simp at hk
  | cons c rest ih =>
    by_cases hc : c.key = key
    · by_cases h2 : key2 = key
      · simp [set_subscribers, subscribers_of, hc, h2]
      · have h3 : ¬ key = key2 := fun e => h2 e.symm
        simp [set_subscribers, subscribers_of, hc, h2, h3]
    · have hk2 : key ∈ rest.map Subscription.key := by
        simp only [List.map_cons, List.mem_cons] at hk
        rcases hk with hk | hk
        · exact absurd hk.symm hc
        · exact hk
      by_cases h2 : c.key = key2
      · have h3 : ¬ key2 = key := fun e => hc (h2.trans e)
        simp [set_subscribers, subscribers_of, hc, h2, h3]
      · simp only [set_subscribers, hc, if_false, subscribers_of, h2, ih hk2]

theorem subscribers_of_nodup {key : CString} {subs : SubscriptionList} (h : RegInv subs) :
    (subscribers_of key subs).Nodup := by
  induction subs with
  | nil => simp [subscribers_of]
  | cons c rest ih =>
    have hnd : c.key ∉ rest.map Subscription.key ∧ (rest.map Subscription.key).Nodup :=
      List.nodup_cons.1 h.1
    by_cases hc : c.key = key
    · simp only [subscribers_of, hc, if_true]
      exact h.2 c (List.mem_cons_self _ _)
    · simp only [subscribers_of, hc, if_false]
      exact ih ⟨hnd.2, fun s hs => h.2 s (List.mem_cons_of_mem _ hs)⟩

theorem add_to_node_eq_none {S : Nat} {key : CString} {fd : Int} {subs : SubscriptionList}
    (h : key ∉ subs.map Subscription.key) : add_to_node S key fd subs = none := by
  induction subs with
  | nil => rfl
  | cons c rest ih =>
    have h2 : c.key ≠ key ∧ key ∉ rest.map Subscription.key := by
      constructor
      · intro e; apply h; simp [e]
      · intro e; apply h; simp [e]
    simp [add_to_node, strcmp_eq_zero_iff, h2.1, ih h2.2]

theorem add_to_node_found {S : Nat} {key : CString} {fd : Int} {subs : SubscriptionList}
    (h : key ∈ subs.map Subscription.key) :
    add_to_node S key fd subs = some
      (if fd ∈ subscribers_of key subs then .ok (2, subs)
       else if (subscribers_of key subs).length < 10 * S then
         .ok (1, set_subscribers key (subscribers_of key subs ++ [fd]) subs)
       else .error (.out_of_bounds (subscribers_of key subs).length)) := by
  induction subs with
  | nil => simp at h
  | cons c rest ih =>
    by_cases hc : c.key = key
    · simp only [add_to_node, strcmp_eq_zero_iff, hc, if_true, subscribers_of, set_subscribers]
      split_ifs <;> rfl
    · have hk2 : key ∈ rest.map Subscription.key := by
        simp only [List.map_cons, List.mem_cons] at h
        rcases h with h | h
        · exact absurd h.symm hc
        · exact h
      simp only [add_to_node, strcmp_eq_zero_iff, hc, if_false, subscribers_of, set_subscribers,
        ih hk2, Option.map_some']
      split_ifs <;> rfl

theorem unsubscribe_loop_not_found {key : CString} {fd : Int} {subs : SubscriptionList}
    (h : key ∉ subs.map Subscription.key) : unsubscribe_loop key fd subs = (-1, subs) := by
  induction subs with
  | nil => rfl
  | cons c rest ih =>
    have h2 : c.key ≠ key ∧ key ∉ rest.map Subscription.key := by
      constructor
      · intro e; apply h; simp [e]
      · intro e; apply h; simp [e]
    simp [unsubscribe_loop, strcmp_eq_zero_iff, h2.1, ih h2.2]

theorem unsubscribe_loop_found {key : CString} {fd : Int} {subs : SubscriptionList}
    (h : key ∈ subs.map Subscription.key) :
    unsubscribe_loop key fd subs =
      if fd ∈ subscribers_of key subs then
        (0, set_subscribers key ((subscribers_of key subs).erase fd) subs)
      else (1, subs) := by
  induction subs with
  | nil => simp at h
  | cons c rest ih =>
    by_cases hc : c.key = key
    · simp only [unsubscribe_loop, strcmp_eq_zero_iff, hc, if_true, subscribers_of,
        set_subscribers, remove_subscription_from_a_client]
      by_cases hm : fd ∈ c.subscribers
      · simp [hm]
      · simp [hm]
    · have hk2 : key ∈ rest.map Subscription.key := by
        simp only [List.map_cons, List.mem_cons] at h
        rcases h with h | h
        · exact absurd h.symm hc
        · exact h
      simp only [unsubscribe_loop, strcmp_eq_zero_iff, hc, if_false, subscribers_of,
        set_subscribers, ih hk2]
      split_ifs <;> rfl

theorem mem_keys_of_subscribers_of {key : CString} {fd : Int} {subs : SubscriptionList}
    (h : fd ∈ subscribers_of key subs) : key ∈ subs.map Subscription.key := by
  by_contra hc
  rw [subscribers_of_eq_nil hc] at h
  simp at h

theorem drain_keys (subs : SubscriptionList) (fd : Int) :
    ((remove_all_subscriptions_from_client subs fd).2.1).map Subscription.key
      = subs.map Subscription.key := by
  unfold remove_all_subscriptions_from_client
  simp only [List.map_map]
  apply List.map_congr_left
  intro s _
  simp only [Function.comp, remove_subscription_from_a_client]
  split_ifs <;> rfl

theorem subscribers_of_drain (key : CString) (subs : SubscriptionList) (fd : Int) :
    subscribers_of key (remove_all_subscriptions_from_client subs fd).2.1
      = (subscribers_of key subs).erase fd := by
  unfold remove_all_subscriptions_from_client
  simp only []
  induction subs with
  | nil => simp [subscribers_of]
  | cons c rest ih =>
    by_cases hc : c.key = key
    · by_cases hm : fd ∈ c.subscribers
      · simp [subscribers_of, remove_subscription_from_a_client, hc, hm]
      · simp [subscribers_of, remove_subscription_from_a_client, hc, hm,
          List.erase_of_not_mem hm]
    · by_cases hm : fd ∈ c.subscribers
      · simpa [subscribers_of, remove_subscription_from_a_client, hc, hm] using ih
      · simpa [subscribers_of, remove_subscription_from_a_client, hc, hm] using ih

theorem regInv_drain {subs : SubscriptionList} (h : RegInv subs) (fd : Int) :
    RegInv (remove_all_subscriptions_from_client subs fd).2.1 := by
  refine ⟨by rw [drain_keys]; exact h.1, ?_⟩
  intro s hs
  unfold remove_all_subscriptions_from_client at hs
  simp only [List.mem_map] at hs
  obtain ⟨c, hc, rfl⟩ := hs
  unfold remove_subscription_from_a_client
  split_ifs
  · exact (h.2 c hc).erase fd
  · exact h.2 c hc

theorem regInv_unsubscribe {subs : SubscriptionList} (h : RegInv subs) (key : CString)
    (fd : Int) : RegInv (unsubscribe_from_key subs key fd).2.1 := by
  unfold unsubscribe_from_key
  simp only []
  by_cases hk : key ∈ subs.map Subscription.key
  · rw [unsubscribe_loop_found hk]
    split_ifs
    · exact regInv_set_subscribers h ((subscribers_of_nodup h).erase fd)
    · exact h
  · rw [unsubscribe_loop_not_found hk]
    exact h

theorem unsubscribe_keys (subs : SubscriptionList) (key : CString) (fd : Int) :
    ((unsubscribe_from_key subs key fd).2.1).map Subscription.key
      = subs.map Subscription.key := by
  unfold unsubscribe_from_key
  simp only []
  by_cases hk : key ∈ subs.map Subscription.key
  · rw [unsubscribe_loop_found hk]
    split_ifs
    · exact set_subscribers_keys _ _ _
    · rfl
  · rw [unsubscribe_loop_not_found hk]

theorem find_key_iff (key : CString) (l : List KeyNode) :
    find_key key l = true ↔ find_value key l ≠ none := by
  induction l with
  | nil => simp [find_key, find_value]
  | cons n rest ih =>
    by_cases h : n.key = key
    · simp [find_key, find_value, strcmp_eq_zero_iff, h]
    · simp [find_key, find_value, strcmp_eq_zero_iff, h, ih]

theorem key_exists_spec (ht : HashTable) (key : CString) (hk : alnum_first key) :
    key_exists ht key
      = .ok (if lookup ht key ≠ none then 1 else 0, [.rdlock .global_lock]) := by
  obtain ⟨i, hi⟩ := alnum_bucket key hk
  unfold key_exists lookup
  simp only [hi]
  by_cases hf : find_key key (ht.table i) = true
  · have := (find_key_iff key _).1 hf
    simp [hf, this]
  · have : find_value key (ht.table i) = none := by
      by_contra hc
      exact hf ((find_key_iff key _).2 hc)
    simp [hf, this]

/-! ## Invariants of the reachable states -/

theorem subsPresent_iff (ht : HashTable) (subs : SubscriptionList) :
    SubsPresent ht subs ↔ ∀ k ∈ subs.map Subscription.key, lookup ht k ≠ none := by
  unfold SubsPresent
  constructor
  · intro h k hk
    obtain ⟨s, hs, rfl⟩ := List.mem_map.1 hk
    exact h s hs
  · intro h s hs
    exact h _ (List.mem_map.2 ⟨s, hs, rfl⟩)

theorem alnum_of_bucket {key : CString} {i : Fin TABLE_SIZE}
    (h : bucket_index (hash key) = some i) : alnum_first key := by
  rw [bucket_index_eq_some] at h
  apply (hash_range_iff key).1
  have : (i : Nat) < 26 := i.isLt
  constructor <;> omega

theorem alnum_of_write_ok {ht ht2 : HashTable} {subs : SubscriptionList} {key value : CString}
    {r : Int} {evs : List Event} (h : write_pair ht subs key value = .ok (r, ht2, evs)) :
    alnum_first key := by
  cases hi : bucket_index (hash key) with
  | none => simp [write_pair, hi] at h
  | some i => exact alnum_of_bucket hi

theorem alnum_of_delete_ok {ht ht2 : HashTable} {subs subs2 : SubscriptionList} {key : CString}
    {r : Int} {evs : List Event} (h : delete_pair ht subs key = .ok (r, ht2, subs2, evs)) :
    alnum_first key := by
  cases hi : bucket_index (hash key) with
  | none => simp [delete_pair, hi] at h
  | some i => exact alnum_of_bucket hi

theorem alnum_of_key_exists_ok {ht : HashTable} {key : CString} {r : Int} {evs : List Event}
    (h : key_exists ht key = .ok (r, evs)) : alnum_first key := by
  cases hi : bucket_index (hash key) with
  | none => simp [key_exists, hi] at h
  | some i => exact alnum_of_bucket hi

theorem write_pair_exact (ht : HashTable) (subs : SubscriptionList) (key value : CString)
    (hk : alnum_first key) (hreg : (subs.map Subscription.key).Nodup) :
    write_pair ht subs key value
      = .ok (0, put ht key value,
          if lookup ht key = none then []
          else [Event.rdlock .subs_lock]
            ++ (subscribers_of key subs).map
                (fun fd => Event.notification fd (changed_frame key value))
            ++ [Event.unlock .subs_lock]) := by
  obtain ⟨i, hi⟩ := alnum_bucket key hk
  unfold write_pair put lookup write_bucket
  simp only [hi]
  cases hr : replace_value key value (ht.table i) with
  | none =>
    have h1 := (replace_value_eq_none key value _).1 hr
    have h2 := (find_value_eq_none key _).2 h1
    simp [h2]
  | some l =>
    have h1 : key ∈ (ht.table i).map KeyNode.key := by
      by_contra hc
      rw [(replace_value_eq_none key value _).2 hc] at hr
      cases hr
    have h2 : find_value key (ht.table i) ≠ none := fun e =>
      (find_value_eq_none key _).1 e h1
    simp only [notify_change_trace key value subs hreg, h2, if_false]

theorem delete_pair_exact (ht : HashTable) (subs : SubscriptionList) (key : CString)
    (hk : alnum_first key) :
    delete_pair ht subs key
      = if lookup ht key = none then .ok (1, ht, subs, [])
        else .ok (0, remove ht key, drop_node key subs,
          [Event.wrlock .subs_lock]
            ++ (subscribers_of key subs).map
                (fun fd => Event.notification fd (deleted_frame key))
            ++ [Event.unlock .subs_lock]) := by
  obtain ⟨i, hi⟩ := alnum_bucket key hk
  unfold delete_pair remove lookup delete_bucket
  simp only [hi]
  cases hr : unlink_node key (ht.table i) with
  | none =>
    have h1 := (unlink_node_eq_none key _).1 hr
    have h2 := (find_value_eq_none key _).2 h1
    simp [h2]
  | some l =>
    have h1 : key ∈ (ht.table i).map KeyNode.key := by
      by_contra hc
      rw [(unlink_node_eq_none key _).2 hc] at hr
      cases hr
    have h2 : find_value key (ht.table i) ≠ none := fun e =>
      (find_value_eq_none key _).1 e h1
    simp only [remove_all_subscriptions_from_key, remove_subscription_node_trace, h2, if_false]

theorem add_subscription_found {S : Nat} (ht : HashTable) {subs : SubscriptionList}
    {key : CString} (fd : Int) (h : key ∈ subs.map Subscription.key) :
    add_subscription S ht subs key fd =
      if fd ∈ subscribers_of key subs then
        .ok (2, subs, [.wrlock .subs_lock, .unlock .subs_lock])
      else if (subscribers_of key subs).length < 10 * S then
        .ok (1, set_subscribers key (subscribers_of key subs ++ [fd]) subs,
          [.wrlock .subs_lock, .unlock .subs_lock])
      else .error (.out_of_bounds (subscribers_of key subs).length) := by
  unfold add_subscription
  rw [add_to_node_found h]
  split_ifs <;> rfl

theorem add_subscription_new {S : Nat} (ht : HashTable) {subs : SubscriptionList}
    {key : CString} (fd : Int) (h : key ∉ subs.map Subscription.key)
    (hk : alnum_first key) :
    add_subscription S ht subs key fd =
      if lookup ht key ≠ none then
        if 10 * S = 0 then .error (.out_of_bounds 0)
        else if fd = 0 then
          .ok (2, subs, [.wrlock .subs_lock, .rdlock .global_lock, .unlock .subs_lock])
        else
          .ok (1, ⟨key, [fd]⟩ :: subs,
            [.wrlock .subs_lock, .rdlock .global_lock, .unlock .subs_lock])
      else .ok (0, subs, [.wrlock .subs_lock, .rdlock .global_lock, .unlock .subs_lock]) := by
  unfold add_subscription
  rw [add_to_node_eq_none h, key_exists_spec ht key hk]
  simp only []
  by_cases hl : lookup ht key ≠ none
  · simp only [hl, if_true, ne_eq, one_ne_zero, not_false_eq_true]
    split_ifs <;> rfl
  · simp only [hl, if_false, ne_eq, not_true_eq_false]
    rfl

theorem state_inv_of_reachable {S : Nat} {ht : HashTable} {subs : SubscriptionList}
    (h : ReachableState S ht subs) : TableInv ht ∧ RegInv subs ∧ SubsPresent ht subs := by
  induction h with
  | init =>
    refine ⟨tableInv_create, ⟨by simp, by simp⟩, ?_⟩
    intro s hs; simp at hs
  | @write ht ht2 subs key value r evs _ hw ih =>
    obtain ⟨hti, hri, hsp⟩ := ih
    have hk := alnum_of_write_ok hw
    rw [write_pair_exact ht subs key value hk hri.1] at hw
    injection hw with hw
    injection hw with _ hw
    injection hw with hw _
    subst hw
    refine ⟨tableInv_put hti key value, hri, ?_⟩
    intro s hs
    rw [lookup_put _ _ _ _ hk]
    split_ifs
    · simp
    · exact hsp s hs
  | @delete ht ht2 subs subs2 key r evs _ hd ih =>
    obtain ⟨hti, hri, hsp⟩ := ih
    have hk := alnum_of_delete_ok hd
    rw [delete_pair_exact ht subs key hk] at hd
    by_cases hl : lookup ht key = none
    · rw [if_pos hl] at hd
      injection hd with hd
      injection hd with _ hd
      injection hd with h1 hd
      injection hd with h2 _
      subst h1; subst h2
      exact ⟨hti, hri, hsp⟩
    · rw [if_neg hl] at hd
      injection hd with hd
      injection hd with _ hd
      injection hd with h1 hd
      injection hd with h2 _
      subst h1; subst h2
      refine ⟨tableInv_remove hti key, regInv_drop_node hri, ?_⟩
      intro s hs
      have hne : s.key ≠ key := by
        intro e
        exact drop_node_keys hri.1 (List.mem_map.2 ⟨s, hs, e⟩)
      rw [lookup_remove ht hti, if_neg hne]
      exact hsp s ((drop_node_sublist key subs).subset hs)
  | @subscribe ht subs subs2 key fd r evs _ ha ih =>
    obtain ⟨hti, hri, hsp⟩ := ih
    by_cases hmem : key ∈ subs.map Subscription.key
    · rw [add_subscription_found ht fd hmem] at ha
      split_ifs at ha with h1 h2
      · injection ha with ha
        injection ha with _ ha
        injection ha with ha _
        subst ha
        exact ⟨hti, hri, hsp⟩
      · injection ha with ha
        injection ha with _ ha
        injection ha with ha _
        subst ha
        refine ⟨hti, regInv_set_subscribers hri ?_, ?_⟩
        · rw [List.nodup_append]
          refine ⟨subscribers_of_nodup hri, by simp, ?_⟩
          intro a ha1 ha2
          simp only [List.mem_singleton] at ha2
          exact h1 (ha2 ▸ ha1)
        · rw [subsPresent_iff, set_subscribers_keys, ← subsPresent_iff]
          exact hsp
    · have hk : alnum_first key := by
        unfold add_subscription at ha
        rw [add_to_node_eq_none hmem] at ha
        cases hke : key_exists ht key with
        | error e => simp [hke] at ha
        | ok res => exact @alnum_of_key_exists_ok ht key res.1 res.2 hke
      rw [add_subscription_new ht fd hmem hk] at ha
      split_ifs at ha with h1 h2 h3
      · injection ha with ha
        injection ha with _ ha
        injection ha with ha _
        subst ha
        exact ⟨hti, hri, hsp⟩
      · injection ha with ha
        injection ha with _ ha
        injection ha with ha _
        subst ha
        refine ⟨hti, ⟨?_, ?_⟩, ?_⟩
        · exact List.nodup_cons.2 ⟨hmem, hri.1⟩
        · intro s hs
          rcases List.mem_cons.1 hs with hs | hs
          · rw [hs]; simp
          · exact hri.2 s hs
        · intro s hs
          rcases List.mem_cons.1 hs with hs | hs
          · rw [hs]; exact h1
          · exact hsp s hs
      · injection ha with ha
        injection ha with _ ha
        injection ha with ha _
        subst ha
        exact ⟨hti, hri, hsp⟩
  | @unsubscribe ht subs key fd _ ih =>
    obtain ⟨hti, hri, hsp⟩ := ih
    refine ⟨hti, regInv_unsubscribe hri key fd, ?_⟩
    rw [subsPresent_iff, unsubscribe_keys, ← subsPresent_iff]
    exact hsp
  | @drain ht subs fd _ ih =>
    obtain ⟨hti, hri, hsp⟩ := ih
    refine ⟨hti, regInv_drain hri fd, ?_⟩
    rw [subsPresent_iff, drain_keys, ← subsPresent_iff]
    exact hsp

/-! ## Claims C12 to C16 -/

theorem reachable_apple :
    ReachableState 1 (put create_hash_table (cstr "apple") (cstr "red"))
      [⟨cstr "apple", [7]⟩] := by
  have h1 : ReachableState 1 (put create_hash_table (cstr "apple") (cstr "red")) [] :=
    @ReachableState.write 1 create_hash_table _ [] (cstr "apple") (cstr "red") 0 []
      ReachableState.init rfl
  exact @ReachableState.subscribe 1 _ [] _ (cstr "apple") 7 1 _ h1 rfl

theorem alnum_of_lookup {ht : HashTable} {key : CString} (h : lookup ht key ≠ none) :
    alnum_first key := by
  unfold lookup at h
  cases hi : bucket_index (hash key) with
  | none => simp [hi] at h
  | some i => exact alnum_of_bucket hi

theorem notifications_bracket (l1 l2 : Lock) (fds : List Int) (frame : List Nat) :
    notifications ([Event.wrlock l1] ++ fds.map (fun fd => Event.notification fd frame)
      ++ [Event.unlock l2]) = fds.map (fun fd => (fd, frame)) := by
  simp [notifications_append, notifications_map, notifications]

theorem notifications_bracket_rd (l1 l2 : Lock) (fds : List Int) (frame : List Nat) :
    notifications ([Event.rdlock l1] ++ fds.map (fun fd => Event.notification fd frame)
      ++ [Event.unlock l2]) = fds.map (fun fd => (fd, frame)) := by
  simp [notifications_append, notifications_map, notifications]

/-- C12: deleting a key notifies and removes its subscribers. In every reachable
state in which key `K` is present with subscriber handles `h1..hn` (pairwise
distinct), `delete_pair(K)` returns 0 and writes exactly one notification frame
to each `hi`, the frame of type 2 with key `K` and value `DELETED`, and no other
frame; the subscription node for `K` is removed from the registry, so that a
later `write_pair` on `K`, in any table, sends no notification. -/
theorem delete_notifies_and_removes (S : Nat) (ht : HashTable) (subs : SubscriptionList)
    (K : CString) (hr : ReachableState S ht subs) (hp : lookup ht K ≠ none) :
    (subscribers_of K subs).Nodup
    ∧ ∃ evs, delete_pair ht subs K = .ok (0, remove ht K, drop_node K subs, evs)
      ∧ notifications evs = (subscribers_of K subs).map (fun h => (h, deleted_frame K))
      ∧ K ∉ (drop_node K subs).map Subscription.key
      ∧ subscribers_of K (drop_node K subs) = []
      ∧ ∀ (ht2 : HashTable) (V : CString),
          ∃ evs2, write_pair ht2 (drop_node K subs) K V = .ok (0, put ht2 K V, evs2)
            ∧ notifications evs2 = [] := by
  obtain ⟨_, hri, _⟩ := state_inv_of_reachable hr
  have hk := alnum_of_lookup hp
  have hdk := @drop_node_keys K subs hri.1
  have hnone := subscribers_of_eq_nil hdk
  have hd := delete_pair_exact ht subs K hk
  rw [if_neg hp] at hd
  refine ⟨subscribers_of_nodup hri, _, hd, notifications_bracket _ _ _ _, hdk, hnone, ?_⟩
  · intro ht2 V
    refine ⟨_, write_pair_exact ht2 _ K V hk (regInv_drop_node hri).1, ?_⟩
    rw [hnone]
    split_ifs <;> rfl

/-- Witness of C12: `apple` is stored and handle 7 subscribed to it. -/
theorem delete_notifies_and_removes_witness :
    ∃ evs, delete_pair (put create_hash_table (cstr "apple") (cstr "red"))
        [⟨cstr "apple", [7]⟩] (cstr "apple")
        = .ok (0, remove (put create_hash_table (cstr "apple") (cstr "red")) (cstr "apple"),
            [], evs)
      ∧ notifications evs = [(7, deleted_frame (cstr "apple"))] :=
  let ⟨evs, h1, h2, _⟩ := (delete_notifies_and_removes 1
    (put create_hash_table (cstr "apple") (cstr "red")) [⟨cstr "apple", [7]⟩] (cstr "apple")
    reachable_apple (by decide)).2
  ⟨evs, h1, h2⟩

/-- C13: a write that changes a key produces exactly one notification per
subscriber. In every reachable state in which key `K` is present with
subscriber handles `h1..hn` (pairwise distinct), `write_pair(K,V)` returns 0 and
writes exactly one frame to each `hi`, the frame of type 1 with key `K` and the
new value `V`, and no other frame; `write_pair` has no effect on the registry
(it only reads it). -/
theorem write_notifies_subscribers (S : Nat) (ht : HashTable) (subs : SubscriptionList)
    (K V : CString) (hr : ReachableState S ht subs) (hp : lookup ht K ≠ none) :
    (subscribers_of K subs).Nodup
    ∧ ∃ evs, write_pair ht subs K V = .ok (0, put ht K V, evs)
      ∧ notifications evs = (subscribers_of K subs).map (fun h => (h, changed_frame K V))
      ∧ ReachableState S (put ht K V) subs := by
  obtain ⟨_, hri, _⟩ := state_inv_of_reachable hr
  have hk := alnum_of_lookup hp
  have hw := write_pair_exact ht subs K V hk hri.1
  refine ⟨subscribers_of_nodup hri, _, hw, ?_, ReachableState.write hr hw⟩
  rw [if_neg hp]
  exact notifications_bracket_rd _ _ _ _

/-- Witness of C13: `apple` is stored, handle 7 subscribed, the value becomes `green`. -/
theorem write_notifies_subscribers_witness :
    ∃ evs, write_pair (put create_hash_table (cstr "apple") (cstr "red"))
        [⟨cstr "apple", [7]⟩] (cstr "apple") (cstr "green")
        = .ok (0, put (put create_hash_table (cstr "apple") (cstr "red")) (cstr "apple")
            (cstr "green"), evs)
      ∧ notifications evs = [(7, changed_frame (cstr "apple") (cstr "green"))] :=
  let ⟨evs, h1, h2, _⟩ := (write_notifies_subscribers 1
    (put create_hash_table (cstr "apple") (cstr "red")) [⟨cstr "apple", [7]⟩] (cstr "apple")
    (cstr "green") reachable_apple (by decide)).2
  ⟨evs, h1, h2⟩

/-- C14: notification frame layout. For every key and value of at most
`MAX_STRING_SIZE` bytes, `write_notification` hands to `safe_write` exactly one
frame of `1 + 2*MAX_STRING_SIZE` bytes for type 1, 2 or 3: byte 0 is the type;
the next `MAX_STRING_SIZE` bytes are the key followed by zero padding (all zeros
for type 3); the last `MAX_STRING_SIZE` bytes are the value followed by zero
padding for type 1, `DELETED` followed by zero padding for type 2, and zeros
for type 3. For any other type nothing is written. -/
theorem notification_frame_layout (fd : Int) (key value : CString) (v : Option CString)
    (hk : strlen key ≤ MAX_STRING_SIZE) (hv : strlen value ≤ MAX_STRING_SIZE) :
    write_notification fd key (some value) 1
        = .ok [.notification fd ([1] ++ (key.bytes
            ++ List.replicate (MAX_STRING_SIZE - strlen key) 0)
            ++ (value.bytes ++ List.replicate (MAX_STRING_SIZE - strlen value) 0))]
    ∧ write_notification fd key v 2
        = .ok [.notification fd ([2] ++ (key.bytes
            ++ List.replicate (MAX_STRING_SIZE - strlen key) 0)
            ++ (ascii "DELETED" ++ List.replicate (MAX_STRING_SIZE - 7) 0))]
    ∧ write_notification fd key v 3
        = .ok [.notification fd ([3] ++ List.replicate MAX_STRING_SIZE 0
            ++ List.replicate MAX_STRING_SIZE 0)]
    ∧ (∀ type : Int, type ≠ 1 → type ≠ 2 → type ≠ 3 → write_notification fd key v type = .ok [])
    ∧ (changed_frame key value).length = 1 + 2 * MAX_STRING_SIZE
    ∧ (deleted_frame key).length = 1 + 2 * MAX_STRING_SIZE := by
  have e1 : strncpy key.bytes MAX_STRING_SIZE
      = key.bytes ++ List.replicate (MAX_STRING_SIZE - strlen key) 0 := by
    unfold strncpy strlen at *
    rw [List.take_of_length_le hk]
  have e2 : strncpy value.bytes MAX_STRING_SIZE
      = value.bytes ++ List.replicate (MAX_STRING_SIZE - strlen value) 0 := by
    unfold strncpy strlen at *
    rw [List.take_of_length_le hv]
  have e3 : strncpy (ascii "DELETED") MAX_STRING_SIZE
      = ascii "DELETED" ++ List.replicate (MAX_STRING_SIZE - 7) 0 := by decide
  have hlen : ∀ l : List Nat, (strncpy l MAX_STRING_SIZE).length = MAX_STRING_SIZE := by
    intro l
    unfold strncpy
    simp only [List.length_append, List.length_take, List.length_replicate]
    omega
  refine ⟨?_, ?_, ?_, ?_, ?_, ?_⟩
  · simp only [write_notification, if_true, e1, e2]
  · simp only [write_notification, e1, e3]
    rfl
  · simp only [write_notification]
    have : List.replicate (2 * MAX_STRING_SIZE) 0
        = List.replicate MAX_STRING_SIZE 0 ++ List.replicate MAX_STRING_SIZE 0 := by decide
    rw [this]
    rfl
  · intro type h1 h2 h3
    simp only [write_notification, h1, h2, h3, if_false]
  · unfold changed_frame
    simp only [List.length_append, hlen, List.length_singleton]
    omega
  · unfold deleted_frame
    simp only [List.length_append, hlen, List.length_singleton]
    omega

/-- Witness of C14 at key `apple` and value `red`. -/
theorem notification_frame_layout_witness :
    write_notification 7 (cstr "apple") (some (cstr "red")) 1
        = .ok [.notification 7 ([1] ++ (ascii "apple" ++ List.replicate 35 0)
            ++ (ascii "red" ++ List.replicate 37 0))]
    ∧ write_notification 7 (cstr "apple") none 2
        = .ok [.notification 7 ([2] ++ (ascii "apple" ++ List.replicate 35 0)
            ++ (ascii "DELETED" ++ List.replicate 33 0))] :=
  ⟨(notification_frame_layout 7 (cstr "apple") (cstr "red") none (by decide) (by decide)).1,
   (notification_frame_layout 7 (cstr "apple") (cstr "red") none (by decide) (by decide)).2.1⟩

/-- C16: no duplicate membership. In every registry state reachable from the
empty registry each key has at most one subscription node and no subscriber
handle occurs twice in a node's `subscribers` array; `add_subscription(K, h)`
when `h` is already subscribed to `K` returns 2 and leaves the registry
unchanged. -/
theorem no_duplicate_membership (S : Nat) (ht : HashTable) (subs : SubscriptionList)
    (K : CString) (h : Int) (hr : ReachableState S ht subs) :
    (subs.map Subscription.key).Nodup
    ∧ (∀ s ∈ subs, s.subscribers.Nodup)
    ∧ (h ∈ subscribers_of K subs →
        ∃ evs, add_subscription S ht subs K h = .ok (2, subs, evs)) := by
  obtain ⟨_, hri, _⟩ := state_inv_of_reachable hr
  refine ⟨hri.1, hri.2, ?_⟩
  intro hm
  have ha := @add_subscription_found S ht subs K h (mem_keys_of_subscribers_of hm)
  rw [if_pos hm] at ha
  exact ⟨_, ha⟩

/-- Witness of C16: handle 7 subscribes to `apple` a second time. -/
theorem no_duplicate_membership_witness :
    ∃ evs, add_subscription 1 (put create_hash_table (cstr "apple") (cstr "red"))
      [⟨cstr "apple", [7]⟩] (cstr "apple") 7 = .ok (2, [⟨cstr "apple", [7]⟩], evs) :=
  (no_duplicate_membership 1 (put create_hash_table (cstr "apple") (cstr "red"))
    [⟨cstr "apple", [7]⟩] (cstr "apple") 7 reachable_apple).2.2 (by decide)

/-! ## Claims C11, C15, C17 to C21 -/

/-- C11 (global-lock discipline) fails on the code. `kvs_read` of the batch `[a]`
acquires the `list_lock` of bucket 0 without ever taking `global_lock`, and
`key_exists` returns with its read lock on `global_lock` still held (its unlock
sits after the last `return`). `kvs_write` and `kvs_delete` on the same batch
keep the discipline. -/
theorem global_lock_discipline_broken :
    (kvs_read 64 (some create_hash_table) [cstr "a"] 1).toOption.map BatchResult.trace
      = some [.file_write 1 (ascii "["), .rdlock (.list_lock 0),
          .file_write 1 (ascii "(a,KVSERROR)"), .file_write 1 (ascii "]\n"),
          .unlock (.list_lock 0)]
    ∧ (kvs_read 64 (some create_hash_table) [cstr "a"] 1).toOption.map
        (fun r => buckets_under_global r.trace) = some false
    ∧ (key_exists create_hash_table (cstr "a")).toOption = some (0, [.rdlock .global_lock])
    ∧ (key_exists create_hash_table (cstr "a")).toOption.map
        (fun r => locks_released r.2) = some false
    ∧ (kvs_write (some create_hash_table) [cstr "a"] [cstr "v"] []).toOption.map
        (fun r => buckets_under_global r.trace && locks_released r.trace) = some true
    ∧ (kvs_delete (some create_hash_table) [cstr "a"] 1 []).toOption.map
        (fun r => buckets_under_global r.1.trace && locks_released r.1.trace) = some true := by
  refine ⟨?_, ?_, ?_, ?_, ?_, ?_⟩ <;> rfl

/-- In a reachable state `add_subscription` on a key with an alphanumeric first
character that is absent from the table returns 0 and leaves the registry
unchanged. -/
theorem add_subscription_absent {S : Nat} {ht : HashTable} {subs : SubscriptionList}
    (K : CString) (h : Int) (hr : ReachableState S ht subs) (hk : alnum_first K)
    (ha : lookup ht K = none) :
    add_subscription S ht subs K h
      = .ok (0, subs, [.wrlock .subs_lock, .rdlock .global_lock, .unlock .subs_lock]) := by
  obtain ⟨_, _, hsp⟩ := state_inv_of_reachable hr
  have hn : K ∉ subs.map Subscription.key := by
    intro hm
    exact (subsPresent_iff ht subs).1 hsp K hm ha
  rw [add_subscription_new ht h hn hk]
  simp [ha]

/-- C15 (a subscription is accepted only for an existing key) fails on the code
for a key absent from the table whose first character is not alphanumeric:
`add_subscription` reaches `key_exists`, which indexes the bucket array with
the `-1` returned by `hash`, instead of returning 0. -/
theorem subscribe_invalid_key_out_of_bounds :
    lookup create_hash_table (cstr "_x") = none
    ∧ stored create_hash_table (cstr "_x") = none
    ∧ add_subscription 1 create_hash_table [] (cstr "_x") 7 = .error (.out_of_bounds (-1)) :=
  ⟨rfl, rfl, rfl⟩

/-- C17 (per-key subscriber quota) fails on the code. With `S = 1` the array
`subscribers` has 10 entries; when key `a` already has the ten subscribers
1..10, `add_subscription(a, 11)` stores handle 11 at index 10, past the end of
the array, instead of returning 2. -/
theorem subscriber_array_overflow :
    (subscribers_of (cstr "a") [⟨cstr "a", [1, 2, 3, 4, 5, 6, 7, 8, 9, 10]⟩]).length = 10 * 1
    ∧ add_subscription 1 (put create_hash_table (cstr "a") (cstr "v"))
        [⟨cstr "a", [1, 2, 3, 4, 5, 6, 7, 8, 9, 10]⟩] (cstr "a") 11
      = .error (.out_of_bounds 10) :=
  ⟨rfl, rfl⟩

/-- C19 (UNSUBSCRIBE outcome encoding) fails on the code: `unsubscribe_from_key`
never consults the store. In a reachable state, key `a` is in the store and
has no subscription node (nobody subscribed to it); UNSUBSCRIBE of handle 5
gets the response `[4, 2]` and `unsubscribe_from_key` returns -1, the result
that `kvs.h` documents for a key that does not exist, where the claim and the
documentation give `[4, 1]` and 1 (the subscription does not exist). -/
theorem unsubscribe_ignores_store :
    ReachableState 1 (put create_hash_table (cstr "a") (cstr "v")) []
    ∧ lookup (put create_hash_table (cstr "a") (cstr "v")) (cstr "a") = some (cstr "v")
    ∧ (unsubscribe_from_key [] (cstr "a") 5).1 = -1
    ∧ handle_unsubscribe [] (cstr "a") 4 5
        = ([], [.wrlock .subs_lock, .unlock .subs_lock, .response 4 [4, 2]]) :=
  ⟨@ReachableState.write 1 create_hash_table _ [] (cstr "a") (cstr "v") 0 []
      ReachableState.init rfl, rfl, rfl, rfl⟩

/-- What UNSUBSCRIBE computes, in terms of the subscription list alone. For
every reachable state, key `K` and handle `h`, the response to UNSUBSCRIBE is
`[4, r]` with `r = 0` if `h` was subscribed to `K`, `r = 1` if `K` has a
subscription node that does not hold `h`, and `r = 2` if `K` has no
subscription node (which is the case when `K` is not in the store);
`unsubscribe_from_key` returns 0, 1 and -1 in these cases. Afterwards `h` is
not subscribed to `K`, the other subscribers of `K` keep their order and the
subscribers of every other key are unchanged. -/
theorem unsubscribe_outcome (S : Nat) (ht : HashTable) (subs : SubscriptionList)
    (K : CString) (h resp_fd : Int) (hr : ReachableState S ht subs) :
    responses (handle_unsubscribe subs K resp_fd h).2
        = [(resp_fd, [4, if h ∈ subscribers_of K subs then 0
            else if K ∈ subs.map Subscription.key then 1 else 2])]
    ∧ (unsubscribe_from_key subs K h).1
        = (if h ∈ subscribers_of K subs then 0
           else if K ∈ subs.map Subscription.key then 1 else -1)
    ∧ (handle_unsubscribe subs K resp_fd h).1 = (unsubscribe_from_key subs K h).2.1
    ∧ subscribers_of K (unsubscribe_from_key subs K h).2.1
        = (subscribers_of K subs).filter (fun x => decide (x ≠ h))
    ∧ (∀ K2, K2 ≠ K →
        subscribers_of K2 (unsubscribe_from_key subs K h).2.1 = subscribers_of K2 subs)
    ∧ (h ∉ subscribers_of K subs → (unsubscribe_from_key subs K h).2.1 = subs)
    ∧ (lookup ht K = none → K ∉ subs.map Subscription.key) := by
  obtain ⟨_, hri, hsp⟩ := state_inv_of_reachable hr
  have hnd : (subscribers_of K subs).Nodup := subscribers_of_nodup hri
  have hlast : lookup ht K = none → K ∉ subs.map Subscription.key :=
    fun ha hm => (subsPresent_iff ht subs).1 hsp K hm ha
  by_cases hk : K ∈ subs.map Subscription.key
  · have hl := @unsubscribe_loop_found K h subs hk
    by_cases hm : h ∈ subscribers_of K subs
    · rw [if_pos hm] at hl
      refine ⟨?_, ?_, ?_, ?_, ?_, ?_, hlast⟩
      · simp [handle_unsubscribe, unsubscribe_from_key, hl, hm, responses_append, responses,
          write_response, OP_CODE_UNSUB]
      · simp [unsubscribe_from_key, hl, hm]
      · simp [handle_unsubscribe, unsubscribe_from_key, hl]
      · simp only [unsubscribe_from_key, hl]
        rw [subscribers_of_set_subscribers hk, if_pos rfl, hnd.erase_eq_filter]
        apply List.filter_congr
        intro x _
        by_cases e : x = h <;> simp [e]
      · intro K2 h2
        simp only [unsubscribe_from_key, hl]
        rw [subscribers_of_set_subscribers hk, if_neg h2]
      · intro hn
        exact absurd hm hn
    · rw [if_neg hm] at hl
      refine ⟨?_, ?_, ?_, ?_, ?_, ?_, hlast⟩
      · simp [handle_unsubscribe, unsubscribe_from_key, hl, hm, hk, responses_append,
          responses, write_response, OP_CODE_UNSUB]
      · simp [unsubscribe_from_key, hl, hm, hk]
      · simp [handle_unsubscribe, unsubscribe_from_key, hl]
      · simp only [unsubscribe_from_key, hl]
        symm
        rw [List.filter_eq_self]
        intro x hx
        simp only [decide_eq_true_eq]
        intro e
        exact hm (e ▸ hx)
      · intro K2 _
        simp only [unsubscribe_from_key, hl]
      · intro _
        simp only [unsubscribe_from_key, hl]
  · have hl := @unsubscribe_loop_not_found K h subs hk
    have hm : h ∉ subscribers_of K subs := by
      rw [subscribers_of_eq_nil hk]
      simp
    refine ⟨?_, ?_, ?_, ?_, ?_, ?_, hlast⟩
    · simp [handle_unsubscribe, unsubscribe_from_key, hl, hm, hk, responses_append,
        responses, write_response, OP_CODE_UNSUB]
    · simp [unsubscribe_from_key, hl, hm, hk]
    · simp [handle_unsubscribe, unsubscribe_from_key, hl]
    · simp only [unsubscribe_from_key, hl]
      rw [subscribers_of_eq_nil hk]
      rfl
    · intro K2 _
      simp only [unsubscribe_from_key, hl]
    · intro _
      simp only [unsubscribe_from_key, hl]

/-- C20 (SUBSCRIBE outcome encoding) fails on the code. With `S = 1`, when key `a`
already has ten subscribers the SUBSCRIBE of an eleventh handle writes past the
end of the `subscribers` array instead of answering `[3, 2]`; for key `a` in
the store without a subscription node, the SUBSCRIBE of handle 0 is answered
`[3, 2]` although the handle was not subscribed; and for a key with a
non-alphanumeric first character `key_exists` indexes bucket `-1` instead of
answering `[3, 0]`. -/
theorem subscribe_full_set_overflow :
    handle_subscribe 1 (put create_hash_table (cstr "a") (cstr "v"))
        [⟨cstr "a", [1, 2, 3, 4, 5, 6, 7, 8, 9, 10]⟩] (cstr "a") 4 11
      = .error (.out_of_bounds 10)
    ∧ handle_subscribe 1 (put create_hash_table (cstr "a") (cstr "v")) [] (cstr "a") 4 0
      = .ok ([], [.wrlock .subs_lock, .rdlock .global_lock, .unlock .subs_lock,
          .response 4 [3, 2]])
    ∧ handle_subscribe 1 create_hash_table [] (cstr "_x") 4 7
      = .error (.out_of_bounds (-1)) :=
  ⟨rfl, rfl, rfl⟩

/-- C21: draining a handle. For every reachable state and every handle `h`,
`remove_all_subscriptions_from_client(h)` returns 0; afterwards `h` is not a
subscriber of any key, the subscribers of every key are the former ones
without `h`, in the same order, the keys with a subscription node are the
same, and no later `write_pair` or `delete_pair` on any key, in any table,
writes a notification to `h`. -/
theorem drain_removes_handle (S : Nat) (ht : HashTable) (subs : SubscriptionList) (h : Int)
    (hr : ReachableState S ht subs) :
    (remove_all_subscriptions_from_client subs h).1 = 0
    ∧ (∀ K, h ∉ subscribers_of K (remove_all_subscriptions_from_client subs h).2.1)
    ∧ (∀ K, subscribers_of K (remove_all_subscriptions_from_client subs h).2.1
        = (subscribers_of K subs).filter (fun x => decide (x ≠ h)))
    ∧ ((remove_all_subscriptions_from_client subs h).2.1).map Subscription.key
        = subs.map Subscription.key
    ∧ ReachableState S ht (remove_all_subscriptions_from_client subs h).2.1
    ∧ (∀ (ht2 : HashTable) (K V : CString), alnum_first K →
        ∃ evs, write_pair ht2 (remove_all_subscriptions_from_client subs h).2.1 K V
            = .ok (0, put ht2 K V, evs)
          ∧ ∀ frame, (h, frame) ∉ notifications evs)
    ∧ (∀ (ht2 : HashTable) (K : CString), alnum_first K →
        ∃ r ht3 subs3 evs, delete_pair ht2 (remove_all_subscriptions_from_client subs h).2.1 K
            = .ok (r, ht3, subs3, evs)
          ∧ ∀ frame, (h, frame) ∉ notifications evs) := by
  obtain ⟨_, hri, _⟩ := state_inv_of_reachable hr
  have hri2 := regInv_drain hri h
  have hfil : ∀ K, subscribers_of K (remove_all_subscriptions_from_client subs h).2.1
      = (subscribers_of K subs).filter (fun x => decide (x ≠ h)) := by
    intro K
    rw [subscribers_of_drain, (subscribers_of_nodup hri).erase_eq_filter]
    apply List.filter_congr
    intro x _
    by_cases e : x = h <;> simp [e]
  have hnot : ∀ K, h ∉ subscribers_of K (remove_all_subscriptions_from_client subs h).2.1 := by
    intro K hm
    rw [hfil K] at hm
    simp at hm
  have hfr : ∀ (K : CString) (frame0 frame : List Nat),
      (h, frame) ∉ (subscribers_of K (remove_all_subscriptions_from_client subs h).2.1).map
        (fun fd => (fd, frame0)) := by
    intro K frame0 frame hm
    obtain ⟨fd, hfd, he⟩ := List.mem_map.1 hm
    have : fd = h := congrArg Prod.fst he
    exact hnot K (this ▸ hfd)
  refine ⟨rfl, hnot, hfil, drain_keys subs h, ReachableState.drain h hr, ?_, ?_⟩
  · intro ht2 K V hk
    refine ⟨_, write_pair_exact ht2 _ K V hk hri2.1, ?_⟩
    intro frame
    split_ifs
    · simp [notifications]
    · rw [notifications_bracket_rd]
      exact hfr K _ frame
  · intro ht2 K hk
    have hd := delete_pair_exact ht2 (remove_all_subscriptions_from_client subs h).2.1 K hk
    by_cases hp : lookup ht2 K = none
    · rw [if_pos hp] at hd
      exact ⟨_, _, _, _, hd, fun frame => by simp [notifications]⟩
    · rw [if_neg hp] at hd
      refine ⟨_, _, _, _, hd, ?_⟩
      intro frame
      rw [notifications_bracket]
      exact hfr K _ frame

/-- Witness of C21: handle 7, subscribed to `apple`, is drained. -/
theorem drain_removes_handle_witness :
    (7 : Int) ∉ subscribers_of (cstr "apple")
      (remove_all_subscriptions_from_client [⟨cstr "apple", [7]⟩] 7).2.1 :=
  (drain_removes_handle 1 (put create_hash_table (cstr "apple") (cstr "red"))
    [⟨cstr "apple", [7]⟩] 7 reachable_apple).2.1 (cstr "apple")

/-! ## Claim C22 -/

theorem print_bucket_eq (fd : Int) (l : List KeyNode)
    (hfit : ∀ node ∈ l, strlen node.key ≤ MAX_STRING_SIZE ∧ strlen node.value ≤ MAX_STRING_SIZE) :
    print_bucket fd l = l.map (fun node => Event.file_write fd (show_line node)) := by
  induction l with
  | nil => rfl
  | cons n rest ih =>
    have hn := hfit n (by simp)
    have hlen : (show_line n).length = n.key.bytes.length + n.value.bytes.length + 5 := by
      unfold show_line
      simp only [List.length_append]
      have h1 : (ascii "(").length = 1 := by decide
      have h2 : (ascii ", ").length = 2 := by decide
      have h3 : (ascii ")\n").length = 2 := by decide
      omega
    have hs : snprintf BUF_SIZE (show_line n) = show_line n := by
      apply snprintf_fits
      rw [hlen]
      unfold strlen MAX_STRING_SIZE at hn
      unfold BUF_SIZE
      omega
    have hw : write_to_file fd (show_line n) = [Event.file_write fd (show_line n)] := by
      unfold write_to_file
      rw [if_neg (by rw [hlen]; omega)]
    have hu : print_bucket fd (n :: rest)
        = write_to_file fd (snprintf BUF_SIZE (show_line n)) ++ print_bucket fd rest := rfl
    rw [hu, hs, hw, ih (fun x hx => hfit x (by simp [hx]))]
    rfl

theorem flatMap_print_bucket (fd : Int) (ht : HashTable) (idxs : List (Fin TABLE_SIZE))
    (hfit : ∀ node ∈ ht.nodes,
      strlen node.key ≤ MAX_STRING_SIZE ∧ strlen node.value ≤ MAX_STRING_SIZE) :
    idxs.flatMap (fun i => print_bucket fd (ht.table i))
      = (idxs.flatMap ht.table).map (fun node => Event.file_write fd (show_line node)) := by
  induction idxs with
  | nil => rfl
  | cons i rest ih =>
    have hb : ∀ node ∈ ht.table i,
        strlen node.key ≤ MAX_STRING_SIZE ∧ strlen node.value ≤ MAX_STRING_SIZE := by
      intro node hn
      apply hfit
      unfold HashTable.nodes
      exact List.mem_flatMap.2 ⟨i, List.mem_finRange i, hn⟩
    simp only [List.flatMap_cons, List.map_append, ih, print_bucket_eq fd _ hb]

theorem file_bytes_map_file_write (fd : Int) (l : List KeyNode) :
    file_bytes fd (l.map (fun node => Event.file_write fd (show_line node)))
      = l.flatMap show_line := by
  induction l with
  | nil => rfl
  | cons n rest ih => simp [file_bytes, ih]

/-- C22: SHOW / snapshot format. For every table whose keys and values fit
`char[MAX_STRING_SIZE]`, `printTable` returns 0 and issues exactly one write
per entry, the line `(key, value)` with a newline, visiting the buckets in
ascending index and each bucket in list order, and nothing else; `kvs_show` and
`kvs_backup` return 0 and write the same bytes. A key written while absent
becomes the first entry of its bucket. When the store invariant holds no key
is on two lines, and the number of lines is the number of entries. -/
theorem printTable_format (ht : HashTable) (fd : Int)
    (hfit : ∀ node ∈ ht.nodes,
      strlen node.key ≤ MAX_STRING_SIZE ∧ strlen node.value ≤ MAX_STRING_SIZE) :
    printTable ht fd
        = (0, ht.nodes.map (fun node => Event.file_write fd (show_line node)))
    ∧ ht.nodes = (List.finRange TABLE_SIZE).flatMap ht.table
    ∧ file_bytes fd (printTable ht fd).2 = ht.nodes.flatMap show_line
    ∧ (kvs_show ht fd).1 = 0
    ∧ file_bytes fd (kvs_show ht fd).2 = ht.nodes.flatMap show_line
    ∧ (kvs_backup ht fd).1 = 0
    ∧ file_bytes fd (kvs_backup ht fd).2 = ht.nodes.flatMap show_line
    ∧ (printTable ht fd).2.length = ht.nodes.length
    ∧ (TableInv ht → (ht.nodes.map KeyNode.key).Nodup)
    ∧ (∀ (K V : CString) (i : Fin TABLE_SIZE), bucket_index (hash K) = some i →
        lookup ht K = none → (put ht K V).table i = ⟨K, V⟩ :: ht.table i) := by
  have hp : printTable ht fd
      = (0, ht.nodes.map (fun node => Event.file_write fd (show_line node))) := by
    unfold printTable HashTable.nodes
    rw [flatMap_print_bucket fd ht _ hfit]
  have hb : file_bytes fd (printTable ht fd).2 = ht.nodes.flatMap show_line := by
    rw [hp]
    exact file_bytes_map_file_write fd _
  refine ⟨hp, rfl, hb, rfl, ?_, ?_, ?_, ?_, nodes_keys_nodup, ?_⟩
  · have hs : (kvs_show ht fd).2
        = [Event.wrlock .global_lock] ++ (printTable ht fd).2 ++ [Event.unlock .global_lock] :=
      rfl
    rw [hs, file_bytes_append, file_bytes_append, hb]
    simp [file_bytes]
  · unfold kvs_backup
    rw [hp]
    rfl
  · unfold kvs_backup
    rw [hp]
    simp only [ne_eq, not_true_eq_false, if_false]
    exact file_bytes_map_file_write fd _
  · rw [hp]
    simp
  · intro K V i hi hl
    unfold put write_bucket
    unfold lookup at hl
    simp only [hi] at hl ⊢
    have hr : replace_value K V (ht.table i) = none := by
      have : ∀ l : List KeyNode, find_value K l = none → replace_value K V l = none := by
        intro l
        induction l with
        | nil => intro _; rfl
        | cons n rest ih =>
          intro hf
          unfold find_value at hf
          unfold replace_value
          split_ifs at hf with hc
          rw [if_neg hc, ih hf]
          rfl
      exact this _ hl
    rw [hr]
    simp [HashTable.set_head]

/-- Witness of C22: the table holding `(a, 1)` and `(b, 2)`. -/
theorem printTable_format_witness :
    file_bytes 1 (printTable
      (put (put create_hash_table (cstr "b") (cstr "2")) (cstr "a") (cstr "1")) 1).2
      = ascii "(a, 1)\n(b, 2)\n" := by
  rw [(printTable_format (put (put create_hash_table (cstr "b") (cstr "2")) (cstr "a")
    (cstr "1")) 1 (by decide)).2.2.1]
  rfl

/-! ## Claims C23 to C25 -/

/-- C23 (`safe_write` delivers the whole buffer under partial writes) fails on
the code. For the buffer `[1, 2, 3]`: when `write` takes 1 byte and then 2,
`safe_write` returns 0 after the descriptor received `[1, 1, 2]`, because every
call writes from the start of the buffer; after an `EINTR` the amount still to
be written grows from 3 to 4 (`size -= (size_t)-1`), so a `write` that takes
the 3 bytes is followed by another call, and a `write` that takes 4 bytes reads
past the end of the buffer. Only a first `write` that takes everything succeeds. -/
theorem safe_write_repeats_bytes :
    safe_write [1, 2, 3] [.wrote 1, .wrote 2] 3 [] = .returned 0 [1, 1, 2]
    ∧ safe_write [1, 2, 3] [.eintr] 3 [] = .running 4 []
    ∧ safe_write [1, 2, 3] [.eintr, .wrote 3, .wrote 1] 3 [] = .returned 0 [1, 2, 3, 1]
    ∧ safe_write [1, 2, 3] [.eintr, .wrote 4] 3 [] = .fault (.out_of_bounds 3)
    ∧ safe_write [1, 2, 3] [.wrote 3] 3 [] = .returned 0 [1, 2, 3] := by
  refine ⟨?_, ?_, ?_, ?_, ?_⟩ <;> decide

/-- C24 (SIGUSR1 reset) fails on the code. From a state with one session
(descriptors 3, 4, 5, subscribed to `a`), the reset empties the registry, closes
the descriptors, sets `active_clients_counter` to 0 and leaves the table alone,
but `head` of the active-clients list still holds the address of the freed
node: the next `remove_active_client` reads freed memory, and the node of the
next session is linked in front of it. -/
theorem reset_leaves_dangling_head :
    sigusr1_reset ⟨put create_hash_table (cstr "a") (cstr "v"), [⟨cstr "a", [5]⟩],
        ⟨.node 3 4 5 .null, 1⟩⟩
      = .ok (⟨put create_hash_table (cstr "a") (cstr "v"), [], ⟨.dangling, 0⟩⟩,
          [.wrlock .subs_lock, .unlock .subs_lock, .close 3, .close 4, .close 5])
    ∧ remove_active_client ⟨.dangling, 0⟩ 4 = .error .use_after_free
    ∧ add_active_client ⟨.dangling, 0⟩ 6 7 8 = ⟨.node 6 7 8 .dangling, 1⟩
    ∧ remove_active_client ⟨.node 6 7 8 .dangling, 1⟩ 4 = .error .use_after_free :=
  ⟨rfl, rfl, rfl, rfl⟩

/-- C25 (abrupt disconnect is cleaned up) fails on the code. For the session
with descriptors 3, 4, 5 subscribed to `a`: when the read of the op code fails
the loop is left with the state unchanged, so handle 5 is still subscribed to
`a`, the session's node is still in the active-clients list and the counter is
still 1, and no descriptor is closed; a DISCONNECT request does the cleanup. -/
theorem abrupt_disconnect_not_cleaned :
    (session_turn 1 ⟨put create_hash_table (cstr "a") (cstr "v"), [⟨cstr "a", [5]⟩],
        ⟨.node 3 4 5 .null, 1⟩⟩ 3 4 5 .read_failed).toOption.map
      (fun r => (r.1.subs_list, r.1.active_clients_list, r.2.1, r.2.2))
      = some ([⟨cstr "a", [5]⟩], ⟨.node 3 4 5 .null, 1⟩, false, [])
    ∧ subscribers_of (cstr "a") [⟨cstr "a", [5]⟩] = [5]
    ∧ ClientPtr.has_session 4 (.node 3 4 5 .null) = true
    ∧ (session_turn 1 ⟨put create_hash_table (cstr "a") (cstr "v"), [⟨cstr "a", [5]⟩],
        ⟨.node 3 4 5 .null, 1⟩⟩ 3 4 5 .disconnect).toOption.map
      (fun r => (r.1.subs_list, r.1.active_clients_list, r.2.1, r.2.2))
      = some ([⟨cstr "a", []⟩], ⟨.null, 0⟩, false,
          [.wrlock .subs_lock, .unlock .subs_lock, .close 3, .close 5, .response 4 [2, 0],
            .close 4]) := by
  refine ⟨?_, ?_, ?_, ?_⟩ <;> rfl

/-! ## Claim C26 -/

/-- C26 (snapshot ceiling) fails on the code. A job thread increments
`active_child` only after it has released `active_child_mutex`, so with
`MAX_PROC = 1` and two job threads the second thread runs its BACKUP while the
count is still 0: it does not wait and forks, and two children are live. With
`MAX_PROC = 0` one thread is enough: the first BACKUP finds
`active_child == MAX_PROC`, `wait` fails because there is no child, and the
thread forks all the same. -/
theorem backup_ceiling_exceeded :
    backup_fork 1 ⟨0, 0, 0, 0⟩ = ⟨0, 1, 0, 1⟩
    ∧ backup_fork 1 ⟨0, 1, 0, 1⟩ = ⟨0, 2, 0, 2⟩
    ∧ BackupReachable 1 2 ⟨0, 2, 0, 2⟩
    ∧ ¬ (((⟨0, 2, 0, 2⟩ : BackupState).running : Int) ≤ 1)
    ∧ backup_fork 0 ⟨0, 0, 0, 0⟩ = ⟨0, 1, 0, 1⟩
    ∧ BackupReachable 0 1 ⟨0, 1, 0, 1⟩
    ∧ ¬ (((⟨0, 1, 0, 1⟩ : BackupState).running : Int) ≤ 0) := by
  have h1 : backup_fork 1 ⟨0, 0, 0, 0⟩ = ⟨0, 1, 0, 1⟩ := by decide
  have h2 : backup_fork 1 ⟨0, 1, 0, 1⟩ = ⟨0, 2, 0, 2⟩ := by decide
  have h3 : backup_fork 0 ⟨0, 0, 0, 0⟩ = ⟨0, 1, 0, 1⟩ := by decide
  have r1 : BackupReachable 1 2 ⟨0, 1, 0, 1⟩ := by
    have := @BackupReachable.fork 1 2 ⟨0, 0, 0, 0⟩ BackupReachable.init (by decide)
    rw [h1] at this
    exact this
  have r2 : BackupReachable 1 2 ⟨0, 2, 0, 2⟩ := by
    have := @BackupReachable.fork 1 2 ⟨0, 1, 0, 1⟩ r1 (by decide)
    rw [h2] at this
    exact this
  have r3 : BackupReachable 0 1 ⟨0, 1, 0, 1⟩ := by
    have := @BackupReachable.fork 0 1 ⟨0, 0, 0, 0⟩ BackupReachable.init (by decide)
    rw [h3] at this
    exact this
  exact ⟨h1, h2, r2, by decide, h3, r3, by decide⟩

/-- With a single job thread and `MAX_PROC ≥ 1` the ceiling holds: in every
reachable state `active_child` plus the uncounted child is the number of
children not yet waited for, it is at most `MAX_PROC`, and so is the number of
live children. -/
theorem backup_ceiling_single_thread (MAX_PROC : Int) (s : BackupState) (hM : 1 ≤ MAX_PROC)
    (hr : BackupReachable MAX_PROC 1 s) :
    (s.running : Int) ≤ MAX_PROC
    ∧ s.active_child + (s.uncounted : Int) = (s.running : Int) + (s.zombies : Int)
    ∧ s.active_child + (s.uncounted : Int) ≤ MAX_PROC := by
  have key : s.active_child + (s.uncounted : Int) = (s.running : Int) + (s.zombies : Int)
      ∧ s.active_child + (s.uncounted : Int) ≤ MAX_PROC := by
    induction hr with
    | init => simp; omega
    | @fork s _ hu ih =>
      obtain ⟨h1, h2⟩ := ih
      have hu0 : s.uncounted = 0 := by omega
      unfold backup_fork wait_child
      by_cases hc : s.active_child = MAX_PROC
      · simp only [hc, if_true]
        by_cases hz : 0 < s.zombies
        · simp only [hz, if_true, hu0]
          constructor <;> (push_cast; omega)
        · simp only [hz, if_false]
          by_cases hrun : 0 < s.running
          · simp only [hrun, if_true, hu0]
            constructor <;> (push_cast; omega)
          · exfalso; omega
      · simp only [hc, if_false, hu0]
        constructor <;> (push_cast; omega)
    | @count s s2 _ he ih =>
      obtain ⟨h1, h2⟩ := ih
      unfold backup_count at he
      by_cases hu : 0 < s.uncounted
      · rw [if_pos hu] at he
        injection he with he
        subst he
        constructor <;> (simp only []; omega)
      · rw [if_neg hu] at he
        exact absurd he (by simp)
    | @child_exit s s2 _ he ih =>
      obtain ⟨h1, h2⟩ := ih
      unfold child_exits at he
      by_cases hrun : 0 < s.running
      · rw [if_pos hrun] at he
        injection he with he
        subst he
        constructor <;> (simp only []; omega)
      · rw [if_neg hrun] at he
        exact absurd he (by simp)
  obtain ⟨h1, h2⟩ := key
  exact ⟨by omega, h1, h2⟩

/-! ## Claim C27 -/

theorem ring_slots_distinct {M o j f : Nat} (hj : j < f) (hf : f < M) :
    (o + j) % M ≠ (o + f) % M := by
  intro h
  have h1 : (o + j) ≡ (o + f) [MOD M] := h
  have h2 : j ≡ f [MOD M] := Nat.ModEq.add_left_cancel' o h1
  have h3 : j % M = f % M := h2
  rw [Nat.mod_eq_of_lt (by omega), Nat.mod_eq_of_lt hf] at h3
  omega

theorem ringInv_init (M S : Nat) (hM : 0 < M) : RingInv M S (ring_init M S) [] := by
  unfold RingInv ring_init
  refine ⟨hM, hM, by simp, rfl, by simp, by simp, ?_⟩
  intro j hj
  simp at hj

theorem ringInv_produce {M S : Nat} (hM : 0 < M) (hS : S ≤ M) {r r2 : Ring}
    {pending : List Client} {client : Client} (hi : RingInv M S r pending)
    (hp : produce M r client .acquired = some r2) : RingInv M S r2 (pending ++ [client]) := by
  obtain ⟨h1, h2, h3, h4, h5, h6, h7⟩ := hi
  simp only [produce] at hp
  by_cases he : 0 < r.empty
  · rw [if_pos he] at hp
    injection hp with hp
    subst hp
    have hfull : r.full < M := by omega
    refine ⟨Nat.mod_lt _ hM, h2, by simp only []; omega, by simp [h4], by simp [h5], ?_, ?_⟩
    · simp only []
      rw [h6, Nat.add_mod, Nat.mod_mod, ← Nat.add_mod, Nat.add_assoc]
    · intro j hj
      simp only [] at hj ⊢
      by_cases hjf : j < r.full
      · have hne : r.in_pos ≠ (r.out + j) % M := by
          rw [h6]
          exact fun e => ring_slots_distinct hjf hfull e.symm
        rw [List.getD_eq_getElem?_getD, List.getElem?_set_ne hne, ← List.getD_eq_getElem?_getD,
          h7 j hjf]
        rw [List.getD_eq_getElem?_getD, List.getD_eq_getElem?_getD,
          List.getElem?_append_left (by omega)]
      · have hjeq : j = r.full := by omega
        subst hjeq
        rw [← h6]
        rw [List.getD_eq_getElem?_getD, List.getElem?_set_self (by omega)]
        rw [List.getD_eq_getElem?_getD, List.getElem?_append_right (by omega)]
        simp [h4]
  · rw [if_neg he] at hp
    exact absurd hp (by simp)

theorem ringInv_consume {M S : Nat} (hM : 0 < M) {r r2 : Ring}
    {pending : List Client} {client : Client} (hi : RingInv M S r pending)
    (hc : consume M r = some (client, r2)) :
    RingInv M S r2 pending.tail ∧ pending.head? = some client := by
  obtain ⟨h1, h2, h3, h4, h5, h6, h7⟩ := hi
  unfold consume at hc
  by_cases hf : 0 < r.full
  · rw [if_pos hf] at hc
    injection hc with hc
    injection hc with hc1 hc2
    subst hc2
    have hshift : ∀ k, ((r.out + 1) % M + k) % M = (r.out + (k + 1)) % M := by
      intro k
      rw [Nat.add_mod, Nat.mod_mod, ← Nat.add_mod]
      congr 1
      omega
    constructor
    · refine ⟨h1, Nat.mod_lt _ hM, by simp only []; omega, by simp [h4], h5, ?_, ?_⟩
      · simp only []
        rw [hshift, h6]
        congr 1
        omega
      · intro j hj
        simp only [] at hj ⊢
        rw [hshift, h7 (j + 1) (by omega)]
        cases pending with
        | nil => simp
        | cons c rest => simp
    · have h0 := h7 0 hf
      rw [Nat.add_zero, Nat.mod_eq_of_lt h2] at h0
      rw [h0] at hc1
      cases pending with
      | nil => simp at h4; omega
      | cons c rest =>
        simp at hc1
        simp [hc1]
  · rw [if_neg hf] at hc
    exact absurd hc (by simp)

theorem ringInv_of_reachable {M S : Nat} (hM : 0 < M) (hS : S ≤ M) {r : Ring}
    {pending : List Client} (hr : RingReachable M S r pending) : RingInv M S r pending := by
  induction hr with
  | init => exact ringInv_init M S hM
  | produce client _ hp ih => exact ringInv_produce hM hS ih hp
  | consume _ hc ih => exact (ringInv_consume hM ih hc).1

/-- In runs where `sem_wait` is never interrupted the ring is a bounded FIFO.
With an array of `MAX_SESSION_COUNT ≥ 1` entries and semaphores initialised for
`S ≤ MAX_SESSION_COUNT` records, in every state reachable from
`(in = 0, out = 0, empty = S, full = 0)`: `in` and `out` are below
`MAX_SESSION_COUNT`; `empty + full = S`; the pending records are `full ≤ S` in
number; when `S` records are pending `sem_wait(&empty)` does not return 0;
every pending record is still in its slot; and a consumer step returns the
oldest pending record. -/
theorem ring_bounded_fifo (MAX_SESSION_COUNT S : Nat) (r : Ring) (pending : List Client)
    (hM : 0 < MAX_SESSION_COUNT) (hS : S ≤ MAX_SESSION_COUNT)
    (hr : RingReachable MAX_SESSION_COUNT S r pending) :
    r.in_pos < MAX_SESSION_COUNT ∧ r.out < MAX_SESSION_COUNT
    ∧ r.empty + r.full = S
    ∧ pending.length = r.full ∧ pending.length ≤ S
    ∧ (pending.length = S → ∀ client, produce MAX_SESSION_COUNT r client .acquired = none)
    ∧ (∀ j, j < pending.length →
        r.clients.getD ((r.out + j) % MAX_SESSION_COUNT) Client.zero
          = pending.getD j Client.zero)
    ∧ (∀ client r2, consume MAX_SESSION_COUNT r = some (client, r2) →
        pending.head? = some client
          ∧ RingReachable MAX_SESSION_COUNT S r2 pending.tail) := by
  have hi := ringInv_of_reachable hM hS hr
  obtain ⟨h1, h2, h3, h4, h5, h6, h7⟩ := hi
  refine ⟨h1, h2, h3, h4, by omega, ?_, ?_, ?_⟩
  · intro hfull client
    simp only [produce]
    rw [if_neg (by omega)]
  · intro j hj
    exact h7 j (by omega)
  · intro client r2 hc
    exact ⟨(ringInv_consume hM ⟨h1, h2, h3, h4, h5, h6, h7⟩ hc).2, RingReachable.consume hr hc⟩

/-- C27 (bounded FIFO admission ring) fails on the code. `HostThreadFunction`
does not test the result of `sem_wait(&empty)`. With `S = MAX_SESSION_COUNT = 2`
and the records `c1`, `c2` pending (`empty = 0`, `full = 2`), a third
connection request whose `sem_wait` is interrupted by SIGUSR1 is stored all
the same: it overwrites `c1` at index 0 before `c1` was consumed, `full`
becomes 3 so that `empty + full = 3`, and the next consumer step returns the
third record instead of `c1`. -/
theorem ring_overwritten_on_interrupt :
    produce 2 (ring_init 2 2) ⟨[1], [], []⟩ .acquired
      = some ⟨[⟨[1], [], []⟩, Client.zero], 1, 0, 1, 1⟩
    ∧ produce 2 ⟨[⟨[1], [], []⟩, Client.zero], 1, 0, 1, 1⟩ ⟨[2], [], []⟩ .acquired
      = some ⟨[⟨[1], [], []⟩, ⟨[2], [], []⟩], 0, 0, 0, 2⟩
    ∧ produce 2 ⟨[⟨[1], [], []⟩, ⟨[2], [], []⟩], 0, 0, 0, 2⟩ ⟨[3], [], []⟩ .acquired = none
    ∧ produce 2 ⟨[⟨[1], [], []⟩, ⟨[2], [], []⟩], 0, 0, 0, 2⟩ ⟨[3], [], []⟩ .interrupted
      = some ⟨[⟨[3], [], []⟩, ⟨[2], [], []⟩], 1, 0, 0, 3⟩
    ∧ consume 2 ⟨[⟨[3], [], []⟩, ⟨[2], [], []⟩], 1, 0, 0, 3⟩
      = some (⟨[3], [], []⟩, ⟨[⟨[3], [], []⟩, ⟨[2], [], []⟩], 1, 1, 1, 2⟩) := by
  refine ⟨?_, ?_, ?_, ?_, ?_⟩ <;> decide

/-! ## Claims C28 to C30 -/

theorem read_pair_eq (ht : HashTable) (key : CString) :
    read_pair ht key =
      match bucket_index (hash key) with
      | none => .error (.out_of_bounds (hash key))
      | some _ => .ok (lookup ht key) := by
  cases hi : bucket_index (hash key) with
  | none =>
    unfold read_pair
    simp only [hi]
  | some i =>
    rw [read_pair_spec ht key hi]
    unfold lookup
    simp only [hi]

theorem lookup_remove_ne (ht : HashTable) (key key2 : CString) (hne : key2 ≠ key) :
    lookup (remove ht key) key2 = lookup ht key2 := by
  unfold remove
  cases hi : bucket_index (hash key) with
  | none => rfl
  | some i =>
    unfold lookup
    cases hj : bucket_index (hash key2) with
    | none => rfl
    | some j =>
      simp only [HashTable.set_head]
      by_cases hij : j = i
      · subst hij
        rw [Function.update_same]
        exact find_value_delete_bucket_ne key key2 hne _
      · rw [Function.update_noteq hij]

/-- The frame property of the store for a key `K` with an alphanumeric first
character: `write_pair(K, V)` and `delete_pair(K)` return and leave the result
of `read_pair` on every other key unchanged, and `delete_pair` on an absent key
returns 1 and leaves the table unchanged. -/
theorem store_frame (ht : HashTable) (subs : SubscriptionList) (K K2 V : CString)
    (hk : alnum_first K) (hne : K2 ≠ K) :
    (∃ evs, write_pair ht subs K V = .ok (0, put ht K V, evs)
        ∧ read_pair (put ht K V) K2 = read_pair ht K2)
    ∧ (∃ r subs2 evs, delete_pair ht subs K = .ok (r, remove ht K, subs2, evs)
        ∧ read_pair (remove ht K) K2 = read_pair ht K2)
    ∧ (lookup ht K = none → delete_pair ht subs K = .ok (1, ht, subs, [])) := by
  obtain ⟨evs, hw, _⟩ := write_pair_put ht subs K V hk
  obtain ⟨subs2, evs2, hd, _⟩ := delete_pair_remove ht subs K hk
  refine ⟨⟨evs, hw, ?_⟩, ⟨_, subs2, evs2, hd, ?_⟩, ?_⟩
  · rw [read_pair_eq, read_pair_eq ht, lookup_put ht K V K2 hk, if_neg hne]
  · rw [read_pair_eq, read_pair_eq ht, lookup_remove_ne ht K K2 hne]
  · intro ha
    rw [delete_pair_exact ht subs K hk, if_pos ha]

/-- C28 (frame property of the store) fails on the code for a key whose first
character is not alphanumeric: `_x` differs from `a` and is absent from the
table holding `(a, v)`, yet `delete_pair(_x)` does not return 1 and
`write_pair(_x, w)` does not return: both index the bucket array with the `-1`
returned by `hash`. -/
theorem frame_breaks_on_invalid_key :
    cstr "_x" ≠ cstr "a"
    ∧ stored (put create_hash_table (cstr "a") (cstr "v")) (cstr "_x") = none
    ∧ delete_pair (put create_hash_table (cstr "a") (cstr "v")) [] (cstr "_x")
        = .error (.out_of_bounds (-1))
    ∧ write_pair (put create_hash_table (cstr "a") (cstr "v")) [] (cstr "_x") (cstr "w")
        = .error (.out_of_bounds (-1)) :=
  ⟨by decide, rfl, rfl, rfl⟩

theorem takeWhile_bytes_zeros (l : List Nat) (n : Nat) (h : ∀ b ∈ l, 0 < b ∧ b < 256) :
    (l ++ List.replicate n 0).takeWhile (fun b => b != 0) = l := by
  induction l with
  | nil =>
    cases n with
    | zero => rfl
    | succ m => simp [List.replicate_succ]
  | cons a rest ih =>
    have ha : a ≠ 0 := by have := (h a (by simp)).1; omega
    simp only [List.cons_append]
    rw [List.takeWhile_cons_of_pos (by simp [ha]), ih (fun b hb => h b (by simp [hb]))]

theorem field_string_strncpy (l rest : List Nat) (h : ∀ b ∈ l, 0 < b ∧ b < 256)
    (hl : l.length ≤ MAX_STRING_SIZE) :
    field_string (strncpy l MAX_STRING_SIZE ++ rest) = l := by
  have hlen : (strncpy l MAX_STRING_SIZE).length = MAX_STRING_SIZE := by
    unfold strncpy
    simp only [List.length_append, List.length_take, List.length_replicate]
    omega
  unfold field_string
  rw [List.take_append_of_le_length (by omega), List.take_of_length_le (by omega)]
  unfold strncpy
  rw [List.take_of_length_le hl]
  exact takeWhile_bytes_zeros l _ h

/-- C29: notification wire round trip. For every key and every value of fewer
than `MAX_STRING_SIZE` bytes, the frame that `write_notification` produces for
type 1 is decoded by the client's `notifications_thread` to code 1, the same
key and the same value, and the frame for type 2 to code 2, the same key and
`DELETED`. -/
theorem notification_round_trip (fd : Int) (key value : CString) (v : Option CString)
    (hk : strlen key < MAX_STRING_SIZE) (hv : strlen value < MAX_STRING_SIZE) :
    (∃ frame, write_notification fd key (some value) 1 = .ok [.notification fd frame]
        ∧ decode_notification frame = (1, key.bytes, value.bytes))
    ∧ (∃ frame, write_notification fd key v 2 = .ok [.notification fd frame]
        ∧ decode_notification frame = (2, key.bytes, ascii "DELETED")) := by
  have hlen : ∀ l : List Nat, (strncpy l MAX_STRING_SIZE).length = MAX_STRING_SIZE := by
    intro l
    unfold strncpy
    simp only [List.length_append, List.length_take, List.length_replicate]
    omega
  unfold strlen at hk hv
  have hd : ∀ b ∈ ascii "DELETED", 0 < b ∧ b < 256 := by decide
  have key_field : ∀ tail : List Nat,
      field_string (List.drop 1 ([1] ++ strncpy key.bytes MAX_STRING_SIZE ++ tail))
        = key.bytes := by
    intro tail
    exact field_string_strncpy key.bytes tail key.valid (by omega)
  have key_field2 : ∀ tail : List Nat,
      field_string (List.drop 1 ([2] ++ strncpy key.bytes MAX_STRING_SIZE ++ tail))
        = key.bytes := by
    intro tail
    exact field_string_strncpy key.bytes tail key.valid (by omega)
  have val_field : ∀ (c : Nat) (l : List Nat), (∀ b ∈ l, 0 < b ∧ b < 256) →
      l.length ≤ MAX_STRING_SIZE →
      field_string (List.drop (1 + MAX_STRING_SIZE)
        ([c] ++ strncpy key.bytes MAX_STRING_SIZE ++ strncpy l MAX_STRING_SIZE)) = l := by
    intro c l hval hll
    have e : List.drop (1 + MAX_STRING_SIZE)
        ([c] ++ strncpy key.bytes MAX_STRING_SIZE ++ strncpy l MAX_STRING_SIZE)
        = strncpy l MAX_STRING_SIZE := by
      rw [List.drop_append_of_le_length (by simp [hlen]; omega)]
      rw [List.drop_of_length_le (by simp [hlen]; omega)]
      rfl
    rw [e]
    have := field_string_strncpy l [] hval hll
    rw [List.append_nil] at this
    exact this
  refine ⟨⟨changed_frame key value, rfl, ?_⟩, ⟨deleted_frame key, rfl, ?_⟩⟩
  · unfold decode_notification changed_frame
    rw [key_field, val_field 1 value.bytes value.valid (by omega)]
    rfl
  · unfold decode_notification deleted_frame
    rw [key_field2, val_field 2 (ascii "DELETED") hd (by decide)]
    rfl

/-- Witness of C29 at key `apple` and value `red`. -/
theorem notification_round_trip_witness :
    ∃ frame, write_notification 7 (cstr "apple") (some (cstr "red")) 1
        = .ok [.notification 7 frame]
      ∧ decode_notification frame = (1, ascii "apple", ascii "red") :=
  (notification_round_trip 7 (cstr "apple") (cstr "red") none (by decide) (by decide)).1

/-- C30 (client subscription counter accuracy) fails on the code. With
`MAX_NUMBER_SUB = 2`, a client that subscribes to the existing key `a` twice
gets the responses `[3, 1]` and `[3, 2]` and increments `current_subs` both
times (`if (response[1])`): `current_subs` is 2 while the client is subscribed
to one key on the server, and a later `kvs_subscribe` to another key is refused
as "max number of subscriptions reached". -/
theorem client_counter_counts_duplicates :
    subscribe_call 2 2 (put create_hash_table (cstr "a") (cstr "v")) [] 0 (cstr "a") 4 5
      = .ok ([⟨cstr "a", [5]⟩], 1)
    ∧ subscribe_call 2 2 (put create_hash_table (cstr "a") (cstr "v")) [⟨cstr "a", [5]⟩] 1
        (cstr "a") 4 5
      = .ok ([⟨cstr "a", [5]⟩], 2)
    ∧ subscribed_keys 5 [⟨cstr "a", [5]⟩] = 1
    ∧ kvs_subscribe 2 1 [3, 2] = (0, 2)
    ∧ kvs_subscribe 2 2 [] = (1, 2) := by
  refine ⟨?_, ?_, ?_, ?_, ?_⟩ <;> rfl

/-! ## The subscription paths away from the defects -/

theorem add_subscription_accepted {S : Nat} {ht : HashTable} {subs : SubscriptionList}
    {K : CString} {h : Int} (hp : lookup ht K ≠ none)
    (hn : h ∉ subscribers_of K subs) (hcap : (subscribers_of K subs).length < 10 * S)
    (h0 : h ≠ 0 ∨ K ∈ subs.map Subscription.key) :
    ∃ subs1 evs1, add_subscription S ht subs K h = .ok (1, subs1, evs1)
      ∧ K ∈ subs1.map Subscription.key
      ∧ subscribers_of K subs1 = subscribers_of K subs ++ [h]
      ∧ responses evs1 = [] := by
  have hk := alnum_of_lookup hp
  by_cases hm : K ∈ subs.map Subscription.key
  · have ha := @add_subscription_found S ht subs K h hm
    rw [if_neg hn, if_pos hcap] at ha
    refine ⟨_, _, ha, ?_, ?_, rfl⟩
    · rw [set_subscribers_keys]; exact hm
    · rw [subscribers_of_set_subscribers hm, if_pos rfl]
  · have ha := @add_subscription_new S ht subs K h hm hk
    have hz : h ≠ 0 := by
      rcases h0 with h0 | h0
      · exact h0
      · exact absurd h0 hm
    rw [if_pos hp, if_neg (by omega : ¬ 10 * S = 0), if_neg hz] at ha
    refine ⟨_, _, ha, by simp, ?_, rfl⟩
    simp [subscribers_of, subscribers_of_eq_nil hm]

/-- The round trip when the subscriber array is not full: for a key `K` present
in the store, a handle `h ≠ 0` (a session's notification descriptor is not 0)
not subscribed to `K` and a subscriber set of `K` that is not full,
`add_subscription` returns 1, `unsubscribe_from_key` returns 0,
`add_subscription` returns 1 again and `h` is then subscribed to `K` once. -/
theorem subscribe_round_trip (S : Nat) (ht : HashTable) (subs : SubscriptionList)
    (K : CString) (h : Int) (hr : ReachableState S ht subs) (hp : lookup ht K ≠ none)
    (hn : h ∉ subscribers_of K subs) (h0 : h ≠ 0)
    (hcap : (subscribers_of K subs).length < 10 * S) :
    ∃ subs1 evs1 subs3 evs3, add_subscription S ht subs K h = .ok (1, subs1, evs1)
      ∧ (unsubscribe_from_key subs1 K h).1 = 0
      ∧ add_subscription S ht (unsubscribe_from_key subs1 K h).2.1 K h = .ok (1, subs3, evs3)
      ∧ (subscribers_of K subs3).count h = 1 := by
  obtain ⟨subs1, evs1, ha1, hk1, hs1, _⟩ := add_subscription_accepted hp hn hcap (Or.inl h0)
  have hr1 : ReachableState S ht subs1 := ReachableState.subscribe hr ha1
  have hl := @unsubscribe_loop_found K h subs1 hk1
  rw [hs1, if_pos (by simp)] at hl
  have herase : (subscribers_of K subs ++ [h]).erase h = subscribers_of K subs := by
    rw [List.erase_append_right _ hn]
    simp
  rw [herase] at hl
  have hu : unsubscribe_from_key subs1 K h
      = (0, set_subscribers K (subscribers_of K subs) subs1,
          [.wrlock .subs_lock, .unlock .subs_lock]) := by
    unfold unsubscribe_from_key
    rw [hl]
  have hk2 : K ∈ (set_subscribers K (subscribers_of K subs) subs1).map Subscription.key := by
    rw [set_subscribers_keys]; exact hk1
  have hs2 : subscribers_of K (set_subscribers K (subscribers_of K subs) subs1)
      = subscribers_of K subs := by
    rw [subscribers_of_set_subscribers hk1, if_pos rfl]
  have ha3 := @add_subscription_found S ht (set_subscribers K (subscribers_of K subs) subs1)
    K h hk2
  rw [hs2, if_neg hn, if_pos hcap] at ha3
  refine ⟨subs1, evs1, _, _, ha1, by rw [hu], by rw [hu]; exact ha3, ?_⟩
  rw [subscribers_of_set_subscribers hk2, if_pos rfl]
  simp [List.count_append, List.count_eq_zero_of_not_mem hn]

/-- The SUBSCRIBE responses of C20 away from the defects, for a key with an
alphanumeric first character: `[3, 2]` when the handle is already subscribed,
`[3, 0]` when the key is not in the store, both with the registry unchanged,
and `[3, 1]` with the handle appended to the subscribers of the key when the
key is in the store, the handle is not subscribed, the set is not full and the
handle is not 0 or the key already has a node. -/
theorem subscribe_outcome (S : Nat) (ht : HashTable) (subs : SubscriptionList)
    (K : CString) (h resp_fd : Int) (hr : ReachableState S ht subs) (hk : alnum_first K) :
    (h ∈ subscribers_of K subs →
        ∃ evs, handle_subscribe S ht subs K resp_fd h = .ok (subs, evs)
          ∧ responses evs = [(resp_fd, [3, 2])])
    ∧ (lookup ht K = none →
        ∃ evs, handle_subscribe S ht subs K resp_fd h = .ok (subs, evs)
          ∧ responses evs = [(resp_fd, [3, 0])])
    ∧ (lookup ht K ≠ none → h ∉ subscribers_of K subs →
        (subscribers_of K subs).length < 10 * S →
        (h ≠ 0 ∨ K ∈ subs.map Subscription.key) →
        ∃ subs1 evs, handle_subscribe S ht subs K resp_fd h = .ok (subs1, evs)
          ∧ responses evs = [(resp_fd, [3, 1])]
          ∧ subscribers_of K subs1 = subscribers_of K subs ++ [h]) := by
  refine ⟨?_, ?_, ?_⟩
  · intro hm
    have ha := @add_subscription_found S ht subs K h (mem_keys_of_subscribers_of hm)
    rw [if_pos hm] at ha
    refine ⟨[Event.wrlock .subs_lock, Event.unlock .subs_lock]
      ++ write_response resp_fd OP_CODE_SUB 2, ?_, ?_⟩
    · unfold handle_subscribe
      rw [ha]
      rfl
    · rfl
  · intro hnone
    have ha := add_subscription_absent K h hr hk hnone
    refine ⟨[Event.wrlock .subs_lock, Event.rdlock .global_lock, Event.unlock .subs_lock]
      ++ write_response resp_fd OP_CODE_SUB 0, ?_, ?_⟩
    · unfold handle_subscribe
      rw [ha]
      rfl
    · rfl
  · intro hp hn hcap h0
    obtain ⟨subs1, evs1, ha, _, hs1, hresp⟩ := add_subscription_accepted hp hn hcap h0
    refine ⟨subs1, evs1 ++ write_response resp_fd OP_CODE_SUB 1, ?_, ?_, hs1⟩
    · unfold handle_subscribe
      rw [ha]
      rfl
    · rw [responses_append, hresp]
      rfl

/-! ## Effects of the reset and of a failed read, in general -/

/-- What the reset does whenever it returns: the registry is empty, the table is
the same, `active_clients_counter` is 0, and `head` is dangling unless the list
was empty. -/
theorem sigusr1_reset_effect {st st2 : ServerState} {evs : List Event}
    (h : sigusr1_reset st = .ok (st2, evs)) :
    st2.subs_list = [] ∧ st2.kvs_table = st.kvs_table
    ∧ st2.active_clients_list.active_clients_counter = 0
    ∧ (st.active_clients_list.head ≠ .null → st2.active_clients_list.head = .dangling) := by
  unfold sigusr1_reset disconnect_all_clients at h
  cases hc : close_and_free_clients st.active_clients_list.head with
  | error e => simp [hc] at h
  | ok evs1 =>
    simp only [hc] at h
    injection h with h
    injection h with h1 h2
    subst h1
    refine ⟨rfl, rfl, rfl, ?_⟩
    intro hne
    cases hh : st.active_clients_list.head with
    | null => exact absurd hh hne
    | dangling => simp only [hh]
    | node a b c d => simp only [hh]

/-- A failed read of the op code ends the turn with the state unchanged and an
empty trace, for every state. -/
theorem session_turn_read_failed (S : Nat) (st : ServerState) (req_fd resp_fd notif_fd : Int) :
    session_turn S st req_fd resp_fd notif_fd .read_failed = .ok (st, false, []) := rfl

/-- The client's `kvs_subscribe` increments `current_subs` for every nonzero
second response byte, 2 included. -/
theorem kvs_subscribe_increments (MAX_NUMBER_SUB current_subs : Int) (op result : Nat)
    (hq : current_subs < MAX_NUMBER_SUB) (hr : result ≠ 0) :
    kvs_subscribe MAX_NUMBER_SUB current_subs [op, result] = (0, current_subs + 1) := by
  unfold kvs_subscribe
  rw [if_neg (by omega)]
  simp [hr]

end KVS
